import Mathlib

/-!
# Verification of the graph-algorithm core of `LearnPython`

This file gives a shallow embedding, in Lean 4, of the graph algorithms in
`src/graph/famous_algo/` (Dijkstra, Bellman-Ford, Floyd-Warshall, Johnson,
Kruskal, Prim, Kosaraju, Kahn) and proves or refutes the specification claims
about them.

Modelling conventions:

* Python vertices are `ℕ`, edge weights are `ℤ`.
* The `float("inf")` sentinel is modelled by `⊤` in `WithTop ℤ`; Python's
  `+` and `<` on floats restricted to `{integers, inf}` agree with the
  `WithTop ℤ` operations used here (`⊤ + x = ⊤`, `¬(⊤ < ⊤)`, `x < ⊤` for
  finite `x`).
* A Python list is a Lean `List`; reading `xs[i]` is `List.getD xs i default`
  and writing `xs[i] = a` is `List.set xs i a` (indices are in bounds in every
  run considered, so the defaults are never observed).
* `heapq` is modelled by its observable specification: the heap holds a
  collection of tuples ordered lexicographically, `heappush` inserts a tuple
  and `heappop` removes the least tuple.  We keep the collection as a
  lexicographically sorted list (pop is `head`, push is ordered insertion);
  since tuples are compared by value this has exactly the pop sequence of the
  binary heap.
* `print` calls have no effect on the returned values and are omitted.
* Python `while` loops whose termination is a theorem rather than a structural
  fact are given a fuel parameter; the functions return `none` only when the
  fuel runs out, and concrete runs are evaluated with ample fuel.
-/

set_option maxRecDepth 4000

namespace LearnPython

/-! ## Matrix helpers (`V × V` lists of lists, `float("inf")` as `⊤`) -/

/-- `m[i][j]` for a matrix stored as a list of rows. -/
def mget (m : List (List (WithTop ℤ))) (i j : ℕ) : WithTop ℤ :=
  (m.getD i []).getD j ⊤

/-- `m[i][j] = x` for a matrix stored as a list of rows. -/
def mset (m : List (List (WithTop ℤ))) (i j : ℕ) (x : WithTop ℤ) :
    List (List (WithTop ℤ)) :=
  m.set i ((m.getD i []).set j x)

/-! ## List access helpers -/

theorem getD_set_ne {α : Type} (l : List α) {i j : ℕ} (a dflt : α) (h : i ≠ j) :
    (l.set i a).getD j dflt = l.getD j dflt := by
  simp [List.getD_eq_getElem?_getD, List.getElem?_set, h]

theorem getD_set_self {α : Type} (l : List α) {i : ℕ} (a dflt : α)
    (h : i < l.length) : (l.set i a).getD i dflt = a := by
  simp [List.getD_eq_getElem?_getD, List.getElem?_set, h]

theorem getD_replicate {α : Type} (n v : ℕ) (a : α) :
    (List.replicate n a).getD v a = a := by
  rw [List.getD_eq_getElem?_getD, List.getElem?_replicate]
  split <;> rfl

theorem getD_set {α : Type} (l : List α) (i j : ℕ) (a dflt : α) :
    (l.set i a).getD j dflt =
      if i = j ∧ i < l.length then a else l.getD j dflt := by
  by_cases hij : i = j
  · subst hij
    by_cases hi : i < l.length
    · simp [getD_set_self l a dflt hi, hi]
    · simp only [hi, and_false, if_false]
      rw [List.set_eq_of_length_le (by omega)]
  · simp [getD_set_ne l a dflt hij, hij]

theorem mem_foldl_append {α β : Type} (f : α → List β) (l : List α)
    (init : List β) (x : β) :
    x ∈ l.foldl (fun es a => es ++ f a) init ↔ x ∈ init ∨ ∃ a ∈ l, x ∈ f a := by
  induction l generalizing init with
  | nil => simp
  | cons b t ih =>
    simp only [List.foldl_cons, ih, List.mem_append, List.mem_cons, or_assoc]
    constructor
    · rintro (h | h | ⟨a, ha, hx⟩)
      · exact Or.inl h
      · exact Or.inr ⟨b, Or.inl rfl, h⟩
      · exact Or.inr ⟨a, Or.inr ha, hx⟩
    · rintro (h | ⟨a, (rfl | ha), hx⟩)
      · exact Or.inl h
      · exact Or.inr (Or.inl hx)
      · exact Or.inr (Or.inr ⟨a, ha, hx⟩)

/-! ## Floyd-Warshall, from `shortest_path/_3_Floyd_Warshall.py`

The source's triple loop reuses the loop variable `i` for both the outer
"intermediate vertex" loop and the second "source vertex" loop:

    for i in range(n):
        for i in range(n):
            for j in range(n):
                if distance[i][j] > distance[i][i] + distance[i][j]:
                    distance[i][j] = distance[i][i] + distance[i][j]
                    parents[i][j] = parents[i][j]

so the body only ever consults `distance[i][i]` and `distance[i][j]`; the
embedding reproduces this faithfully. -/

/-- Body of the innermost loop of the source `floyd_warshall` (with the
shadowed loop variable, the test is `distance[i][j] > distance[i][i] +
distance[i][j]`; the `parents[i][j] = parents[i][j]` assignment is a no-op
and is dropped). -/
def fwBody (d : List (List (WithTop ℤ))) (i j : ℕ) : List (List (WithTop ℤ)) :=
  if mget d i j > mget d i i + mget d i j then
    mset d i j (mget d i i + mget d i j)
  else d

/-- The two inner loops of the source `floyd_warshall` (`for i in range(n):
for j in range(n): ...`). -/
def fwPass (n : ℕ) (d : List (List (WithTop ℤ))) : List (List (WithTop ℤ)) :=
  (List.range n).foldl (fun d i => (List.range n).foldl (fun d j => fwBody d i j) d) d

/-- The outer loop of the source `floyd_warshall`: its loop variable is
immediately shadowed, so it only repeats `fwPass` `n` times. -/
def fwLoops (n : ℕ) (d : List (List (WithTop ℤ))) : List (List (WithTop ℤ)) :=
  (List.range n).foldl (fun d _ => fwPass n d) d

/-- The `parents` matrix initialised by the source `floyd_warshall`
(`None if graph[i][j] == INF or i == j else i`); the main loop never changes
it (its only write is the no-op `parents[i][j] = parents[i][j]`). -/
def fwParents (graph : List (List (WithTop ℤ))) : List (List (Option ℕ)) :=
  (List.range graph.length).map fun i =>
    (List.range graph.length).map fun j =>
      if mget graph i j = ⊤ ∨ i = j then none else some i

/-- `floyd_warshall(graph)` from `_3_Floyd_Warshall.py`: copies the matrix,
runs the (shadowed-variable) triple loop, then returns `None` if some diagonal
entry is negative and the distance matrix otherwise.  The path printing at the
end only reads `distance`/`parents` and is omitted. -/
def floyd_warshall (graph : List (List (WithTop ℤ))) :
    Option (List (List (WithTop ℤ))) :=
  let n := graph.length
  let distance := fwLoops n graph
  if (List.range n).any (fun i => decide (mget distance i i < 0)) then none
  else some distance

/-- Modelled from the spec's claim text (the algorithm the source *intended*):
for each intermediate vertex `k` in order `0..V-1`, for each pair `(i,j)`,
replace `distance[i][j]` with `min(distance[i][j], distance[i][k] +
distance[k][j])`. -/
def floydWarshallSpec (graph : List (List (WithTop ℤ))) :
    List (List (WithTop ℤ)) :=
  let n := graph.length
  (List.range n).foldl
    (fun d k =>
      (List.range n).foldl
        (fun d i =>
          (List.range n).foldl
            (fun d j => mset d i j (min (mget d i j) (mget d i k + mget d k j)))
            d)
        d)
    graph

/-- The `corresponding weight matrix` of an adjacency list, as described by the
spec for Floyd-Warshall's input: entry `(i,j)` is `0` on the diagonal, the
weight of the edge `i → j` if present, and the infinity sentinel otherwise. -/
def adjToMatrix (adj : List (List (ℕ × ℤ))) : List (List (WithTop ℤ)) :=
  (List.range adj.length).map fun i =>
    (List.range adj.length).map fun j =>
      if i = j then 0
      else
        match (adj.getD i []).find? (fun p => p.1 = j) with
        | some p => (p.2 : WithTop ℤ)
        | none => ⊤

/-- A 3-vertex path graph `0 →(2) 1 →(2) 2` as a weight matrix. -/
def fwG3 : List (List (WithTop ℤ)) :=
  [[0, 2, ⊤], [⊤, 0, 2], [⊤, ⊤, 0]]

/-- **C1.** On the weight matrix of the path `0 →(2) 1 →(2) 2`, the source
`floyd_warshall` returns its input unchanged — entry `(0,2)` stays at the
infinity sentinel — while the algorithm described by the claim (relaxing
through each intermediate vertex `k = 0..V-1`) yields `4` there.  The
shadowed loop variable means the code never varies the intermediate vertex,
contradicting the claim (and the source's own docstring). -/
theorem c1_floyd_warshall_shadowing_bug :
    floyd_warshall fwG3 = some fwG3 ∧
      mget (floydWarshallSpec fwG3) 0 2 = (4 : ℤ) ∧
      mget fwG3 0 2 = ⊤ ∧
      floyd_warshall fwG3 ≠ some (floydWarshallSpec fwG3) := by
  refine ⟨by decide, by decide, by decide, by decide⟩

/-! ## Kahn's topological sort, from `kahn_Topological_sort.py` -/

/-- Step 1 of the source `kahn_topological_sort`: the adjacency list built by
`adj[u].append(v)` over the edge list. -/
def kahnAdj (n : ℕ) (edges : List (ℕ × ℕ)) : List (List ℕ) :=
  edges.foldl (fun adj e => adj.set e.1 (adj.getD e.1 [] ++ [e.2]))
    (List.replicate n [])

/-- Step 1 of the source `kahn_topological_sort`: the in-degree array built by
`in_degree[v] += 1` (Python integers, so `ℤ`). -/
def kahnIndeg (n : ℕ) (edges : List (ℕ × ℕ)) : List ℤ :=
  edges.foldl (fun ind e => ind.set e.2 (ind.getD e.2 0 + 1))
    (List.replicate n 0)

/-- Step 2 of the source `kahn_topological_sort`: seed the queue with all
vertices of in-degree `0`, in increasing order. -/
def kahnInitQueue (n : ℕ) (ind : List ℤ) : List ℕ :=
  (List.range n).filter (fun i => ind.getD i 0 == 0)

/-- The inner `for neighbor in adj[node]` loop: decrement each neighbour's
in-degree and enqueue it if the decremented value is `0`. -/
def kahnStep (ind : List ℤ) (queue : List ℕ) (nbrs : List ℕ) :
    List ℤ × List ℕ :=
  nbrs.foldl
    (fun st v =>
      let ind := st.1.set v (st.1.getD v 0 - 1)
      if ind.getD v 0 == 0 then (ind, st.2 ++ [v]) else (ind, st.2))
    (ind, queue)

/-- Step 3 of the source `kahn_topological_sort`: the `while queue` loop
(`deque.popleft` is the list head).  Returns the topological order, the
remaining queue and the in-degree array; the fuel only bounds the number of
iterations and `n + 1` is provably enough (`kahnLoop_queue_empty` below). -/
def kahnLoop (adj : List (List ℕ)) :
    ℕ → List ℕ → List ℤ → List ℕ → List ℕ × List ℕ × List ℤ
  | 0, queue, ind, topo => (topo, queue, ind)
  | fuel + 1, queue, ind, topo =>
    match queue with
    | [] => (topo, [], ind)
    | node :: rest =>
      let st := kahnStep ind rest (adj.getD node [])
      kahnLoop adj fuel st.2 st.1 (topo ++ [node])

/-- The `topo_order` list computed by the source before its final length
check. -/
def kahnOrder (n : ℕ) (edges : List (ℕ × ℕ)) : List ℕ :=
  let ind := kahnIndeg n edges
  (kahnLoop (kahnAdj n edges) (n + 1) (kahnInitQueue n ind) ind []).1

/-- `kahn_topological_sort(n, edges)` from `kahn_Topological_sort.py`:
run the queue loop, then return `[]` if fewer than `n` vertices were ordered
(cycle detected) and the order otherwise. -/
def kahn_topological_sort (n : ℕ) (edges : List (ℕ × ℕ)) : List ℕ :=
  let topo := kahnOrder n edges
  if topo.length ≠ n then [] else topo

/-- **C5.** Whenever the queue loop orders fewer than `n` vertices, the
source returns the distinct empty result; in every case the returned list is
either empty or a complete ordering of length `n` — never a partial ordering
presented as valid. -/
theorem c5_kahn_cycle_distinct_empty (n : ℕ) (edges : List (ℕ × ℕ)) :
    ((kahnOrder n edges).length < n → kahn_topological_sort n edges = []) ∧
      (kahn_topological_sort n edges = [] ∨
        (kahn_topological_sort n edges).length = n) := by
  unfold kahn_topological_sort
  constructor
  · intro h
    rw [if_pos]
    omega
  · by_cases h : (kahnOrder n edges).length = n
    · right
      simp [h]
    · left
      simp [h]

/-! ## Union-Find and Kruskal, from `Kruskal_MST.py` -/

/-- The `DisjointSet` class: `parent` (initially each node its own parent)
and `rank` arrays. -/
structure DisjointSet where
  parent : List ℕ
  rank : List ℕ
  deriving DecidableEq

/-- `DisjointSet.__init__(n)`. -/
def dsInit (n : ℕ) : DisjointSet :=
  ⟨List.range n, List.replicate n 0⟩

/-- `DisjointSet.find(node)` with path compression:

    if self.parent[node] != node:
        self.parent[node] = self.find(self.parent[node])
    return self.parent[node]

The recursion is on the parent chain; the fuel only bounds its depth and `n`
is provably enough for well-formed states.  Returns the updated state and the
root. -/
def dsFind : ℕ → DisjointSet → ℕ → DisjointSet × ℕ
  | 0, ds, node => (ds, node)
  | fuel + 1, ds, node =>
    let p := ds.parent.getD node node
    if p ≠ node then
      let r := dsFind fuel ds p
      (⟨r.1.parent.set node r.2, r.1.rank⟩, r.2)
    else (ds, node)

/-- `DisjointSet.union(u, v)`: find both roots (mutating via compression),
no-op on equal roots, otherwise union by rank. -/
def dsUnion (fuel : ℕ) (ds : DisjointSet) (u v : ℕ) : DisjointSet :=
  let fu := dsFind fuel ds u
  let fv := dsFind fuel fu.1 v
  let ds2 := fv.1
  let ru := fu.2
  let rv := fv.2
  if ru = rv then ds2
  else if ds2.rank.getD ru 0 > ds2.rank.getD rv 0 then
    ⟨ds2.parent.set rv ru, ds2.rank⟩
  else if ds2.rank.getD ru 0 < ds2.rank.getD rv 0 then
    ⟨ds2.parent.set ru rv, ds2.rank⟩
  else
    ⟨ds2.parent.set rv ru, ds2.rank.set ru (ds2.rank.getD ru 0 + 1)⟩

/-- The comparison `key=lambda e: e[2]` used by `edges.sort`. -/
def edgeLE (a b : ℕ × ℕ × ℤ) : Bool :=
  a.2.2 ≤ b.2.2

/-- `kruskal(n, edges)` from `Kruskal_MST.py`.  `edges.sort(key=...)`
reorders the caller's list in place; the sorted list is returned as the
second component to model that effect (Python's `list.sort` is a stable sort
by the key, which as a value equals `mergeSort` with `edgeLE`).  The first
component is the returned `mst`. -/
def kruskal (n : ℕ) (edges : List (ℕ × ℕ × ℤ)) :
    List (ℕ × ℕ × ℤ) × DisjointSet × List (ℕ × ℕ × ℤ) :=
  let sorted := edges.mergeSort edgeLE
  let res := sorted.foldl
    (fun st e =>
      let f1 := dsFind n st.2 e.1
      let f2 := dsFind n f1.1 e.2.1
      if f1.2 ≠ f2.2 then (st.1 ++ [e], dsUnion n f2.1 e.1 e.2.1)
      else (st.1, f2.1))
    ([], dsInit n)
  (res.1, res.2, sorted)

/-- **C10.** After `kruskal(n, edges)` the caller's edge list has been
reordered in place into ascending order by weight: the post-call list is
sorted by weight and is a permutation of the input list.  (The only other
input, `n`, is an immutable Python `int` and cannot be mutated.) -/
theorem c10_kruskal_sorts_callers_list (n : ℕ) (edges : List (ℕ × ℕ × ℤ)) :
    List.Sorted (fun a b : ℕ × ℕ × ℤ => a.2.2 ≤ b.2.2) (kruskal n edges).2.2 ∧
      (kruskal n edges).2.2.Perm edges := by
  constructor
  · have h := @List.sorted_mergeSort _ edgeLE
      (fun a b c hab hbc => by
        simp only [edgeLE, decide_eq_true_eq] at hab hbc ⊢
        omega)
      (fun a b => by
        simp only [edgeLE, Bool.or_eq_true, decide_eq_true_eq]
        omega)
      edges
    exact h.imp (by simp [edgeLE])
  · exact List.mergeSort_perm edges edgeLE

/-! ## Johnson's algorithm, from `shortest_path/_4_Johnson.py`

`_4_Johnson.py` contains its own (simpler) `bellman_ford` and `dijkstra`;
they are embedded separately from the stand-alone files' versions. -/

/-- One relaxation pass of `_4_Johnson.py`'s `bellman_ford`:

    for u, v, w in edges:
        if distance[u] != INF and distance[u] + w < distance[v]:
            distance[v] = distance[u] + w
-/
def Johnson.bfRound (edges : List (ℕ × ℕ × ℤ)) (d : List (WithTop ℤ)) :
    List (WithTop ℤ) :=
  edges.foldl
    (fun d e =>
      if d.getD e.1 ⊤ ≠ ⊤ ∧ d.getD e.1 ⊤ + (e.2.2 : WithTop ℤ) < d.getD e.2.1 ⊤ then
        d.set e.2.1 (d.getD e.1 ⊤ + (e.2.2 : WithTop ℤ))
      else d)
    d

/-- The edge test of the final negative-cycle sweep of `_4_Johnson.py`'s
`bellman_ford` (same condition as the relaxation). -/
def Johnson.tense (d : List (WithTop ℤ)) (e : ℕ × ℕ × ℤ) : Prop :=
  d.getD e.1 ⊤ ≠ ⊤ ∧ d.getD e.1 ⊤ + (e.2.2 : WithTop ℤ) < d.getD e.2.1 ⊤

instance (d : List (WithTop ℤ)) (e : ℕ × ℕ × ℤ) : Decidable (Johnson.tense d e) :=
  inferInstanceAs (Decidable (_ ∧ _))

/-- `bellman_ford(V, edges, source)` from `_4_Johnson.py`: initialise, relax
all edges `V - 1` times, then one extra sweep; return `None` on a relaxable
edge and the distance array otherwise. -/
def Johnson.bellman_ford (V : ℕ) (edges : List (ℕ × ℕ × ℤ)) (source : ℕ) :
    Option (List (WithTop ℤ)) :=
  let init := (List.replicate V (⊤ : WithTop ℤ)).set source 0
  let d := (List.range (V - 1)).foldl (fun d _ => Johnson.bfRound edges d) init
  if edges.any (fun e => decide (Johnson.tense d e)) then none else some d

/-- Lexicographic order on `heapq` entries `(distance, vertex)`; `⊤` stands
for `float("inf")` (never actually pushed). -/
def pqLE (a b : WithTop ℤ × ℕ) : Prop :=
  a.1 < b.1 ∨ (a.1 = b.1 ∧ a.2 ≤ b.2)

instance : DecidableRel pqLE := fun a b =>
  inferInstanceAs (Decidable (a.1 < b.1 ∨ (a.1 = b.1 ∧ a.2 ≤ b.2)))

/-- `heapq.heappush`: insert keeping the collection sorted, so that the head
is always the least entry (the value `heapq.heappop` returns). -/
def heappush (h : List (WithTop ℤ × ℕ)) (e : WithTop ℤ × ℕ) :
    List (WithTop ℤ × ℕ) :=
  List.orderedInsert pqLE e h

/-- The `while pq` loop of `_4_Johnson.py`'s `dijkstra`: pop the least entry,
skip it if stale (`curr_dist > distance[u]`), otherwise relax all outgoing
edges using the live `distance[u]` and push the updated neighbours.  The fuel
bounds the number of iterations; `none` is returned only on fuel
exhaustion. -/
def Johnson.dijkstraLoop (adj : List (List (ℕ × ℤ))) :
    ℕ → List (WithTop ℤ) → List (WithTop ℤ × ℕ) → Option (List (WithTop ℤ))
  | 0, d, pq => if pq.isEmpty then some d else none
  | fuel + 1, d, pq =>
    match pq with
    | [] => some d
    | (cd, u) :: rest =>
      if cd > d.getD u ⊤ then Johnson.dijkstraLoop adj fuel d rest
      else
        let st := (adj.getD u []).foldl
          (fun st p =>
            if st.1.getD u ⊤ + (p.2 : WithTop ℤ) < st.1.getD p.1 ⊤ then
              let nd := st.1.getD u ⊤ + (p.2 : WithTop ℤ)
              (st.1.set p.1 nd, heappush st.2 (nd, p.1))
            else st)
          (d, rest)
        Johnson.dijkstraLoop adj fuel st.1 st.2

/-- `dijkstra(V, adj, source)` from `_4_Johnson.py`. -/
def Johnson.dijkstra (fuel V : ℕ) (adj : List (List (ℕ × ℤ))) (source : ℕ) :
    Option (List (WithTop ℤ)) :=
  Johnson.dijkstraLoop adj fuel ((List.replicate V (⊤ : WithTop ℤ)).set source 0)
    [((0 : WithTop ℤ), source)]

/-- Lines 232-235 of `_4_Johnson.py`: convert the adjacency list to an edge
list, `u` ascending, per-vertex order preserved. -/
def johnsonEdges (graph : List (List (ℕ × ℤ))) : List (ℕ × ℕ × ℤ) :=
  (List.range graph.length).foldl
    (fun es u => es ++ (graph.getD u []).map fun p => (u, p.1, p.2)) []

/-- `johnson(graph)` from `_4_Johnson.py`: add the synthetic vertex `q = V`
with zero-weight edges to every vertex, run Bellman-Ford from `q` for the
potentials `h`, drop the synthetic edges (`edges[:-V]`), reweight
(`w + h[u] - h[v]`; `h` is provably finite here, and `untop' 0` extracts the
integer), run Dijkstra from every vertex and convert each row back
(`dist[v] - h[u] + h[v]` for finite entries).  The fuel is passed to the
inner Dijkstra runs; `none` otherwise signals the propagated negative-cycle
failure. -/
def johnson (fuel : ℕ) (graph : List (List (ℕ × ℤ))) :
    Option (List (List (WithTop ℤ))) :=
  let V := graph.length
  let edges1 := johnsonEdges graph ++ (List.range V).map fun v => (V, v, (0 : ℤ))
  match Johnson.bellman_ford (V + 1) edges1 V with
  | none => none
  | some h =>
    let edges2 := edges1.take (edges1.length - V)
    let hval : ℕ → ℤ := fun v => (h.getD v ⊤).untop' 0
    let new_adj := edges2.foldl
      (fun adj e =>
        adj.set e.1 (adj.getD e.1 [] ++ [(e.2.1, e.2.2 + hval e.1 - hval e.2.1)]))
      (List.replicate V [])
    let rows := (List.range V).map fun u =>
      match Johnson.dijkstra fuel V new_adj u with
      | none => none
      | some dist =>
        some ((List.range V).foldl
          (fun dv v =>
            if dv.getD v ⊤ ≠ ⊤ then
              dv.set v (((dv.getD v ⊤).untop' 0 - hval u + hval v : ℤ) : WithTop ℤ)
            else dv)
          dist)
    if rows.any Option.isNone then none
    else some (rows.map fun r => r.getD [])

/-- The 3-vertex path graph `0 →(2) 1 →(2) 2` as an adjacency list (the
graph whose weight matrix is `fwG3`). -/
def johnsonG3 : List (List (ℕ × ℤ)) :=
  [[(1, 2)], [(2, 2)], []]

/-- **C2.** On the path graph `0 →(2) 1 →(2) 2` (no negative cycle),
`johnson` returns the correct all-pairs matrix with entry `(0,2) = 4`, while
`floyd_warshall` on the corresponding weight matrix returns its input with
entry `(0,2) = ∞` (the shadowed-loop bug of C1), so the two matrices are not
equal entry for entry. -/
theorem c2_johnson_floyd_warshall_disagree :
    adjToMatrix johnsonG3 = fwG3 ∧
      johnson 30 johnsonG3 = some [[0, 2, 4], [⊤, 0, 2], [⊤, ⊤, 0]] ∧
      floyd_warshall fwG3 = some fwG3 ∧
      johnson 30 johnsonG3 ≠ floyd_warshall (adjToMatrix johnsonG3) := by
  refine ⟨by decide, by decide, by decide, by decide⟩

/-! ### Facts about Johnson's internal Bellman-Ford (for C8) -/

/-- A `foldl` invariant principle used throughout: a predicate preserved by
every step holds of the result. -/
theorem foldl_preserve {α β : Type} {P : β → Prop} (f : β → α → β)
    (l : List α) (init : β) (h0 : P init)
    (hstep : ∀ b a, a ∈ l → P b → P (f b a)) : P (l.foldl f init) := by
  induction l generalizing init with
  | nil => exact h0
  | cons a t ih =>
    exact ih (f init a) (hstep init a (List.mem_cons_self a t) h0)
      fun b x hx hb => hstep b x (List.mem_cons_of_mem a hx) hb

theorem Johnson.bfRound_length (edges : List (ℕ × ℕ × ℤ)) (d : List (WithTop ℤ)) :
    (Johnson.bfRound edges d).length = d.length := by
  unfold Johnson.bfRound
  refine foldl_preserve (P := fun b : List (WithTop ℤ) => b.length = d.length)
    _ _ _ rfl ?_
  intro b e _ hb
  dsimp only
  split
  · rw [List.length_set, hb]
  · exact hb

theorem Johnson.bfRound_getD_of_not_target (edges : List (ℕ × ℕ × ℤ))
    (d : List (WithTop ℤ)) (x : ℕ) (hx : ∀ e ∈ edges, e.2.1 ≠ x) :
    (Johnson.bfRound edges d).getD x ⊤ = d.getD x ⊤ := by
  unfold Johnson.bfRound
  refine foldl_preserve
    (P := fun b : List (WithTop ℤ) => b.getD x ⊤ = d.getD x ⊤) _ _ _ rfl ?_
  intro b e he hb
  dsimp only
  split
  · rw [getD_set_ne _ _ _ (hx e he), hb]
  · exact hb

theorem Johnson.bellman_ford_some {V : ℕ} {edges : List (ℕ × ℕ × ℤ)}
    {source : ℕ} {h : List (WithTop ℤ)}
    (hs : Johnson.bellman_ford V edges source = some h) :
    (∀ e ∈ edges, ¬ Johnson.tense h e) ∧
      h = (List.range (V - 1)).foldl (fun d _ => Johnson.bfRound edges d)
        ((List.replicate V (⊤ : WithTop ℤ)).set source 0) := by
  simp only [Johnson.bellman_ford] at hs
  split at hs
  · exact absurd hs (by simp)
  · next hany =>
    simp only [List.any_eq_true, decide_eq_true_eq, not_exists, not_and] at hany
    cases hs
    exact ⟨fun e he => hany e he, rfl⟩

theorem Johnson.bellman_ford_getD_source {V : ℕ} {edges : List (ℕ × ℕ × ℤ)}
    {source : ℕ} {h : List (WithTop ℤ)}
    (hs : Johnson.bellman_ford V edges source = some h)
    (hsrc : source < V) (hnt : ∀ e ∈ edges, e.2.1 ≠ source) :
    h.getD source ⊤ = 0 := by
  obtain ⟨-, rfl⟩ := Johnson.bellman_ford_some hs
  have base : ((List.replicate V (⊤ : WithTop ℤ)).set source 0).getD source ⊤ = 0 :=
    getD_set_self _ _ _ (by simpa using hsrc)
  generalize V - 1 = k
  induction k with
  | zero => simpa using base
  | succ k ih =>
    rw [List.range_succ, List.foldl_append, List.foldl_cons, List.foldl_nil,
      Johnson.bfRound_getD_of_not_target _ _ _ hnt]
    exact ih

/-- Membership in `johnsonEdges`: exactly the adjacency-list triples. -/
theorem mem_johnsonEdges {graph : List (List (ℕ × ℤ))} {e : ℕ × ℕ × ℤ} :
    e ∈ johnsonEdges graph ↔
      ∃ u ∈ List.range graph.length, ∃ p ∈ graph.getD u [], (u, p.1, p.2) = e := by
  unfold johnsonEdges
  rw [mem_foldl_append]
  simp

/-- **C8.** If `johnson`'s internal Bellman-Ford run from the synthetic
vertex `q = V` returns potentials `h` (no negative cycle reported), then
every `h[v]` for an original vertex `v` is finite, and every reweighted edge
weight `w + h[u] - h[v]` is nonnegative. -/
theorem c8_johnson_reweighting (graph : List (List (ℕ × ℤ)))
    (hvalid : ∀ u < graph.length, ∀ p ∈ graph.getD u [], p.1 < graph.length)
    (h : List (WithTop ℤ))
    (hbf : Johnson.bellman_ford (graph.length + 1)
      (johnsonEdges graph ++ (List.range graph.length).map fun v =>
        (graph.length, v, (0 : ℤ)))
      graph.length = some h) :
    (∀ v < graph.length, ∃ a : ℤ, h.getD v ⊤ = (a : WithTop ℤ) ∧ a ≤ 0) ∧
      ∀ e ∈ johnsonEdges graph, ∀ a b : ℤ,
        h.getD e.1 ⊤ = (a : WithTop ℤ) → h.getD e.2.1 ⊤ = (b : WithTop ℤ) →
          0 ≤ e.2.2 + a - b := by
  set V := graph.length with hV
  have htarget : ∀ e ∈ (johnsonEdges graph ++
      (List.range V).map fun v => (V, v, (0 : ℤ))), e.2.1 ≠ V := by
    intro e he
    rcases List.mem_append.mp he with he | he
    · obtain ⟨u, hu, p, hp, rfl⟩ := mem_johnsonEdges.mp he
      exact Nat.ne_of_lt (hvalid u (List.mem_range.mp hu) p hp)
    · obtain ⟨v, hv, rfl⟩ := List.mem_map.mp he
      exact Nat.ne_of_lt (List.mem_range.mp hv)
  have hq : h.getD V ⊤ = 0 :=
    Johnson.bellman_ford_getD_source hbf (Nat.lt_succ_self V) htarget
  have hnt := (Johnson.bellman_ford_some hbf).1
  have hfin : ∀ v < V, ∃ a : ℤ, h.getD v ⊤ = (a : WithTop ℤ) ∧ a ≤ 0 := by
    intro v hv
    have hmem : ((V, v, (0 : ℤ)) : ℕ × ℕ × ℤ) ∈ johnsonEdges graph ++
        (List.range V).map fun v => (V, v, (0 : ℤ)) :=
      List.mem_append.mpr (Or.inr (List.mem_map.mpr ⟨v, List.mem_range.mpr hv, rfl⟩))
    have := hnt _ hmem
    unfold Johnson.tense at this
    rw [not_and] at this
    simp only [hq] at this
    have hle : h.getD v ⊤ ≤ 0 := by
      have := this (by simp)
      push_neg at this
      simpa using this
    obtain ⟨a, ha⟩ := WithTop.ne_top_iff_exists.mp
      (LT.lt.ne_top (lt_of_le_of_lt hle (WithTop.coe_lt_top 0)))
    exact ⟨a, ha.symm, by exact_mod_cast ha.symm ▸ hle⟩
  refine ⟨hfin, ?_⟩
  rintro e he a b hea heb
  have hmem : e ∈ johnsonEdges graph ++
      (List.range V).map fun v => (V, v, (0 : ℤ)) :=
    List.mem_append.mpr (Or.inl he)
  have := hnt _ hmem
  unfold Johnson.tense at this
  rw [not_and] at this
  rw [hea, heb] at this
  have hnlt := this (by simp)
  push_neg at hnlt
  have : (a : WithTop ℤ) + (e.2.2 : WithTop ℤ) = ((a + e.2.2 : ℤ) : WithTop ℤ) := by
    exact_mod_cast rfl
  rw [this] at hnlt
  have := WithTop.coe_le_coe.mp hnlt
  omega

/-- The concrete graph `0 →(-1) 1` used to instantiate C8. -/
def johnsonG2 : List (List (ℕ × ℤ)) :=
  [[(1, -1)], []]

/-- Witness for **C8**: on the graph `0 →(-1) 1`, the internal Bellman-Ford
returns the potentials `[0, -1, 0]`, which are finite and make the reweighted
edge weight `-1 + h[0] - h[1] = 0` nonnegative. -/
theorem c8_witness :
    (∀ v < johnsonG2.length, ∃ a : ℤ,
        ([(0 : WithTop ℤ), -1, 0].getD v ⊤ = (a : WithTop ℤ) ∧ a ≤ 0)) ∧
      ∀ e ∈ johnsonEdges johnsonG2, ∀ a b : ℤ,
        [(0 : WithTop ℤ), -1, 0].getD e.1 ⊤ = (a : WithTop ℤ) →
          [(0 : WithTop ℤ), -1, 0].getD e.2.1 ⊤ = (b : WithTop ℤ) →
            0 ≤ e.2.2 + a - b :=
  c8_johnson_reweighting johnsonG2 (by decide) [(0 : WithTop ℤ), -1, 0] (by decide)

/-! ## Weighted walks in an adjacency-list graph -/

/-- `AdjWalk g u v c`: there is a (directed) walk from `u` to `v` of total
weight `c` in the adjacency-list graph `g`. -/
inductive AdjWalk (g : List (List (ℕ × ℤ))) : ℕ → ℕ → ℤ → Prop
  | refl (u : ℕ) : AdjWalk g u u 0
  | step {u x : ℕ} {p : ℕ × ℤ} {c : ℤ} :
      p ∈ g.getD u [] → AdjWalk g p.1 x c → AdjWalk g u x (p.2 + c)

/-- Extend a walk by one edge at its end. -/
theorem AdjWalk.snoc {g : List (List (ℕ × ℤ))} {s u : ℕ} {c : ℤ}
    (hw : AdjWalk g s u c) {p : ℕ × ℤ} (hp : p ∈ g.getD u []) :
    AdjWalk g s p.1 (c + p.2) := by
  induction hw with
  | refl v => simpa using AdjWalk.step hp (AdjWalk.refl p.1)
  | step hq _ ih =>
    have := AdjWalk.step hq (ih hp)
    convert this using 1
    ring

/-- In a graph with nonnegative edge weights every walk weight is
nonnegative. -/
theorem AdjWalk.nonneg {g : List (List (ℕ × ℤ))} {n : ℕ}
    (hlen : g.length = n) (hw : ∀ u < n, ∀ p ∈ g.getD u [], 0 ≤ p.2)
    {u v : ℕ} {c : ℤ} (h : AdjWalk g u v c) : 0 ≤ c := by
  induction h with
  | refl => exact le_refl 0
  | @step u2 x2 p2 c2 hp _ ih =>
    by_cases hu : u2 < n
    · have := hw u2 hu p2 hp
      omega
    · rw [List.getD_eq_default _ _ (by omega : g.length ≤ u2)] at hp
      simp at hp

/-! ## Dijkstra, from `shortest_path/_1_Dijkstra.py` -/

/-- The edge-relaxation body of the `while min_heap` loop of `dijkstra`
(the inner `for neighbor, weight in graph[node]` loop), acting on the state
`(distance, parents, heap)`; `cd` is the popped `current_dist` and `u` the
popped `node`:

    new_distance = current_dist + weight
    if new_distance < distance[neighbor]:
        distance[neighbor] = new_distance
        parents[neighbor] = node
        heapq.heappush(min_heap, (new_distance, neighbor))
-/
def dijkstraRelax (cd : WithTop ℤ) (u : ℕ)
    (st : List (WithTop ℤ) × List (Option ℕ) × List (WithTop ℤ × ℕ))
    (p : ℕ × ℤ) :
    List (WithTop ℤ) × List (Option ℕ) × List (WithTop ℤ × ℕ) :=
  let nd := cd + (p.2 : WithTop ℤ)
  if nd < st.1.getD p.1 ⊤ then
    (st.1.set p.1 nd, st.2.1.set p.1 (some u), heappush st.2.2 (nd, p.1))
  else st

/-- The `while min_heap` loop of `dijkstra`: pop the least entry, skip if
stale (`current_dist > distance[node]`), otherwise relax all outgoing edges.
The fuel bounds the number of iterations; `none` only on fuel exhaustion. -/
def dijkstraLoop (graph : List (List (ℕ × ℤ))) :
    ℕ → List (WithTop ℤ) → List (Option ℕ) → List (WithTop ℤ × ℕ) →
      Option (List (WithTop ℤ) × List (Option ℕ))
  | 0, d, par, pq => if pq.isEmpty then some (d, par) else none
  | fuel + 1, d, par, pq =>
    match pq with
    | [] => some (d, par)
    | (cd, u) :: rest =>
      if cd > d.getD u ⊤ then dijkstraLoop graph fuel d par rest
      else
        let st := (graph.getD u []).foldl (dijkstraRelax cd u) (d, par, rest)
        dijkstraLoop graph fuel st.1 st.2.1 st.2.2

/-- `dijkstra(n, graph, source)` from `_1_Dijkstra.py`: distances start at
infinity except `distance[source] = 0`, the heap starts as `[(0, source)]`,
and the loop runs until the heap empties.  The returned value is the
`distance` list (the `parents` list is only printed). -/
def dijkstra (fuel n : ℕ) (graph : List (List (ℕ × ℤ))) (source : ℕ) :
    Option (List (WithTop ℤ)) :=
  match dijkstraLoop graph fuel ((List.replicate n (⊤ : WithTop ℤ)).set source 0)
      (List.replicate n none) [((0 : WithTop ℤ), source)] with
  | none => none
  | some st => some st.1

/-- A relaxable ("tense") edge `u →(p.2) p.1` of the adjacency graph with
respect to a distance table `d`. -/
def adjTense (d : List (WithTop ℤ)) (u : ℕ) (p : ℕ × ℤ) : Prop :=
  d.getD u ⊤ + (p.2 : WithTop ℤ) < d.getD p.1 ⊤

/-- Loop invariant for `dijkstraLoop`: sizes, pinned source distance, every
finite distance is attained by a walk, heap entries name valid vertices and
dominate the distance table, and every tense edge is covered by a heap entry
carrying its tail's current distance. -/
structure DInv (g : List (List (ℕ × ℤ))) (n s : ℕ)
    (d : List (WithTop ℤ)) (pq : List (WithTop ℤ × ℕ)) : Prop where
  len : d.length = n
  src : d.getD s ⊤ = 0
  sound : ∀ v < n, ∀ c : ℤ, d.getD v ⊤ = (c : WithTop ℤ) → AdjWalk g s v c
  entries : ∀ e ∈ pq, e.2 < n ∧ d.getD e.2 ⊤ ≤ e.1
  cover : ∀ u < n, ∀ p ∈ g.getD u [], adjTense d u p → (d.getD u ⊤, u) ∈ pq

/-- Vertices outside the adjacency list have no outgoing edges. -/
theorem adj_edges_empty {g : List (List (ℕ × ℤ))} {n u : ℕ}
    (hlen : g.length = n) (hu : ¬u < n) : g.getD u [] = [] :=
  List.getD_eq_default _ _ (by omega)

/-- Processing the remaining neighbour list of the popped vertex `u`
preserves the Dijkstra invariant, where tense edges out of `u` whose
neighbour entry is still pending are excused (they are either relaxed or
found non-tense by the fold). -/
theorem dijkstraRelax_fold (g : List (List (ℕ × ℤ))) (n s u : ℕ)
    (hlen : g.length = n)
    (hval : ∀ u2 < n, ∀ p ∈ g.getD u2 [], p.1 < n)
    (hw : ∀ u2 < n, ∀ p ∈ g.getD u2 [], 0 ≤ p.2)
    (hu : u < n) (cd : WithTop ℤ)
    (remaining : List (ℕ × ℤ)) (hrem : ∀ p ∈ remaining, p ∈ g.getD u [])
    (d : List (WithTop ℤ)) (par : List (Option ℕ)) (pq : List (WithTop ℤ × ℕ))
    (hcd : d.getD u ⊤ = cd)
    (hdlen : d.length = n) (hsrc : d.getD s ⊤ = 0)
    (hsound : ∀ v < n, ∀ c : ℤ, d.getD v ⊤ = (c : WithTop ℤ) → AdjWalk g s v c)
    (hentries : ∀ e ∈ pq, e.2 < n ∧ d.getD e.2 ⊤ ≤ e.1)
    (hcover : ∀ u2, u2 < n → ∀ p ∈ g.getD u2 [], adjTense d u2 p →
      ((d.getD u2 ⊤, u2) ∈ pq ∨ (u2 = u ∧ p ∈ remaining))) :
    DInv g n s (remaining.foldl (dijkstraRelax cd u) (d, par, pq)).1
      (remaining.foldl (dijkstraRelax cd u) (d, par, pq)).2.2 := by
  induction remaining generalizing d par pq with
  | nil =>
    exact ⟨hdlen, hsrc, hsound, hentries, fun u2 hu2 p hp ht =>
      (hcover u2 hu2 p hp ht).resolve_right (by simp)⟩
  | cons p tail ih =>
    rw [List.foldl_cons]
    have hpe : p ∈ g.getD u [] := hrem p (List.mem_cons_self p tail)
    have hpn : p.1 < n := hval u hu p hpe
    have hpw : 0 ≤ p.2 := hw u hu p hpe
    have hstep : dijkstraRelax cd u (d, par, pq) p =
        if cd + (p.2 : WithTop ℤ) < d.getD p.1 ⊤ then
          (d.set p.1 (cd + (p.2 : WithTop ℤ)), par.set p.1 (some u),
            heappush pq (cd + (p.2 : WithTop ℤ), p.1))
        else (d, par, pq) := rfl
    rw [hstep]
    by_cases hrel : cd + (p.2 : WithTop ℤ) < d.getD p.1 ⊤
    · rw [if_pos hrel]
      set nd := cd + (p.2 : WithTop ℤ) with hnd
      -- `u` keeps its distance: relaxing into `u` would need a negative weight
      have hne_u : u ≠ p.1 := by
        intro hup
        rw [← hup, hcd] at hrel
        exact absurd hrel (not_lt.mpr (le_add_of_nonneg_right (by exact_mod_cast hpw)))
      have hdmono : ∀ x, (d.set p.1 nd).getD x ⊤ ≤ d.getD x ⊤ := by
        intro x
        rcases eq_or_ne p.1 x with hx | hx
        · rw [← hx, getD_set_self d nd ⊤ (by omega)]
          exact le_of_lt hrel
        · rw [getD_set_ne d nd ⊤ hx]
      -- the new finite distance is attained by a walk
      have hcdfin : ∃ cu : ℤ, cd = (cu : WithTop ℤ) := by
        rcases eq_or_ne cd ⊤ with htop | hfin
        · rw [hnd, htop] at hrel
          simp at hrel
        · obtain ⟨cu, hcu⟩ := WithTop.ne_top_iff_exists.mp hfin
          exact ⟨cu, hcu.symm⟩
      obtain ⟨cu, hcu⟩ := hcdfin
      have hwalk_u : AdjWalk g s u cu := hsound u hu cu (by rw [hcd, hcu])
      refine ih (fun q hq => hrem q (List.mem_cons_of_mem p hq)) _ _ _ ?_ ?_ ?_ ?_ ?_ ?_
      · rw [getD_set_ne d nd ⊤ (Ne.symm hne_u), hcd]
      · exact (List.length_set ..).trans hdlen
      · -- the source keeps distance 0
        rcases eq_or_ne p.1 s with hx | hx
        · exfalso
          rw [hx, hsrc] at hrel
          rw [hnd, hcu] at hrel
          rw [show ((cu : WithTop ℤ) + (p.2 : WithTop ℤ)) = ((cu + p.2 : ℤ) : WithTop ℤ) by
            exact_mod_cast rfl] at hrel
          have h0 : (0 : ℤ) ≤ cu + p.2 := by
            have := AdjWalk.nonneg hlen hw hwalk_u
            omega
          exact absurd hrel (not_lt.mpr (by exact_mod_cast h0))
        · rw [getD_set_ne d nd ⊤ hx, hsrc]
      · -- soundness of finite entries
        intro v hv c hc
        rcases eq_or_ne p.1 v with hx | hx
        · rw [← hx] at hc ⊢
          rw [getD_set_self d nd ⊤ (by omega)] at hc
          rw [hnd, hcu] at hc
          rw [show ((cu : WithTop ℤ) + (p.2 : WithTop ℤ)) = ((cu + p.2 : ℤ) : WithTop ℤ) by
            exact_mod_cast rfl] at hc
          have : c = cu + p.2 := by exact_mod_cast hc.symm
          rw [this]
          have := hwalk_u.snoc hpe
          exact this
        · rw [getD_set_ne d nd ⊤ hx] at hc
          exact hsound v hv c hc
      · -- heap entries stay valid and dominated
        intro e he
        rcases (List.mem_orderedInsert pqLE).mp he with he | he
        · rw [he]
          exact ⟨hpn, by rw [getD_set_self d nd ⊤ (by omega)]⟩
        · exact ⟨(hentries e he).1, le_trans (hdmono e.2) (hentries e he).2⟩
      · -- coverage modulo the pending suffix
        intro u2 hu2 q hq ht
        rcases eq_or_ne u2 p.1 with hx | hx
        · left
          rw [hx, getD_set_self d nd ⊤ (by omega)]
          exact (List.mem_orderedInsert pqLE).mpr (Or.inl rfl)
        · have hd2 : (d.set p.1 nd).getD u2 ⊤ = d.getD u2 ⊤ :=
            getD_set_ne d nd ⊤ (Ne.symm hx)
          have htold : adjTense d u2 q := by
            unfold adjTense at ht ⊢
            rw [hd2] at ht
            exact lt_of_lt_of_le ht (hdmono q.1)
          rcases hcover u2 hu2 q hq htold with hc | ⟨rfl, hqmem⟩
          · left
            rw [hd2]
            exact (List.mem_orderedInsert pqLE).mpr (Or.inr hc)
          · rcases List.mem_cons.mp hqmem with hqp | hqt
            · exfalso
              -- the just-relaxed edge is no longer tense
              unfold adjTense at ht
              rw [hqp] at ht
              rw [hd2, hcd, getD_set_self d nd ⊤ (by omega)] at ht
              exact absurd ht (lt_irrefl nd)
            · exact Or.inr ⟨rfl, hqt⟩
    · rw [if_neg hrel]
      refine ih (fun q hq => hrem q (List.mem_cons_of_mem p hq)) _ _ _ hcd hdlen
        hsrc hsound hentries ?_
      intro u2 hu2 q hq ht
      rcases hcover u2 hu2 q hq ht with hc | ⟨rfl, hqmem⟩
      · exact Or.inl hc
      · rcases List.mem_cons.mp hqmem with hqp | hqt
        · exfalso
          unfold adjTense at ht
          rw [hqp, hcd] at ht
          exact hrel ht
        · exact Or.inr ⟨rfl, hqt⟩

/-- Running `dijkstraLoop` from an invariant state until the heap empties
yields a table that is still sound, pins the source at `0`, and has no tense
edge left. -/
theorem dijkstraLoop_correct (g : List (List (ℕ × ℤ))) (n s : ℕ)
    (hlen : g.length = n)
    (hval : ∀ u2 < n, ∀ p ∈ g.getD u2 [], p.1 < n)
    (hw : ∀ u2 < n, ∀ p ∈ g.getD u2 [], 0 ≤ p.2) :
    ∀ (fuel : ℕ) (d : List (WithTop ℤ)) (par : List (Option ℕ))
      (pq : List (WithTop ℤ × ℕ)) (out : List (WithTop ℤ) × List (Option ℕ)),
      DInv g n s d pq → dijkstraLoop g fuel d par pq = some out →
      out.1.length = n ∧ out.1.getD s ⊤ = 0 ∧
        (∀ v < n, ∀ c : ℤ, out.1.getD v ⊤ = (c : WithTop ℤ) → AdjWalk g s v c) ∧
        ∀ u2 < n, ∀ p ∈ g.getD u2 [], ¬ adjTense out.1 u2 p := by
  intro fuel
  induction fuel with
  | zero =>
    intro d par pq out hinv hrun
    unfold dijkstraLoop at hrun
    split at hrun
    · next hemp =>
      cases hrun
      have hpq : pq = [] := List.isEmpty_iff.mp hemp
      subst hpq
      exact ⟨hinv.len, hinv.src, hinv.sound,
        fun u2 hu2 p hp ht => by simpa using hinv.cover u2 hu2 p hp ht⟩
    · exact absurd hrun (by simp)
  | succ fuel ih =>
    intro d par pq out hinv hrun
    match hpq : pq with
    | [] =>
      unfold dijkstraLoop at hrun
      cases hrun
      exact ⟨hinv.len, hinv.src, hinv.sound,
        fun u2 hu2 p hp ht => by simpa using hinv.cover u2 hu2 p hp ht⟩
    | (cd, u) :: rest =>
      unfold dijkstraLoop at hrun
      dsimp only at hrun
      by_cases hstale : cd > d.getD u ⊤
      · rw [if_pos hstale] at hrun
        refine ih d par rest out ⟨hinv.len, hinv.src, hinv.sound,
          fun e he => hinv.entries e (List.mem_cons_of_mem _ he), ?_⟩ hrun
        intro u2 hu2 p hp ht
        rcases List.mem_cons.mp (hinv.cover u2 hu2 p hp ht) with hc | hc
        · exfalso
          have h1 : d.getD u2 ⊤ = cd := congrArg Prod.fst hc
          have h2 : u2 = u := congrArg Prod.snd hc
          rw [h2] at h1
          rw [h1] at hstale
          exact lt_irrefl cd hstale
        · exact hc
      · rw [if_neg hstale] at hrun
        have hu : u < n := (hinv.entries (cd, u) (List.mem_cons_self _ _)).1
        have hdcd : d.getD u ⊤ = cd :=
          le_antisymm (hinv.entries (cd, u) (List.mem_cons_self _ _)).2
            (not_lt.mp hstale)
        refine ih _ _ _ out ?_ hrun
        refine dijkstraRelax_fold g n s u hlen hval hw hu cd _ (fun p hp => hp)
          d par rest hdcd hinv.len hinv.src hinv.sound
          (fun e he => hinv.entries e (List.mem_cons_of_mem _ he)) ?_
        intro u2 hu2 p hp ht
        rcases List.mem_cons.mp (hinv.cover u2 hu2 p hp ht) with hc | hc
        · right
          have h2 : u2 = u := congrArg Prod.snd hc
          exact ⟨h2, h2 ▸ hp⟩
        · exact Or.inl hc

/-- The invariant holds for Dijkstra's initial state. -/
theorem dijkstra_init_DInv (g : List (List (ℕ × ℤ))) (n s : ℕ) (hs : s < n) :
    DInv g n s ((List.replicate n (⊤ : WithTop ℤ)).set s 0)
      [((0 : WithTop ℤ), s)] := by
  have hrep : ∀ v : ℕ, (List.replicate n (⊤ : WithTop ℤ)).getD v ⊤ = ⊤ := by
    intro v
    rw [List.getD_eq_getElem?_getD, List.getElem?_replicate]
    split <;> rfl
  have hs0 : ((List.replicate n (⊤ : WithTop ℤ)).set s 0).getD s ⊤ = 0 :=
    getD_set_self _ _ _ (by simpa using hs)
  refine ⟨by simp, hs0, ?_, ?_, ?_⟩
  · intro v hv c hc
    rcases eq_or_ne s v with hx | hx
    · subst hx
      rw [hs0] at hc
      have : c = 0 := by exact_mod_cast hc.symm
      rw [this]
      exact AdjWalk.refl s
    · rw [getD_set_ne _ _ _ hx, hrep v] at hc
      exact absurd hc (by simp)
  · intro e he
    rcases List.mem_singleton.mp he with rfl
    exact ⟨hs, le_of_eq hs0⟩
  · intro u2 hu2 p hp ht
    rcases eq_or_ne s u2 with hx | hx
    · rw [← hx, hs0]
      exact List.mem_singleton.mpr rfl
    · exfalso
      unfold adjTense at ht
      rw [getD_set_ne _ _ _ hx, hrep u2] at ht
      simp at ht

/-- **C3.** For every graph with nonnegative edge weights, every vertex count
`n` and every source `s < n`: when `dijkstra` returns a distance table, each
vertex reachable from `s` gets exactly the least walk weight from `s`
(attained by a walk and minimal among all walks), and every unreachable
vertex keeps the infinity sentinel. -/
theorem c3_dijkstra_correct (fuel n : ℕ) (g : List (List (ℕ × ℤ))) (s : ℕ)
    (d : List (WithTop ℤ))
    (hlen : g.length = n)
    (hval : ∀ u2 < n, ∀ p ∈ g.getD u2 [], p.1 < n)
    (hw : ∀ u2 < n, ∀ p ∈ g.getD u2 [], 0 ≤ p.2)
    (hs : s < n)
    (hrun : dijkstra fuel n g s = some d) :
    ∀ v < n,
      ((∃ c : ℤ, AdjWalk g s v c) →
        ∃ c : ℤ, d.getD v ⊤ = (c : WithTop ℤ) ∧ AdjWalk g s v c ∧
          ∀ c2 : ℤ, AdjWalk g s v c2 → c ≤ c2) ∧
      ((¬ ∃ c : ℤ, AdjWalk g s v c) → d.getD v ⊤ = ⊤) := by
  unfold dijkstra at hrun
  set d0 := (List.replicate n (⊤ : WithTop ℤ)).set s 0 with hd0
  set par0 : List (Option ℕ) := List.replicate n none with hpar0
  set pq0 : List (WithTop ℤ × ℕ) := [((0 : WithTop ℤ), s)] with hpq0
  match hloop : dijkstraLoop g fuel d0 par0 pq0 with
  | none => rw [hloop] at hrun; exact absurd hrun (by simp)
  | some st =>
    rw [hloop] at hrun
    have hd : d = st.1 := by
      cases hrun
      rfl
    subst hd
    obtain ⟨hlen2, hsrc2, hsound2, hnt⟩ :=
      dijkstraLoop_correct g n s hlen hval hw fuel d0 par0 pq0 st
        (dijkstra_init_DInv g n s hs) hloop
    -- relaxed closure: distances are below every walk extension
    have hub : ∀ u2 v c, AdjWalk g u2 v c →
        st.1.getD v ⊤ ≤ st.1.getD u2 ⊤ + (c : WithTop ℤ) := by
      intro u2 v c hwk
      induction hwk with
      | refl w => simp
      | @step a x p c hp hwk2 ih =>
        by_cases ha : a < n
        · have h1 : st.1.getD p.1 ⊤ ≤ st.1.getD a ⊤ + (p.2 : WithTop ℤ) :=
            not_lt.mp (hnt a ha p hp)
          calc st.1.getD x ⊤ ≤ st.1.getD p.1 ⊤ + (c : WithTop ℤ) := ih
            _ ≤ (st.1.getD a ⊤ + (p.2 : WithTop ℤ)) + (c : WithTop ℤ) := by
                exact add_le_add_right h1 _
            _ = st.1.getD a ⊤ + ((p.2 + c : ℤ) : WithTop ℤ) := by
                rw [add_assoc]
                norm_cast
        · rw [adj_edges_empty hlen ha] at hp
          simp at hp
    intro v hv
    constructor
    · rintro ⟨c, hc⟩
      have hle : st.1.getD v ⊤ ≤ (c : WithTop ℤ) := by
        have := hub s v c hc
        rwa [hsrc2, zero_add] at this
      have hfin : st.1.getD v ⊤ ≠ ⊤ :=
        LT.lt.ne_top (lt_of_le_of_lt hle (WithTop.coe_lt_top c))
      obtain ⟨c0, hc0⟩ := WithTop.ne_top_iff_exists.mp hfin
      refine ⟨c0, hc0.symm, hsound2 v hv c0 hc0.symm, ?_⟩
      intro c2 hc2
      have := hub s v c2 hc2
      rw [hsrc2, zero_add, ← hc0] at this
      exact_mod_cast this
    · intro hnone
      by_contra hne
      obtain ⟨c0, hc0⟩ := WithTop.ne_top_iff_exists.mp hne
      exact hnone ⟨c0, hsound2 v hv c0 hc0.symm⟩

/-- The spec's concrete scenario 1 as an (undirected) adjacency list:
`V = 4`, edges `[(0,1,1),(1,2,2),(0,2,5),(2,3,1)]`, each inserted in both
directions. -/
def adjW : List (List (ℕ × ℤ)) :=
  [[(1, 1), (2, 5)], [(0, 1), (2, 2)], [(0, 5), (1, 2), (3, 1)], [(2, 1)]]

/-- Witness for **C3**: on the concrete graph `adjW` with source `0`,
`dijkstra` returns `[0, 1, 3, 4]`, and the distance of vertex `3` is the
least walk weight `4`. -/
theorem c3_witness :
    ∃ c : ℤ, ([(0 : WithTop ℤ), 1, 3, 4].getD 3 ⊤ = (c : WithTop ℤ)) ∧
      AdjWalk adjW 0 3 c ∧ ∀ c2 : ℤ, AdjWalk adjW 0 3 c2 → c ≤ c2 :=
  (c3_dijkstra_correct 50 4 adjW 0 [0, 1, 3, 4] (by decide) (by decide)
      (by decide) (by decide) (by decide) 3 (by decide)).1
    ⟨4, by
      have w3 : AdjWalk adjW 2 3 (1 + 0) :=
        AdjWalk.step (p := (3, 1)) (by decide) (AdjWalk.refl 3)
      have w2 : AdjWalk adjW 1 3 (2 + (1 + 0)) :=
        AdjWalk.step (p := (2, 2)) (by decide) w3
      have w1 : AdjWalk adjW 0 3 (1 + (2 + (1 + 0))) :=
        AdjWalk.step (p := (1, 1)) (by decide) w2
      have h4 : (4 : ℤ) = 1 + (2 + (1 + 0)) := by norm_num
      rw [h4]
      exact w1⟩

/-! ## Bellman-Ford, from `shortest_path/_2_Bellman_ford.py` -/

/-- One relaxation pass (the body of `for _ in range(n - 1)`), carrying
`(distance, parents, _updated)`; the flag starts `False` each pass:

    for u, v, weight in edges:
        if distance[u] != float("inf") and distance[u] + weight < distance[v]:
            distance[v] = distance[u] + weight
            parents[v] = u
            _updated = True
-/
def bfStep (st : List (WithTop ℤ) × List (Option ℕ) × Bool)
    (e : ℕ × ℕ × ℤ) : List (WithTop ℤ) × List (Option ℕ) × Bool :=
  if st.1.getD e.1 ⊤ ≠ ⊤ ∧
      st.1.getD e.1 ⊤ + (e.2.2 : WithTop ℤ) < st.1.getD e.2.1 ⊤ then
    (st.1.set e.2.1 (st.1.getD e.1 ⊤ + (e.2.2 : WithTop ℤ)),
      st.2.1.set e.2.1 (some e.1), true)
  else st

def bfPass (edges : List (ℕ × ℕ × ℤ))
    (d : List (WithTop ℤ)) (par : List (Option ℕ)) :
    List (WithTop ℤ) × List (Option ℕ) × Bool :=
  edges.foldl bfStep (d, par, false)

/-- Step 2 of the source `bellman_ford`: up to `n - 1` passes with early
`break` when a pass performs no update (structural recursion on the number of
passes left). -/
def bfLoop (edges : List (ℕ × ℕ × ℤ)) :
    ℕ → List (WithTop ℤ) → List (Option ℕ) → List (WithTop ℤ) × List (Option ℕ)
  | 0, d, par => (d, par)
  | k + 1, d, par =>
    let st := bfPass edges d par
    if st.2.2 then bfLoop edges k st.1 st.2.1 else (st.1, st.2.1)

/-- `bellman_ford(n, edges, source)` from `_2_Bellman_ford.py`: initialise,
relax in at most `n - 1` passes (with early exit), then the step-3 sweep: the
edge test is the same as in `_4_Johnson.py` (`Johnson.tense`); on a relaxable
edge return `None`, otherwise the distance table (`parents` is only used for
the printed paths). -/
def bellman_ford (n : ℕ) (edges : List (ℕ × ℕ × ℤ)) (source : ℕ) :
    Option (List (WithTop ℤ)) :=
  let st := bfLoop edges (n - 1) ((List.replicate n (⊤ : WithTop ℤ)).set source 0)
    (List.replicate n none)
  if edges.any (fun e => decide (Johnson.tense st.1 e)) then none else some st.1

/-! ### Walks over an edge list, as explicit edge sequences -/

/-- `IsEPath edges u v l`: the edge sequence `l` is a walk from `u` to `v`
using edges of `edges`. -/
def IsEPath (edges : List (ℕ × ℕ × ℤ)) : ℕ → ℕ → List (ℕ × ℕ × ℤ) → Prop
  | u, v, [] => u = v
  | u, v, e :: t => e ∈ edges ∧ e.1 = u ∧ IsEPath edges e.2.1 v t

/-- Total weight of an edge sequence. -/
def pathWeight (l : List (ℕ × ℕ × ℤ)) : ℤ :=
  (l.map fun e => e.2.2).sum

/-- A negative-weight cycle (a negative closed walk) reachable from `s`. -/
def HasNegCycleFrom (edges : List (ℕ × ℕ × ℤ)) (s : ℕ) : Prop :=
  ∃ (u : ℕ) (l1 l2 : List (ℕ × ℕ × ℤ)),
    IsEPath edges s u l1 ∧ IsEPath edges u u l2 ∧ pathWeight l2 < 0

theorem IsEPath.append {edges : List (ℕ × ℕ × ℤ)} {u v x : ℕ}
    {l1 l2 : List (ℕ × ℕ × ℤ)} (h1 : IsEPath edges u v l1)
    (h2 : IsEPath edges v x l2) : IsEPath edges u x (l1 ++ l2) := by
  induction l1 generalizing u with
  | nil =>
    cases h1
    simpa using h2
  | cons e t ih =>
    obtain ⟨he, hu, ht⟩ := h1
    exact ⟨he, hu, ih ht⟩

/-- Splitting a walk at a list split point. -/
theorem IsEPath.append_split {edges : List (ℕ × ℕ × ℤ)} {u x : ℕ}
    {l1 l2 : List (ℕ × ℕ × ℤ)} (h : IsEPath edges u x (l1 ++ l2)) :
    ∃ m : ℕ, IsEPath edges u m l1 ∧ IsEPath edges m x l2 := by
  induction l1 generalizing u with
  | nil => exact ⟨u, rfl, h⟩
  | cons e t ih =>
    obtain ⟨he, hu, ht⟩ := h
    obtain ⟨m, hm1, hm2⟩ := ih ht
    exact ⟨m, ⟨he, hu, hm1⟩, hm2⟩

@[simp]
theorem pathWeight_nil : pathWeight [] = 0 := rfl

@[simp]
theorem pathWeight_cons (e : ℕ × ℕ × ℤ) (l : List (ℕ × ℕ × ℤ)) :
    pathWeight (e :: l) = e.2.2 + pathWeight l := by
  unfold pathWeight
  simp

@[simp]
theorem pathWeight_append (l1 l2 : List (ℕ × ℕ × ℤ)) :
    pathWeight (l1 ++ l2) = pathWeight l1 + pathWeight l2 := by
  unfold pathWeight
  simp

/-- Walks only use vertices in range when the edge list is valid. -/
theorem IsEPath.start_lt {edges : List (ℕ × ℕ × ℤ)} {n u v : ℕ}
    {l : List (ℕ × ℕ × ℤ)} (hval : ∀ e ∈ edges, e.1 < n ∧ e.2.1 < n)
    (h : IsEPath edges u v l) (hne : l ≠ []) : u < n := by
  cases l with
  | nil => exact absurd rfl hne
  | cons e t =>
    obtain ⟨he, hu, -⟩ := h
    exact hu ▸ (hval e he).1

/-! ### Properties of one Bellman-Ford pass -/

/-- Soundness of a table: every finite entry is the weight of some walk from
`s`. -/
def bfSound (edges : List (ℕ × ℕ × ℤ)) (s : ℕ) (d : List (WithTop ℤ)) : Prop :=
  ∀ v (c : ℤ), d.getD v ⊤ = (c : WithTop ℤ) →
    ∃ l, IsEPath edges s v l ∧ pathWeight l = c

theorem bfStep_fst_length (st : List (WithTop ℤ) × List (Option ℕ) × Bool)
    (e : ℕ × ℕ × ℤ) : (bfStep st e).1.length = st.1.length := by
  unfold bfStep
  split
  · exact List.length_set ..
  · rfl

theorem bfStep_le (st : List (WithTop ℤ) × List (Option ℕ) × Bool)
    (e : ℕ × ℕ × ℤ) (x : ℕ) :
    (bfStep st e).1.getD x ⊤ ≤ st.1.getD x ⊤ := by
  unfold bfStep
  split
  · next hc =>
    rw [getD_set]
    split
    · next hx =>
      rw [← hx.1]
      exact le_of_lt hc.2
    · exact le_refl _
  · exact le_refl _

theorem bfStep_sound {edges : List (ℕ × ℕ × ℤ)} {s : ℕ}
    {st : List (WithTop ℤ) × List (Option ℕ) × Bool} {e : ℕ × ℕ × ℤ}
    (he : e ∈ edges) (hs : bfSound edges s st.1) :
    bfSound edges s (bfStep st e).1 := by
  unfold bfStep
  split
  · next hc =>
    intro v c hv
    rw [getD_set] at hv
    split at hv
    · next hx =>
      obtain ⟨cu, hcu⟩ := WithTop.ne_top_iff_exists.mp hc.1
      obtain ⟨l, hl, hw⟩ := hs e.1 cu hcu.symm
      refine ⟨l ++ [e], hx.1 ▸ hl.append ⟨he, rfl, rfl⟩, ?_⟩
      rw [← hcu] at hv
      have : ((cu : WithTop ℤ) + (e.2.2 : WithTop ℤ)) = ((cu + e.2.2 : ℤ) : WithTop ℤ) := by
        exact_mod_cast rfl
      rw [this] at hv
      have hc2 : cu + e.2.2 = c := by exact_mod_cast hv
      rw [pathWeight_append, hw, pathWeight_cons, pathWeight_nil]
      omega
    · exact hs v c hv
  · exact hs

theorem bfPass_fst_length (edges : List (ℕ × ℕ × ℤ)) (d : List (WithTop ℤ))
    (par : List (Option ℕ)) : (bfPass edges d par).1.length = d.length := by
  unfold bfPass
  refine foldl_preserve
    (P := fun st : List (WithTop ℤ) × List (Option ℕ) × Bool =>
      st.1.length = d.length) _ _ _ rfl ?_
  intro st e _ hst
  rw [bfStep_fst_length]
  exact hst

theorem bfPass_le (edges : List (ℕ × ℕ × ℤ)) (d : List (WithTop ℤ))
    (par : List (Option ℕ)) (x : ℕ) :
    (bfPass edges d par).1.getD x ⊤ ≤ d.getD x ⊤ := by
  unfold bfPass
  refine foldl_preserve
    (P := fun st : List (WithTop ℤ) × List (Option ℕ) × Bool =>
      st.1.getD x ⊤ ≤ d.getD x ⊤) _ _ _ (le_refl _) ?_
  intro st e _ hst
  exact le_trans (bfStep_le st e x) hst

theorem bfPass_sound {edges : List (ℕ × ℕ × ℤ)} {s : ℕ}
    {d : List (WithTop ℤ)} {par : List (Option ℕ)}
    (hs : bfSound edges s d) : bfSound edges s (bfPass edges d par).1 := by
  unfold bfPass
  exact foldl_preserve
    (P := fun st : List (WithTop ℤ) × List (Option ℕ) × Bool =>
      bfSound edges s st.1) _ _ _ hs
    fun st e he hst => bfStep_sound he hst

/-- A pass whose flag came back `false` changed nothing and found no tense
edge. -/
theorem bfPass_no_update {edges : List (ℕ × ℕ × ℤ)} {d : List (WithTop ℤ)}
    {par : List (Option ℕ)} (h : (bfPass edges d par).2.2 = false) :
    (bfPass edges d par).1 = d ∧ ∀ e ∈ edges, ¬ Johnson.tense d e := by
  have flag_mono : ∀ (l : List (ℕ × ℕ × ℤ))
      (st : List (WithTop ℤ) × List (Option ℕ) × Bool), st.2.2 = true →
      (l.foldl bfStep st).2.2 = true := by
    intro l
    induction l with
    | nil => intro st hst; exact hst
    | cons e t ih =>
      intro st hst
      rw [List.foldl_cons]
      refine ih _ ?_
      unfold bfStep
      split
      · rfl
      · exact hst
  unfold bfPass at h
  induction edges generalizing d par with
  | nil => exact ⟨rfl, by simp⟩
  | cons e t ih =>
    rw [List.foldl_cons] at h
    by_cases hc : d.getD e.1 ⊤ ≠ ⊤ ∧
        d.getD e.1 ⊤ + (e.2.2 : WithTop ℤ) < d.getD e.2.1 ⊤
    · exfalso
      have : (bfStep (d, par, false) e).2.2 = true := by
        unfold bfStep
        rw [if_pos hc]
      rw [flag_mono t _ this] at h
      exact Bool.true_eq_false.mp h
    · have hstep : bfStep (d, par, false) e = (d, par, false) := by
        unfold bfStep
        rw [if_neg hc]
      rw [hstep] at h
      obtain ⟨h1, h2⟩ := ih h
      have hrw : bfPass (e :: t) d par = bfPass t d par := by
        unfold bfPass
        rw [List.foldl_cons, hstep]
      rw [hrw]
      refine ⟨h1, ?_⟩
      intro f hf
      rcases List.mem_cons.mp hf with rfl | hf
      · unfold Johnson.tense
        exact hc
      · exact h2 f hf

/-- Relaxed-closure upper bound: with no tense edge, the table is below the
start-entry plus the weight of any walk. -/
theorem bf_closure {edges : List (ℕ × ℕ × ℤ)} {dd : List (WithTop ℤ)}
    (hnt : ∀ e ∈ edges, ¬ Johnson.tense dd e) {a b : ℕ}
    {l : List (ℕ × ℕ × ℤ)} (h : IsEPath edges a b l) :
    dd.getD b ⊤ ≤ dd.getD a ⊤ + (pathWeight l : WithTop ℤ) := by
  induction l generalizing a with
  | nil =>
    cases h
    simp
  | cons e t ih =>
    obtain ⟨he, rfl, ht⟩ := h
    have h1 : dd.getD e.2.1 ⊤ ≤ dd.getD e.1 ⊤ + (e.2.2 : WithTop ℤ) := by
      rcases eq_or_ne (dd.getD e.1 ⊤) ⊤ with htop | hfin
      · rw [htop]
        simp
      · have := hnt e he
        unfold Johnson.tense at this
        rw [not_and] at this
        exact not_lt.mp (this hfin)
    calc dd.getD b ⊤ ≤ dd.getD e.2.1 ⊤ + (pathWeight t : WithTop ℤ) := ih ht
      _ ≤ (dd.getD e.1 ⊤ + (e.2.2 : WithTop ℤ)) + (pathWeight t : WithTop ℤ) :=
          add_le_add_right h1 _
      _ = dd.getD e.1 ⊤ + (pathWeight (e :: t) : WithTop ℤ) := by
          rw [add_assoc, pathWeight_cons]
          norm_cast

/-! ### The Bellman-Ford main loop and the returned table -/

theorem bfLoop_props (edges : List (ℕ × ℕ × ℤ)) (s : ℕ) :
    ∀ (k : ℕ) (d : List (WithTop ℤ)) (par : List (Option ℕ)),
      (bfLoop edges k d par).1.length = d.length ∧
        (∀ x, (bfLoop edges k d par).1.getD x ⊤ ≤ d.getD x ⊤) ∧
        (bfSound edges s d → bfSound edges s (bfLoop edges k d par).1) := by
  intro k
  induction k with
  | zero => exact fun d par => ⟨rfl, fun x => le_refl _, fun h => h⟩
  | succ k ih =>
    intro d par
    have hh : bfLoop edges (k + 1) d par =
        if (bfPass edges d par).2.2 then
          bfLoop edges k (bfPass edges d par).1 (bfPass edges d par).2.1
        else ((bfPass edges d par).1, (bfPass edges d par).2.1) := rfl
    rw [hh]
    split
    · obtain ⟨l1, l2, l3⟩ := ih (bfPass edges d par).1 (bfPass edges d par).2.1
      exact ⟨l1.trans (bfPass_fst_length edges d par),
        fun x => le_trans (l2 x) (bfPass_le edges d par x),
        fun h => l3 (bfPass_sound h)⟩
    · exact ⟨bfPass_fst_length edges d par, fun x => bfPass_le edges d par x,
        fun h => bfPass_sound h⟩

theorem bellman_ford_some_no_tense {n : ℕ} {edges : List (ℕ × ℕ × ℤ)} {s : ℕ}
    {d : List (WithTop ℤ)} (h : bellman_ford n edges s = some d) :
    (∀ e ∈ edges, ¬ Johnson.tense d e) ∧
      d = (bfLoop edges (n - 1) ((List.replicate n (⊤ : WithTop ℤ)).set s 0)
        (List.replicate n none)).1 := by
  simp only [bellman_ford] at h
  split at h
  · exact absurd h (by simp)
  · next hany =>
    simp only [List.any_eq_true, decide_eq_true_eq, not_exists, not_and] at hany
    cases h
    exact ⟨fun e he => hany e he, rfl⟩

theorem bellman_ford_none {n : ℕ} {edges : List (ℕ × ℕ × ℤ)} {s : ℕ}
    (h : bellman_ford n edges s = none) :
    ∃ e ∈ edges, Johnson.tense
      (bfLoop edges (n - 1) ((List.replicate n (⊤ : WithTop ℤ)).set s 0)
        (List.replicate n none)).1 e := by
  simp only [bellman_ford] at h
  split at h
  · next hany =>
    simpa only [List.any_eq_true, decide_eq_true_eq] using hany
  · exact absurd h (by simp)

theorem bf_init_sound (edges : List (ℕ × ℕ × ℤ)) (s n : ℕ) :
    bfSound edges s ((List.replicate n (⊤ : WithTop ℤ)).set s 0) := by
  intro v c hv
  rw [getD_set] at hv
  split at hv
  · next hx =>
    refine ⟨[], hx.1, ?_⟩
    have : c = 0 := by exact_mod_cast hv.symm
    rw [this]
    rfl
  · rw [getD_replicate] at hv
    exact absurd hv (by simp)

/-- Facts available whenever the source `bellman_ford` returns a table. -/
theorem bellman_ford_some_facts {n : ℕ} {edges : List (ℕ × ℕ × ℤ)} {s : ℕ}
    {d : List (WithTop ℤ)} (hs : s < n) (h : bellman_ford n edges s = some d) :
    d.length = n ∧ (∀ e ∈ edges, ¬ Johnson.tense d e) ∧ bfSound edges s d ∧
      ¬ HasNegCycleFrom edges s ∧ d.getD s ⊤ = 0 := by
  obtain ⟨hnt, hd⟩ := bellman_ford_some_no_tense h
  obtain ⟨l1, l2, l3⟩ := bfLoop_props edges s (n - 1)
    ((List.replicate n (⊤ : WithTop ℤ)).set s 0) (List.replicate n none)
  have hlen : d.length = n := by
    rw [hd, l1]
    simp
  have hsound : bfSound edges s d := by
    rw [hd]
    exact l3 (bf_init_sound edges s n)
  have hsle : d.getD s ⊤ ≤ 0 := by
    rw [hd]
    have := l2 s
    rwa [getD_set_self _ _ _ (by simpa using hs)] at this
  have hsfin : ∃ c0 : ℤ, d.getD s ⊤ = (c0 : WithTop ℤ) := by
    obtain ⟨c0, hc0⟩ := WithTop.ne_top_iff_exists.mp
      (LT.lt.ne_top (lt_of_le_of_lt hsle (WithTop.coe_lt_top 0)))
    exact ⟨c0, hc0.symm⟩
  have hnoneg : ¬ HasNegCycleFrom edges s := by
    rintro ⟨u, lw1, lw2, h1, h2, hneg⟩
    obtain ⟨c0, hc0⟩ := hsfin
    have hu1 : d.getD u ⊤ ≤ d.getD s ⊤ + (pathWeight lw1 : WithTop ℤ) :=
      bf_closure hnt h1
    have hufin : ∃ x : ℤ, d.getD u ⊤ = (x : WithTop ℤ) := by
      rw [hc0] at hu1
      have : d.getD u ⊤ ≤ ((c0 + pathWeight lw1 : ℤ) : WithTop ℤ) := by
        rw [← WithTop.coe_add] at hu1
        exact hu1
      obtain ⟨x, hx⟩ := WithTop.ne_top_iff_exists.mp
        (LT.lt.ne_top (lt_of_le_of_lt this (WithTop.coe_lt_top _)))
      exact ⟨x, hx.symm⟩
    obtain ⟨x, hx⟩ := hufin
    have hu2 : d.getD u ⊤ ≤ d.getD u ⊤ + (pathWeight lw2 : WithTop ℤ) :=
      bf_closure hnt h2
    rw [hx, ← WithTop.coe_add, WithTop.coe_le_coe] at hu2
    omega
  have hs0 : d.getD s ⊤ = 0 := by
    obtain ⟨c0, hc0⟩ := hsfin
    obtain ⟨l0, hl0, hw0⟩ := hsound s c0 hc0
    have hge : 0 ≤ c0 := by
      by_contra hneg
      exact hnoneg ⟨s, [], l0, rfl, hl0, by omega⟩
    have hle2 : c0 ≤ 0 := by
      rw [hc0] at hsle
      exact_mod_cast hsle
    rw [hc0]
    norm_cast
    omega
  exact ⟨hlen, hnt, hsound, hnoneg, hs0⟩

/-! ### Simultaneous Bellman relaxation (proof-side bound for the rounds) -/

/-- The best relaxation of the edges into `v` (a `min` over all edges
`(u, v, w)` of `d[u] + w`). -/
def bellInto (edges : List (ℕ × ℕ × ℤ)) (d : List (WithTop ℤ)) (v : ℕ) :
    WithTop ℤ :=
  edges.foldr
    (fun e acc =>
      if e.2.1 = v then min acc (d.getD e.1 ⊤ + (e.2.2 : WithTop ℤ)) else acc) ⊤

/-- One simultaneous Bellman relaxation of all edges. -/
def bellStep (n : ℕ) (edges : List (ℕ × ℕ × ℤ)) (d : List (WithTop ℤ)) :
    List (WithTop ℤ) :=
  (List.range n).map fun v => min (d.getD v ⊤) (bellInto edges d v)

/-- `k` simultaneous relaxations (innermost first). -/
def bellIter (n : ℕ) (edges : List (ℕ × ℕ × ℤ)) :
    ℕ → List (WithTop ℤ) → List (WithTop ℤ)
  | 0, d0 => d0
  | k + 1, d0 => bellIter n edges k (bellStep n edges d0)

theorem bellStep_getD (n : ℕ) (edges : List (ℕ × ℕ × ℤ))
    (d : List (WithTop ℤ)) {v : ℕ} (hv : v < n) :
    (bellStep n edges d).getD v ⊤ = min (d.getD v ⊤) (bellInto edges d v) := by
  unfold bellStep
  rw [List.getD_eq_getElem?_getD, List.getElem?_map, List.getElem?_range hv]
  rfl

theorem bellStep_getD_top (n : ℕ) (edges : List (ℕ × ℕ × ℤ))
    (d : List (WithTop ℤ)) {v : ℕ} (hv : ¬v < n) :
    (bellStep n edges d).getD v ⊤ = ⊤ := by
  refine List.getD_eq_default _ _ ?_
  unfold bellStep
  simp
  omega

theorem bellInto_le (edges : List (ℕ × ℕ × ℤ)) (d : List (WithTop ℤ))
    {v : ℕ} {e : ℕ × ℕ × ℤ} (he : e ∈ edges) (hev : e.2.1 = v) :
    bellInto edges d v ≤ d.getD e.1 ⊤ + (e.2.2 : WithTop ℤ) := by
  unfold bellInto
  induction edges with
  | nil => simp at he
  | cons f t ih =>
    rw [List.foldr_cons]
    rcases List.mem_cons.mp he with rfl | he2
    · rw [if_pos hev]
      exact min_le_right _ _
    · split
      · exact le_trans (min_le_left _ _) (ih he2)
      · exact ih he2

theorem le_bellInto (edges : List (ℕ × ℕ × ℤ)) (d : List (WithTop ℤ))
    {v : ℕ} {x : WithTop ℤ}
    (h : ∀ e ∈ edges, e.2.1 = v → x ≤ d.getD e.1 ⊤ + (e.2.2 : WithTop ℤ)) :
    x ≤ bellInto edges d v := by
  unfold bellInto
  induction edges with
  | nil => exact le_top
  | cons f t ih =>
    rw [List.foldr_cons]
    split
    · next hfv =>
      exact le_min (ih fun e he hev => h e (List.mem_cons_of_mem f he) hev)
        (h f (List.mem_cons_self f t) hfv)
    · exact ih fun e he hev => h e (List.mem_cons_of_mem f he) hev

theorem bellInto_mono (edges : List (ℕ × ℕ × ℤ)) {d1 d2 : List (WithTop ℤ)}
    (h : ∀ x, d1.getD x ⊤ ≤ d2.getD x ⊤) (v : ℕ) :
    bellInto edges d1 v ≤ bellInto edges d2 v :=
  le_bellInto edges d2 fun e he hev =>
    le_trans (bellInto_le edges d1 he hev) (add_le_add_right (h e.1) _)

theorem bellStep_mono (n : ℕ) (edges : List (ℕ × ℕ × ℤ))
    {d1 d2 : List (WithTop ℤ)} (h : ∀ x, d1.getD x ⊤ ≤ d2.getD x ⊤) (x : ℕ) :
    (bellStep n edges d1).getD x ⊤ ≤ (bellStep n edges d2).getD x ⊤ := by
  by_cases hx : x < n
  · rw [bellStep_getD n edges d1 hx, bellStep_getD n edges d2 hx]
    exact min_le_min (h x) (bellInto_mono edges h x)
  · rw [bellStep_getD_top n edges d1 hx]
    rw [bellStep_getD_top n edges d2 hx]

theorem bellIter_mono (n : ℕ) (edges : List (ℕ × ℕ × ℤ)) :
    ∀ (k : ℕ) {d1 d2 : List (WithTop ℤ)},
      (∀ x, d1.getD x ⊤ ≤ d2.getD x ⊤) →
      ∀ x, (bellIter n edges k d1).getD x ⊤ ≤ (bellIter n edges k d2).getD x ⊤ := by
  intro k
  induction k with
  | zero => exact fun h x => h x
  | succ k ih => exact fun h x => ih (fun y => bellStep_mono n edges h y) x

theorem bellIter_succ_outer (n : ℕ) (edges : List (ℕ × ℕ × ℤ)) :
    ∀ (k : ℕ) (d0 : List (WithTop ℤ)),
      bellIter n edges (k + 1) d0 = bellStep n edges (bellIter n edges k d0) := by
  intro k
  induction k with
  | zero => exact fun d0 => rfl
  | succ k ih =>
    intro d0
    show bellIter n edges (k + 1) (bellStep n edges d0) = _
    rw [ih (bellStep n edges d0)]
    rfl

theorem bellStep_le_self (n : ℕ) (edges : List (ℕ × ℕ × ℤ))
    {d : List (WithTop ℤ)} (hlen : d.length = n) (x : ℕ) :
    (bellStep n edges d).getD x ⊤ ≤ d.getD x ⊤ := by
  by_cases hx : x < n
  · rw [bellStep_getD n edges d hx]
    exact min_le_left _ _
  · rw [List.getD_eq_default _ _ (by omega : d.length ≤ x)]
    exact le_top

theorem bellStep_length (n : ℕ) (edges : List (ℕ × ℕ × ℤ))
    (d : List (WithTop ℤ)) : (bellStep n edges d).length = n := by
  unfold bellStep
  simp

theorem bellIter_le_self (n : ℕ) (edges : List (ℕ × ℕ × ℤ)) :
    ∀ (k : ℕ) {d : List (WithTop ℤ)}, d.length = n →
      ∀ x, (bellIter n edges k d).getD x ⊤ ≤ d.getD x ⊤ := by
  intro k
  induction k with
  | zero => exact fun _ x => le_refl _
  | succ k ih =>
    intro d hlen x
    exact le_trans (ih (bellStep_length n edges d) x)
      (bellStep_le_self n edges hlen x)

/-- A sequential relaxation fold only decreases the table, and leaves every
processed edge's head below its tail's value at the start of the pass. -/
theorem bfFold_bound (n : ℕ) (d : List (WithTop ℤ)) :
    ∀ (l : List (ℕ × ℕ × ℤ)) (st : List (WithTop ℤ) × List (Option ℕ) × Bool),
      st.1.length = n → (∀ x, st.1.getD x ⊤ ≤ d.getD x ⊤) →
      (∀ x, (l.foldl bfStep st).1.getD x ⊤ ≤ st.1.getD x ⊤) ∧
        ∀ e ∈ l, e.2.1 < n →
          (l.foldl bfStep st).1.getD e.2.1 ⊤ ≤ d.getD e.1 ⊤ + (e.2.2 : WithTop ℤ) := by
  intro l
  induction l with
  | nil => exact fun st _ _ => ⟨fun x => le_refl _, by simp⟩
  | cons e t ih =>
    intro st hstlen hstle
    rw [List.foldl_cons]
    have hstep_len : (bfStep st e).1.length = n := by
      rw [bfStep_fst_length]
      exact hstlen
    have hstep_le : ∀ x, (bfStep st e).1.getD x ⊤ ≤ st.1.getD x ⊤ := bfStep_le st e
    obtain ⟨ihle, ihbd⟩ := ih (bfStep st e)
      hstep_len (fun x => le_trans (hstep_le x) (hstle x))
    refine ⟨fun x => le_trans (ihle x) (hstep_le x), ?_⟩
    intro f hf hfn
    rcases List.mem_cons.mp hf with rfl | hft
    · -- the head edge was just processed and is not tense afterwards
      have hbound : (bfStep st f).1.getD f.2.1 ⊤ ≤
          d.getD f.1 ⊤ + (f.2.2 : WithTop ℤ) := by
        unfold bfStep
        split
        · next hc =>
          rw [getD_set_self _ _ _ (by omega)]
          exact add_le_add_right (hstle f.1) _
        · next hc =>
          rw [not_and] at hc
          rcases eq_or_ne (st.1.getD f.1 ⊤) ⊤ with htop | hfin
          · have hda : d.getD f.1 ⊤ = ⊤ := by
              have h2 := hstle f.1
              rw [htop] at h2
              exact top_le_iff.mp h2
            rw [hda]
            simp
          · exact le_trans (not_lt.mp (hc hfin))
              (add_le_add_right (hstle f.1) _)
      exact le_trans (ihle f.2.1) hbound
    · exact ihbd f hft hfn

/-- One sequential pass is bounded by one simultaneous relaxation. -/
theorem bfPass_le_bellStep (n : ℕ) (edges : List (ℕ × ℕ × ℤ))
    (d : List (WithTop ℤ)) (par : List (Option ℕ)) (hlen : d.length = n)
    (x : ℕ) :
    (bfPass edges d par).1.getD x ⊤ ≤ (bellStep n edges d).getD x ⊤ := by
  by_cases hx : x < n
  · rw [bellStep_getD n edges d hx]
    refine le_min (bfPass_le edges d par x) ?_
    refine le_bellInto edges d ?_
    intro e he hev
    have := (bfFold_bound n d edges (d, par, false) hlen fun y => le_refl _).2
      e he (hev ▸ hx)
    rw [← hev]
    exact this
  · rw [bellStep_getD_top n edges d hx]
    exact le_top

/-- After `k` rounds of the source loop, either no edge is tense (the early
exit fired or the loop converged) or the table is pointwise below `k`
simultaneous relaxations. -/
theorem bfLoop_le_bellIter (n : ℕ) (edges : List (ℕ × ℕ × ℤ)) :
    ∀ (k : ℕ) (d : List (WithTop ℤ)) (par : List (Option ℕ)), d.length = n →
      (∀ e ∈ edges, ¬ Johnson.tense (bfLoop edges k d par).1 e) ∨
        ∀ x, (bfLoop edges k d par).1.getD x ⊤ ≤ (bellIter n edges k d).getD x ⊤ := by
  intro k
  induction k with
  | zero => exact fun d par _ => Or.inr fun x => le_refl _
  | succ k ih =>
    intro d par hlen
    have hh : bfLoop edges (k + 1) d par =
        if (bfPass edges d par).2.2 then
          bfLoop edges k (bfPass edges d par).1 (bfPass edges d par).2.1
        else ((bfPass edges d par).1, (bfPass edges d par).2.1) := rfl
    rw [hh]
    split
    · have hplen : (bfPass edges d par).1.length = n :=
        (bfPass_fst_length edges d par).trans hlen
      rcases ih (bfPass edges d par).1 (bfPass edges d par).2.1 hplen with hnt | hle
      · exact Or.inl hnt
      · refine Or.inr fun x => le_trans (hle x) ?_
        show (bellIter n edges k (bfPass edges d par).1).getD x ⊤ ≤
          (bellIter n edges k (bellStep n edges d)).getD x ⊤
        exact bellIter_mono n edges k
          (fun y => bfPass_le_bellStep n edges d par hlen y) x
    · next hupd =>
      obtain ⟨heq, hnt⟩ := bfPass_no_update (Bool.not_eq_true _ ▸ hupd)
      refine Or.inl ?_
      intro e he
      show ¬ Johnson.tense (bfPass edges d par).1 e
      rw [heq]
      exact hnt e he

/-! ### Walk surgery: splitting, pigeonhole, cycle removal -/

theorem IsEPath.edges_mem {edges : List (ℕ × ℕ × ℤ)} {u v : ℕ}
    {l : List (ℕ × ℕ × ℤ)} (h : IsEPath edges u v l) : ∀ e ∈ l, e ∈ edges := by
  induction l generalizing u with
  | nil => simp
  | cons e t ih =>
    obtain ⟨he, -, ht⟩ := h
    intro f hf
    rcases List.mem_cons.mp hf with rfl | hf
    · exact he
    · exact ih ht f hf

theorem IsEPath.concat {edges : List (ℕ × ℕ × ℤ)} {u v : ℕ}
    {l : List (ℕ × ℕ × ℤ)} {e : ℕ × ℕ × ℤ}
    (h : IsEPath edges u v (l ++ [e])) :
    IsEPath edges u e.1 l ∧ e ∈ edges ∧ e.2.1 = v := by
  obtain ⟨m, h1, h2⟩ := h.append_split
  obtain ⟨he, hm, hv⟩ := h2
  subst hm
  exact ⟨h1, he, hv⟩

theorem not_nodup_of_lt_length {L : List ℕ} {n : ℕ}
    (hmem : ∀ x ∈ L, x < n) (hlen : n < L.length) : ¬L.Nodup := by
  intro hnd
  have h1 : L.toFinset.card = L.length := List.toFinset_card_of_nodup hnd
  have h2 : L.toFinset ⊆ Finset.range n := fun x hx =>
    Finset.mem_range.mpr (hmem x (List.mem_toFinset.mp hx))
  have h3 := Finset.card_le_card h2
  rw [h1, Finset.card_range] at h3
  omega

/-- Split a walk at any vertex it visits. -/
theorem IsEPath.split_on_mem {edges : List (ℕ × ℕ × ℤ)} {x : ℕ} :
    ∀ {l : List (ℕ × ℕ × ℤ)} {u v : ℕ}, IsEPath edges u v l →
      x ∈ u :: l.map (fun e => e.2.1) →
      ∃ l1 l2, l = l1 ++ l2 ∧ IsEPath edges u x l1 ∧ IsEPath edges x v l2 := by
  intro l
  induction l with
  | nil =>
    intro u v h hx
    have hxu : x = u := by simpa using hx
    subst hxu
    exact ⟨[], [], rfl, rfl, h⟩
  | cons e t ih =>
    intro u v h hx
    obtain ⟨he, heu, ht⟩ := h
    rw [List.map_cons] at hx
    rcases List.mem_cons.mp hx with rfl | hx2
    · exact ⟨[], e :: t, rfl, rfl, ⟨he, heu, ht⟩⟩
    · obtain ⟨l1, l2, heq, h1, h2⟩ := ih ht hx2
      exact ⟨e :: l1, l2, by rw [heq]; rfl, ⟨he, heu, h1⟩, h2⟩

/-- A walk whose visited-vertex list repeats contains a nonempty closed
subwalk. -/
theorem walk_extract_cycle {edges : List (ℕ × ℕ × ℤ)} :
    ∀ {l : List (ℕ × ℕ × ℤ)} {u v : ℕ}, IsEPath edges u v l →
      ¬(u :: l.map (fun e => e.2.1)).Nodup →
      ∃ (x : ℕ) (l1 l2 l3 : List (ℕ × ℕ × ℤ)), l = l1 ++ l2 ++ l3 ∧
        l2 ≠ [] ∧ IsEPath edges u x l1 ∧ IsEPath edges x x l2 ∧
        IsEPath edges x v l3 := by
  intro l
  induction l with
  | nil =>
    intro u v h hnd
    exact absurd (by simp) hnd
  | cons e t ih =>
    intro u v h hnd
    obtain ⟨he, heu, ht⟩ := h
    rw [List.map_cons] at hnd
    by_cases hu : u ∈ e.2.1 :: t.map (fun e => e.2.1)
    · obtain ⟨l1, l2, heq, h1, h2⟩ := IsEPath.split_on_mem ht hu
      refine ⟨u, [], e :: l1, l2, ?_, by simp, rfl, ⟨he, heu, h1⟩, h2⟩
      rw [heq]
      rfl
    · have hnt : ¬(e.2.1 :: t.map (fun e => e.2.1)).Nodup := fun hnd2 =>
        hnd (List.nodup_cons.mpr ⟨hu, hnd2⟩)
      obtain ⟨x, l1, l2, l3, heq, hne, h1, h2, h3⟩ := ih ht hnt
      refine ⟨x, e :: l1, l2, l3, ?_, hne, ⟨he, heu, h1⟩, h2, h3⟩
      rw [heq]
      rfl

/-- Cycle removal: without a negative cycle reachable from `s`, every walk
from `s` has a walk of at most `n - 1` edges that is no heavier. -/
theorem walk_shorten {edges : List (ℕ × ℕ × ℤ)} {n s : ℕ}
    (hval : ∀ e ∈ edges, e.1 < n ∧ e.2.1 < n) (hs : s < n)
    (hnc : ¬ HasNegCycleFrom edges s) :
    ∀ (k : ℕ) (l : List (ℕ × ℕ × ℤ)) (v : ℕ), l.length ≤ k →
      IsEPath edges s v l →
      ∃ l2, IsEPath edges s v l2 ∧ l2.length ≤ n - 1 ∧
        pathWeight l2 ≤ pathWeight l := by
  intro k
  induction k with
  | zero =>
    intro l v hl h
    exact ⟨l, h, by omega, le_refl _⟩
  | succ k ih =>
    intro l v hl h
    by_cases hsmall : l.length ≤ n - 1
    · exact ⟨l, h, hsmall, le_refl _⟩
    · have hverts_mem : ∀ x ∈ s :: l.map (fun e => e.2.1), x < n := by
        intro x hx
        rcases List.mem_cons.mp hx with rfl | hx2
        · exact hs
        · obtain ⟨e, hel, rfl⟩ := List.mem_map.mp hx2
          exact (hval e (h.edges_mem e hel)).2
      have hnd : ¬(s :: l.map (fun e => e.2.1)).Nodup :=
        not_nodup_of_lt_length hverts_mem (by simp; omega)
      obtain ⟨x, l1, l2, l3, heq, hne, h1, h2, h3⟩ := walk_extract_cycle h hnd
      have hcycle_nonneg : 0 ≤ pathWeight l2 := by
        by_contra hneg
        exact hnc ⟨x, l1, l2, h1, h2, by omega⟩
      have hshort : IsEPath edges s v (l1 ++ l3) := h1.append h3
      have hlen13 : (l1 ++ l3).length ≤ k := by
        have hlen : l.length = l1.length + l2.length + l3.length := by
          rw [heq, List.length_append, List.length_append]
        have hl2 : 1 ≤ l2.length := by
          cases l2 with
          | nil => exact absurd rfl hne
          | cons a t => simp
        simp only [List.length_append]
        omega
      obtain ⟨l4, h4, hl4, hw4⟩ := ih (l1 ++ l3) v hlen13 hshort
      refine ⟨l4, h4, hl4, ?_⟩
      have hwl : pathWeight l = pathWeight l1 + pathWeight l2 + pathWeight l3 := by
        rw [heq, pathWeight_append, pathWeight_append]
      rw [pathWeight_append] at hw4
      omega

/-- After `k` simultaneous relaxations of the initial table, every vertex is
bounded by the weight of each walk from `s` with at most `k` edges. -/
theorem bellIter_le_walk (n : ℕ) (edges : List (ℕ × ℕ × ℤ)) (s : ℕ)
    (hval : ∀ e ∈ edges, e.1 < n ∧ e.2.1 < n) (hs : s < n) :
    ∀ (k : ℕ) (l : List (ℕ × ℕ × ℤ)) (v : ℕ), IsEPath edges s v l →
      l.length ≤ k →
      (bellIter n edges k
        ((List.replicate n (⊤ : WithTop ℤ)).set s 0)).getD v ⊤ ≤
        (pathWeight l : WithTop ℤ) := by
  have hd0len : ((List.replicate n (⊤ : WithTop ℤ)).set s 0).length = n := by
    simp
  have hd0s : ((List.replicate n (⊤ : WithTop ℤ)).set s 0).getD s ⊤ = 0 :=
    getD_set_self _ _ _ (by simpa using hs)
  intro k
  induction k with
  | zero =>
    intro l v h hl
    have hnil : l = [] := List.length_eq_zero.mp (by omega)
    subst hnil
    have hsv : s = v := h
    subst hsv
    rw [pathWeight_nil]
    exact le_of_eq (by simpa using hd0s)
  | succ k ih =>
    intro l v h hl
    rcases List.eq_nil_or_concat l with rfl | ⟨l2, e, rfl⟩
    · have hsv : s = v := h
      subst hsv
      rw [pathWeight_nil]
      refine le_trans (bellIter_le_self n edges (k + 1) hd0len s) ?_
      exact le_of_eq (by simpa using hd0s)
    · rw [List.concat_eq_append] at h hl ⊢
      obtain ⟨h1, he, hev⟩ := h.concat
      have hlen2 : l2.length ≤ k := by
        rw [List.length_append] at hl
        simpa using hl
      have ih2 := ih l2 e.1 h1 hlen2
      rw [bellIter_succ_outer]
      have hv : v < n := hev ▸ (hval e he).2
      rw [bellStep_getD n edges _ hv]
      refine le_trans (min_le_right _ _) ?_
      refine le_trans (bellInto_le edges _ he hev) ?_
      calc (bellIter n edges k _).getD e.1 ⊤ + (e.2.2 : WithTop ℤ)
          ≤ (pathWeight l2 : WithTop ℤ) + (e.2.2 : WithTop ℤ) :=
            add_le_add_right ih2 _
        _ = (pathWeight (l2 ++ [e]) : WithTop ℤ) := by
            have hw : pathWeight (l2 ++ [e]) = pathWeight l2 + e.2.2 := by
              rw [pathWeight_append, pathWeight_cons, pathWeight_nil]
              omega
            rw [hw]
            norm_cast

/-- **C4.** For every valid edge list and source `s < n`, the source
`bellman_ford` returns `None` exactly when a negative-weight cycle (a
negative closed walk) is reachable from `s`; otherwise the returned table
maps each vertex reachable from `s` to the least walk weight from `s`
(attained and minimal), and each unreachable vertex to the infinity
sentinel. -/
theorem c4_bellman_ford_correct (n : ℕ) (edges : List (ℕ × ℕ × ℤ)) (s : ℕ)
    (hval : ∀ e ∈ edges, e.1 < n ∧ e.2.1 < n) (hs : s < n) :
    (bellman_ford n edges s = none ↔ HasNegCycleFrom edges s) ∧
      ∀ d, bellman_ford n edges s = some d →
        ∀ v < n,
          ((∃ l, IsEPath edges s v l) →
            ∃ c : ℤ, d.getD v ⊤ = (c : WithTop ℤ) ∧
              (∃ l, IsEPath edges s v l ∧ pathWeight l = c) ∧
              ∀ l, IsEPath edges s v l → c ≤ pathWeight l) ∧
          ((¬ ∃ l, IsEPath edges s v l) → d.getD v ⊤ = ⊤) := by
  have hsome : ∀ d, bellman_ford n edges s = some d →
      ∀ v < n,
        ((∃ l, IsEPath edges s v l) →
          ∃ c : ℤ, d.getD v ⊤ = (c : WithTop ℤ) ∧
            (∃ l, IsEPath edges s v l ∧ pathWeight l = c) ∧
            ∀ l, IsEPath edges s v l → c ≤ pathWeight l) ∧
        ((¬ ∃ l, IsEPath edges s v l) → d.getD v ⊤ = ⊤) := by
    intro d hd v hv
    obtain ⟨hlen, hnt, hsound, hnc, hs0⟩ := bellman_ford_some_facts hs hd
    have hub : ∀ l, IsEPath edges s v l →
        d.getD v ⊤ ≤ (pathWeight l : WithTop ℤ) := by
      intro l hl
      have := bf_closure hnt hl
      rwa [hs0, zero_add] at this
    constructor
    · rintro ⟨l, hl⟩
      have hfin : d.getD v ⊤ ≠ ⊤ :=
        LT.lt.ne_top (lt_of_le_of_lt (hub l hl) (WithTop.coe_lt_top _))
      obtain ⟨c, hc⟩ := WithTop.ne_top_iff_exists.mp hfin
      refine ⟨c, hc.symm, hsound v c hc.symm, ?_⟩
      intro l2 hl2
      have := hub l2 hl2
      rw [← hc] at this
      exact_mod_cast this
    · intro hno
      by_contra hne
      obtain ⟨c, hc⟩ := WithTop.ne_top_iff_exists.mp hne
      obtain ⟨l, hl, -⟩ := hsound v c hc.symm
      exact hno ⟨l, hl⟩
  refine ⟨⟨?_, ?_⟩, hsome⟩
  · -- `none` implies a reachable negative cycle
    intro hnone
    by_contra hnc
    obtain ⟨e, he, hte⟩ := bellman_ford_none hnone
    set dF := (bfLoop edges (n - 1)
      ((List.replicate n (⊤ : WithTop ℤ)).set s 0) (List.replicate n none)).1
      with hdF
    have hd0len : ((List.replicate n (⊤ : WithTop ℤ)).set s 0).length = n := by
      simp
    rcases bfLoop_le_bellIter n edges (n - 1)
        ((List.replicate n (⊤ : WithTop ℤ)).set s 0) (List.replicate n none)
        hd0len with hntense | hle
    · exact hntense e he (by rw [← hdF] at *; exact hte)
    · obtain ⟨hfin, hlt⟩ := hte
      obtain ⟨a, ha⟩ := WithTop.ne_top_iff_exists.mp hfin
      have hsound : bfSound edges s dF := by
        rw [hdF]
        exact (bfLoop_props edges s (n - 1) _ _).2.2 (bf_init_sound edges s n)
      obtain ⟨l, hl, hlw⟩ := hsound e.1 a ha.symm
      have hl2 : IsEPath edges s e.2.1 (l ++ [e]) :=
        hl.append ⟨he, rfl, rfl⟩
      obtain ⟨l3, hl3, hl3len, hl3w⟩ := walk_shorten hval hs hnc
        (l ++ [e]).length (l ++ [e]) e.2.1 (le_refl _) hl2
      have hbell := bellIter_le_walk n edges s hval hs (n - 1) l3 e.2.1 hl3 hl3len
      have hdFle := hle e.2.1
      have hw2 : pathWeight (l ++ [e]) = a + e.2.2 := by
        rw [pathWeight_append, hlw, pathWeight_cons, pathWeight_nil]
        omega
      have hcontr : dF.getD e.2.1 ⊤ ≤ ((a + e.2.2 : ℤ) : WithTop ℤ) := by
        refine le_trans hdFle (le_trans hbell ?_)
        rw [← hw2]
        exact_mod_cast hl3w
      rw [← ha, ← WithTop.coe_add] at hlt
      exact absurd (lt_of_lt_of_le hlt hcontr) (lt_irrefl _)
  · -- a reachable negative cycle implies `none`
    intro hcyc
    match hbf : bellman_ford n edges s with
    | none => rfl
    | some d =>
      exact absurd hcyc (bellman_ford_some_facts hs hbf).2.2.2.1

/-- The spec's concrete scenario 2: the two-vertex graph with edges
`0 →(-1) 1` and `1 →(-1) 0` (cycle of weight `-2`). -/
def bfG2 : List (ℕ × ℕ × ℤ) :=
  [(0, 1, -1), (1, 0, -1)]

/-- Witness for **C4**: on the concrete negative-cycle graph `bfG2` the
source `bellman_ford` returns `None` and the claim's equivalence yields the
reachable negative cycle. -/
theorem c4_witness : HasNegCycleFrom bfG2 0 :=
  (c4_bellman_ford_correct 2 bfG2 0 (by decide) (by decide)).1.mp (by decide)

/-! ## Correctness of Kahn's algorithm on DAGs (C6) -/

/-- `u` appears strictly before `v` in the list `l`. -/
def listBefore (l : List ℕ) (u v : ℕ) : Prop :=
  ∃ l1 l2, l = l1 ++ v :: l2 ∧ u ∈ l1

/-- Number of edges into `v` whose source has not been output yet. -/
def remIndeg (edges : List (ℕ × ℕ)) (topo : List ℕ) (v : ℕ) : ℕ :=
  edges.countP fun e => decide (e.2 = v ∧ e.1 ∉ topo)

theorem countP_split {α : Type} (p q : α → Bool) (l : List α) :
    l.countP p =
      l.countP (fun a => p a && q a) + l.countP (fun a => p a && !q a) := by
  induction l with
  | nil => rfl
  | cons a t ih =>
    rw [List.countP_cons, List.countP_cons, List.countP_cons]
    cases hp : p a <;> cases hq : q a <;> simp [hp, hq] <;> omega

theorem countP_congr_list {α : Type} {p q : α → Bool} {l : List α}
    (h : ∀ a ∈ l, p a = q a) : l.countP p = l.countP q := by
  induction l with
  | nil => rfl
  | cons a t ih =>
    rw [List.countP_cons, List.countP_cons,
      h a (List.mem_cons_self a t), ih fun b hb => h b (List.mem_cons_of_mem a hb)]

/-- The adjacency list built by `kahn_topological_sort`: row `u` holds the
targets of the edges out of `u`, in input order. -/
theorem kahnAdj_getD (n : ℕ) (edges : List (ℕ × ℕ)) {u : ℕ} (hu : u < n) :
    (kahnAdj n edges).getD u [] =
      (edges.filter fun e => decide (e.1 = u)).map fun e => e.2 := by
  unfold kahnAdj
  suffices H : ∀ (l : List (ℕ × ℕ)) (init : List (List ℕ)), init.length = n →
      (l.foldl (fun adj e => adj.set e.1 (adj.getD e.1 [] ++ [e.2])) init).getD u [] =
        init.getD u [] ++ (l.filter fun e => decide (e.1 = u)).map fun e => e.2 by
    rw [H edges (List.replicate n []) (by simp), getD_replicate]
    rfl
  intro l
  induction l with
  | nil => simp
  | cons e t ih =>
    intro init hlen
    rw [List.foldl_cons,
      ih (init.set e.1 (init.getD e.1 [] ++ [e.2])) (by simpa using hlen)]
    rcases eq_or_ne e.1 u with heu | heu
    · rw [heu, getD_set_self _ _ _ (by omega), List.filter_cons_of_pos (by simpa using heu)]
      simp
    · rw [getD_set_ne _ _ _ heu, List.filter_cons_of_neg (by simpa using heu)]

/-- The in-degree array built by `kahn_topological_sort`. -/
theorem kahnIndeg_getD (n : ℕ) (edges : List (ℕ × ℕ)) {v : ℕ} (hv : v < n) :
    (kahnIndeg n edges).getD v 0 =
      ((edges.countP fun e => decide (e.2 = v) : ℕ) : ℤ) := by
  unfold kahnIndeg
  suffices H : ∀ (l : List (ℕ × ℕ)) (init : List ℤ), init.length = n →
      (l.foldl (fun ind e => ind.set e.2 (ind.getD e.2 0 + 1)) init).getD v 0 =
        init.getD v 0 + ((l.countP fun e => decide (e.2 = v) : ℕ) : ℤ) by
    rw [H edges (List.replicate n 0) (by simp), getD_replicate]
    simp
  intro l
  induction l with
  | nil => simp
  | cons e t ih =>
    intro init hlen
    rw [List.foldl_cons,
      ih (init.set e.2 (init.getD e.2 0 + 1)) (by simpa using hlen),
      List.countP_cons]
    rcases eq_or_ne e.2 v with hev | hev
    · rw [hev, getD_set_self _ _ _ (by omega)]
      simp
      omega
    · rw [getD_set_ne _ _ _ hev]
      simp [hev]

theorem kahnAdj_getD_count (n : ℕ) (edges : List (ℕ × ℕ)) {u : ℕ} (hu : u < n)
    (v : ℕ) :
    ((kahnAdj n edges).getD u []).count v =
      edges.countP fun e => decide (e.1 = u ∧ e.2 = v) := by
  rw [kahnAdj_getD n edges hu]
  induction edges with
  | nil => rfl
  | cons e t ih =>
    rw [List.countP_cons]
    rcases eq_or_ne e.1 u with heu | heu
    · rw [List.filter_cons_of_pos (by simpa using heu), List.map_cons,
        List.count_cons]
      rcases eq_or_ne e.2 v with hev | hev
      · simp [heu, hev, ih]
      · simp [heu, hev, ih]
    · rw [List.filter_cons_of_neg (by simpa using heu)]
      simp [heu, ih]

/-- Effect of the inner neighbour fold: counters drop by the neighbour
multiplicities, a vertex is enqueued exactly when its counter passes through
zero, and distinct queue members with non-positive counters stay that way. -/
theorem kahnStep_spec :
    ∀ (nbrs : List ℕ) (ind : List ℤ) (q : List ℕ),
      (∀ x ∈ nbrs, x < ind.length) →
      (kahnStep ind q nbrs).1.length = ind.length ∧
        (∀ v : ℕ, (kahnStep ind q nbrs).1.getD v 0 =
          ind.getD v 0 - (nbrs.count v : ℤ)) ∧
        (∀ v : ℕ, v ∈ (kahnStep ind q nbrs).2 ↔
          v ∈ q ∨ (1 ≤ ind.getD v 0 ∧ ind.getD v 0 ≤ (nbrs.count v : ℤ))) ∧
        ((q.Nodup ∧ ∀ v ∈ q, ind.getD v 0 ≤ 0) →
          (kahnStep ind q nbrs).2.Nodup ∧
            ∀ v ∈ (kahnStep ind q nbrs).2, (kahnStep ind q nbrs).1.getD v 0 ≤ 0) := by
  intro nbrs
  induction nbrs with
  | nil =>
    intro ind q _
    refine ⟨rfl, fun v => by simp [kahnStep], fun v => ?_, fun h => ?_⟩
    · simp [kahnStep]
      omega
    · exact ⟨h.1, fun v hv => h.2 v hv⟩
  | cons w ws ih =>
    intro ind q hbound
    have hw : w < ind.length := hbound w (List.mem_cons_self w ws)
    set ind1 := ind.set w (ind.getD w 0 - 1) with hind1
    have hind1w : ind1.getD w 0 = ind.getD w 0 - 1 :=
      getD_set_self _ _ _ hw
    have hind1v : ∀ v, v ≠ w → ind1.getD v 0 = ind.getD v 0 := fun v hv =>
      getD_set_ne _ _ _ (Ne.symm hv)
    have hind1len : ind1.length = ind.length := List.length_set ..
    have hbound2 : ∀ x ∈ ws, x < ind1.length := fun x hx =>
      hind1len ▸ hbound x (List.mem_cons_of_mem w hx)
    by_cases hcond : ind1.getD w 0 == 0
    · have hcond2 : ind.getD w 0 = 1 := by
        rw [beq_iff_eq] at hcond
        omega
      have hstep : kahnStep ind q (w :: ws) = kahnStep ind1 (q ++ [w]) ws := by
        unfold kahnStep
        rw [List.foldl_cons]
        simp only [← hind1]
        rw [if_pos hcond]
      rw [hstep]
      obtain ⟨ha, hb, hc, hd⟩ := ih ind1 (q ++ [w]) hbound2
      refine ⟨ha.trans hind1len, ?_, ?_, ?_⟩
      · intro v
        rw [hb v]
        rcases eq_or_ne v w with rfl | hvw
        · rw [hind1w, List.count_cons_self]
          push_cast
          omega
        · rw [hind1v v hvw, List.count_cons_of_ne hvw]
      · intro v
        rw [hc v]
        simp only [List.mem_append, List.mem_singleton]
        rcases eq_or_ne v w with rfl | hvw
        · constructor
          · intro _
            right
            rw [hcond2, List.count_cons_self]
            push_cast
            exact ⟨trivial, by omega⟩
          · intro _
            left
            exact Or.inr rfl
        · rw [hind1v v hvw, List.count_cons_of_ne hvw]
          constructor
          · rintro ((h | h) | h)
            · exact Or.inl h
            · exact absurd h hvw
            · exact Or.inr h
          · rintro (h | h)
            · exact Or.inl (Or.inl h)
            · exact Or.inr h
      · rintro ⟨hnd, hle⟩
        have hwq : w ∉ q := fun hwq => by
          have := hle w hwq
          omega
        refine hd ⟨?_, ?_⟩
        · rw [List.nodup_append]
          exact ⟨hnd, List.nodup_singleton w, by simpa using hwq⟩
        · intro v hv
          rcases List.mem_append.mp hv with hv | hv
          · rw [hind1v v (fun hvw => hwq (hvw ▸ hv))]
            exact hle v hv
          · rw [List.mem_singleton.mp hv, hind1w, hcond2]
            omega
    · have hcond2 : ind.getD w 0 ≠ 1 := by
        rw [beq_iff_eq] at hcond
        omega
      have hstep : kahnStep ind q (w :: ws) = kahnStep ind1 q ws := by
        unfold kahnStep
        rw [List.foldl_cons]
        simp only [← hind1]
        rw [if_neg hcond]
      rw [hstep]
      obtain ⟨ha, hb, hc, hd⟩ := ih ind1 q hbound2
      refine ⟨ha.trans hind1len, ?_, ?_, ?_⟩
      · intro v
        rw [hb v]
        rcases eq_or_ne v w with rfl | hvw
        · rw [hind1w, List.count_cons_self]
          push_cast
          omega
        · rw [hind1v v hvw, List.count_cons_of_ne hvw]
      · intro v
        rw [hc v]
        rcases eq_or_ne v w with rfl | hvw
        · rw [hind1w, List.count_cons_self]
          constructor
          · rintro (h | h)
            · exact Or.inl h
            · right
              push_cast at h ⊢
              omega
          · rintro (h | h)
            · exact Or.inl h
            · right
              push_cast at h ⊢
              omega
        · rw [hind1v v hvw, List.count_cons_of_ne hvw]
      · rintro ⟨hnd, hle⟩
        refine hd ⟨hnd, ?_⟩
        intro v hv
        rcases eq_or_ne v w with rfl | hvw
        · rw [hind1w]
          have := hle v hv
          omega
        · rw [hind1v v hvw]
          exact hle v hv

/-- Loop invariant for the `while queue` loop of Kahn's algorithm. -/
structure KInv (n : ℕ) (edges : List (ℕ × ℕ)) (topo queue : List ℕ)
    (ind : List ℤ) : Prop where
  nodup : (topo ++ queue).Nodup
  bound : ∀ v ∈ topo ++ queue, v < n
  indlen : ind.length = n
  count : ∀ v < n, ind.getD v 0 = ((remIndeg edges topo v : ℕ) : ℤ)
  queuechar : ∀ v < n, (v ∈ queue ↔ v ∉ topo ∧ remIndeg edges topo v = 0)
  order : ∀ e ∈ edges, e.2 ∈ topo → listBefore topo e.1 e.2

/-- Removing a freshly output vertex from the pending-source count splits it
into the count past the new prefix plus the edges out of that vertex. -/
theorem remIndeg_split (edges : List (ℕ × ℕ)) (topo : List ℕ) (node v : ℕ)
    (hnode : node ∉ topo) :
    remIndeg edges topo v =
      remIndeg edges (topo ++ [node]) v +
        edges.countP fun e => decide (e.1 = node ∧ e.2 = v) := by
  unfold remIndeg
  rw [countP_split (fun e => decide (e.2 = v ∧ e.1 ∉ topo))
    (fun e => decide (e.1 = node)) edges]
  have h1 : ∀ e ∈ edges,
      ((fun e : ℕ × ℕ => decide (e.2 = v ∧ e.1 ∉ topo)) e &&
        !(fun e : ℕ × ℕ => decide (e.1 = node)) e) =
      (fun e : ℕ × ℕ => decide (e.2 = v ∧ e.1 ∉ topo ++ [node])) e := by
    intro e _
    show (decide (e.2 = v ∧ e.1 ∉ topo) && !decide (e.1 = node)) = _
    rw [← decide_not, ← Bool.decide_and]
    apply decide_eq_decide.mpr
    constructor
    · rintro ⟨⟨hv2, ht⟩, hn⟩
      refine ⟨hv2, fun h => ?_⟩
      rcases List.mem_append.mp h with h | h
      · exact ht h
      · exact hn (List.mem_singleton.mp h)
    · rintro ⟨hv2, ht⟩
      exact ⟨⟨hv2, fun h => ht (List.mem_append_left _ h)⟩,
        fun h => ht (List.mem_append_right _ (List.mem_singleton.mpr h))⟩
  have h2 : ∀ e ∈ edges,
      ((fun e : ℕ × ℕ => decide (e.2 = v ∧ e.1 ∉ topo)) e &&
        (fun e : ℕ × ℕ => decide (e.1 = node)) e) =
      (fun e : ℕ × ℕ => decide (e.1 = node ∧ e.2 = v)) e := by
    intro e _
    show (decide (e.2 = v ∧ e.1 ∉ topo) && decide (e.1 = node)) = _
    rw [← Bool.decide_and]
    apply decide_eq_decide.mpr
    constructor
    · rintro ⟨⟨hv2, -⟩, hn⟩
      exact ⟨hn, hv2⟩
    · rintro ⟨hn, hv2⟩
      exact ⟨⟨hv2, fun h => hnode (hn ▸ h)⟩, hn⟩
  rw [countP_congr_list h1, countP_congr_list h2]
  omega

/-- One iteration of the queue loop preserves the invariant. -/
theorem KInv_step (n : ℕ) (edges : List (ℕ × ℕ))
    (hval : ∀ e ∈ edges, e.1 < n ∧ e.2 < n) {topo rest : List ℕ}
    {ind : List ℤ} (node : ℕ)
    (hinv : KInv n edges topo (node :: rest) ind) :
    KInv n edges (topo ++ [node])
      (kahnStep ind rest ((kahnAdj n edges).getD node [])).2
      (kahnStep ind rest ((kahnAdj n edges).getD node [])).1 := by
  obtain ⟨hnodup, hbound, hindlen, hcount, hqchar, horder⟩ := hinv
  have hnode_n : node < n :=
    hbound node (List.mem_append_right _ (List.mem_cons_self _ _))
  have hnodup_split := List.nodup_append.mp hnodup
  have hnode_topo : node ∉ topo := fun h =>
    hnodup_split.2.2 h (List.mem_cons_self _ _)
  have hnode_q := (hqchar node hnode_n).mp (List.mem_cons_self _ _)
  set nbrs := (kahnAdj n edges).getD node [] with hnbrs
  have hnbrs_lt : ∀ x ∈ nbrs, x < ind.length := by
    intro x hx
    rw [hnbrs, kahnAdj_getD n edges hnode_n] at hx
    obtain ⟨e, he, rfl⟩ := List.mem_map.mp hx
    rw [hindlen]
    exact (hval e (List.mem_of_mem_filter he)).2
  obtain ⟨ha, hb, hc, hd⟩ := kahnStep_spec nbrs ind rest hnbrs_lt
  have hocc : ∀ v, nbrs.count v =
      edges.countP fun e => decide (e.1 = node ∧ e.2 = v) := fun v =>
    kahnAdj_getD_count n edges hnode_n v
  have hsplit : ∀ v, remIndeg edges topo v =
      remIndeg edges (topo ++ [node]) v + nbrs.count v := by
    intro v
    rw [hocc v]
    exact remIndeg_split edges topo node v hnode_topo
  have hrest_nodup : rest.Nodup :=
    (List.nodup_cons.mp hnodup_split.2.1).2
  have hrest_mem : ∀ v ∈ rest, v ∈ (node :: rest) :=
    fun v hv => List.mem_cons_of_mem node hv
  have hcount2 : ∀ v < n,
      (kahnStep ind rest nbrs).1.getD v 0 =
        ((remIndeg edges (topo ++ [node]) v : ℕ) : ℤ) := by
    intro v hv
    rw [hb v, hcount v hv, hsplit v]
    push_cast
    omega
  have hqchar2 : ∀ v < n, (v ∈ (kahnStep ind rest nbrs).2 ↔
      v ∉ topo ++ [node] ∧ remIndeg edges (topo ++ [node]) v = 0) := by
    intro v hv
    rw [hc v, hcount v hv]
    constructor
    · rintro (hvrest | ⟨h1, h2⟩)
      · obtain ⟨hvt, hv0⟩ := (hqchar v hv).mp (hrest_mem v hvrest)
        have hvnode : v ≠ node := fun hvn => by
          rw [hvn] at hvrest
          exact (List.nodup_cons.mp hnodup_split.2.1).1 hvrest
        refine ⟨?_, ?_⟩
        · intro hmem
          rcases List.mem_append.mp hmem with h | h
          · exact hvt h
          · exact hvnode (List.mem_singleton.mp h)
        · have := hsplit v
          omega
      · -- newly enqueued: counter passed through zero
        have hsp := hsplit v
        have hocc_pos : 1 ≤ nbrs.count v := by
          by_contra hno
          omega
        have hrem0 : remIndeg edges (topo ++ [node]) v = 0 := by
          omega
        have hocc_pos2 : 0 < edges.countP fun e => decide (e.1 = node ∧ e.2 = v) := by
          rw [← hocc v]
          omega
        obtain ⟨e, he, hpe0⟩ := List.countP_pos_iff.mp hocc_pos2
        have hpe : e.1 = node ∧ e.2 = v := by simpa using hpe0
        have hvtopo : v ∉ topo := by
          intro hvt
          have he2 : e.2 ∈ topo := by rw [hpe.2]; exact hvt
          obtain ⟨l1, l2, hl, hmem⟩ := horder e he he2
          have h1 : e.1 ∈ topo := by rw [hl]; exact List.mem_append_left _ hmem
          rw [hpe.1] at h1
          exact hnode_topo h1
        have hvnode : v ≠ node := by
          intro hvn
          rw [hvn] at h1
          rw [hnode_q.2] at h1
          simp at h1
        refine ⟨?_, hrem0⟩
        intro hmem
        rcases List.mem_append.mp hmem with h | h
        · exact hvtopo h
        · exact hvnode (List.mem_singleton.mp h)
    · rintro ⟨hvt, hrem0⟩
      have hvtopo : v ∉ topo := fun h => hvt (List.mem_append_left _ h)
      have hvnode : v ≠ node := fun h => hvt (List.mem_append_right _
        (List.mem_singleton.mpr h))
      by_cases hvrest : v ∈ rest
      · exact Or.inl hvrest
      · right
        have hvq : v ∉ (node :: rest) := by
          intro h
          rcases List.mem_cons.mp h with h | h
          · exact hvnode h
          · exact hvrest h
        have hrempos : remIndeg edges topo v ≠ 0 := by
          intro h0
          exact hvq ((hqchar v hv).mpr ⟨hvtopo, h0⟩)
        have hsp := hsplit v
        omega
  have hqnodup : (kahnStep ind rest nbrs).2.Nodup ∧
      ∀ v ∈ (kahnStep ind rest nbrs).2, (kahnStep ind rest nbrs).1.getD v 0 ≤ 0 := by
    refine hd ⟨hrest_nodup, ?_⟩
    intro v hv
    have hvn : v < n := hbound v (List.mem_append_right _ (hrest_mem v hv))
    rw [hcount v hvn, ((hqchar v hvn).mp (hrest_mem v hv)).2]
    simp
  have hqbound : ∀ v ∈ (kahnStep ind rest nbrs).2, v < n := by
    intro v hv
    rcases (hc v).mp hv with h | ⟨h1, -⟩
    · exact hbound v (List.mem_append_right _ (hrest_mem v h))
    · by_contra hvn
      rw [List.getD_eq_default _ _ (by omega : ind.length ≤ v)] at h1
      omega
  refine ⟨?_, ?_, ha.trans hindlen, hcount2, hqchar2, ?_⟩
  · rw [List.nodup_append]
    refine ⟨?_, hqnodup.1, ?_⟩
    · rw [List.nodup_append]
      exact ⟨hnodup_split.1, List.nodup_singleton node,
        by simpa using hnode_topo⟩
    · intro v hv hv2
      have hvn : v < n := hqbound v hv2
      exact ((hqchar2 v hvn).mp hv2).1 hv
  · intro v hv
    rcases List.mem_append.mp hv with h | h
    · rcases List.mem_append.mp h with h | h
      · exact hbound v (List.mem_append_left _ h)
      · rw [List.mem_singleton.mp h]
        exact hnode_n
    · exact hqbound v h
  · intro e he he2
    rcases List.mem_append.mp he2 with h | h
    · obtain ⟨l1, l2, hl, hmem⟩ := horder e he h
      exact ⟨l1, l2 ++ [node], by rw [hl]; simp, hmem⟩
    · have henode : e.2 = node := List.mem_singleton.mp h
      have hsource : e.1 ∈ topo := by
        by_contra hsrc
        have : 0 < edges.countP fun f => decide (f.2 = node ∧ f.1 ∉ topo) :=
          List.countP_pos_iff.mpr ⟨e, he, by simp [henode, hsrc]⟩
        unfold remIndeg at hnode_q
        omega
      exact ⟨topo, [], by rw [henode], hsource⟩

/-- A duplicate-free list of naturals below `n` has at most `n` elements. -/
theorem nodup_lt_length_le (l : List ℕ) (n : ℕ) (hnd : l.Nodup)
    (hlt : ∀ x ∈ l, x < n) : l.length ≤ n := by
  have h1 : l.toFinset ⊆ Finset.range n := fun x hx =>
    Finset.mem_range.mpr (hlt x (List.mem_toFinset.mp hx))
  have h2 := Finset.card_le_card h1
  rw [List.toFinset_card_of_nodup hnd] at h2
  simpa using h2

/-- The in-degree array has length `n`. -/
theorem kahnIndeg_length (n : ℕ) (edges : List (ℕ × ℕ)) :
    (kahnIndeg n edges).length = n := by
  unfold kahnIndeg
  exact foldl_preserve (P := fun l : List ℤ => l.length = n) _ edges _
    (by simp) fun b a _ hb => by simpa using hb

/-- Given enough fuel the queue loop drains the queue while preserving the
invariant. -/
theorem kahnLoop_inv (n : ℕ) (edges : List (ℕ × ℕ))
    (hval : ∀ e ∈ edges, e.1 < n ∧ e.2 < n) :
    ∀ (fuel : ℕ) (queue topo : List ℕ) (ind : List ℤ),
      KInv n edges topo queue ind → n < topo.length + fuel →
      ∃ topo2 ind2,
        kahnLoop (kahnAdj n edges) fuel queue ind topo = (topo2, [], ind2) ∧
          KInv n edges topo2 [] ind2 := by
  intro fuel
  induction fuel with
  | zero =>
    intro queue topo ind hinv hfuel
    exfalso
    have hnd : topo.Nodup := (List.nodup_append.mp hinv.nodup).1
    have hlt : ∀ x ∈ topo, x < n := fun x hx =>
      hinv.bound x (List.mem_append_left _ hx)
    have := nodup_lt_length_le topo n hnd hlt
    omega
  | succ fuel ih =>
    intro queue topo ind hinv hfuel
    cases queue with
    | nil => exact ⟨topo, ind, rfl, hinv⟩
    | cons node rest =>
      obtain ⟨topo2, ind2, hres, hinv2⟩ := ih
        (kahnStep ind rest ((kahnAdj n edges).getD node [])).2 (topo ++ [node])
        (kahnStep ind rest ((kahnAdj n edges).getD node [])).1
        (KInv_step n edges hval node hinv)
        (by rw [List.length_append, List.length_singleton]; omega)
      exact ⟨topo2, ind2, hres, hinv2⟩

/-- The state entering the queue loop satisfies the invariant. -/
theorem kahn_init_KInv (n : ℕ) (edges : List (ℕ × ℕ)) :
    KInv n edges [] (kahnInitQueue n (kahnIndeg n edges))
      (kahnIndeg n edges) := by
  have hrem : ∀ v, remIndeg edges [] v =
      edges.countP fun e => decide (e.2 = v) := by
    intro v
    unfold remIndeg
    apply countP_congr_list
    intro a _
    simp
  refine ⟨?_, ?_, kahnIndeg_length n edges, ?_, ?_, ?_⟩
  · rw [List.nil_append]
    exact List.Nodup.filter _ (List.nodup_range n)
  · intro v hv
    rw [List.nil_append, kahnInitQueue, List.mem_filter, List.mem_range] at hv
    exact hv.1
  · intro v hv
    rw [kahnIndeg_getD n edges hv, hrem v]
  · intro v hv
    rw [kahnInitQueue, List.mem_filter, List.mem_range,
      kahnIndeg_getD n edges hv, hrem v]
    constructor
    · rintro ⟨-, h⟩
      rw [beq_iff_eq] at h
      exact ⟨List.not_mem_nil v, by exact_mod_cast h⟩
    · rintro ⟨-, h⟩
      refine ⟨hv, ?_⟩
      rw [beq_iff_eq]
      exact_mod_cast h
  · intro e _ he2
    exact absurd he2 (List.not_mem_nil _)

/-- If every member of a set of vertices below `n` has an in-edge from
another member, the edge list carries a directed cycle. -/
theorem exists_cycle_of_succ (n : ℕ) (edges : List (ℕ × ℕ)) (P : ℕ → Prop)
    (hbound : ∀ v, P v → v < n)
    (hstep : ∀ v, P v → ∃ u, P u ∧ (u, v) ∈ edges)
    (v0 : ℕ) (hv0 : P v0) :
    ∃ w, Relation.TransGen (fun a b => (a, b) ∈ edges) w w := by
  have hfin : Finite {v : ℕ // P v} := by
    have hinj : Function.Injective
        (fun x : {v : ℕ // P v} => (⟨x.1, hbound x.1 x.2⟩ : Fin n)) := by
      intro a b h
      exact Subtype.ext (congrArg Fin.val h)
    exact Finite.of_injective _ hinj
  classical
  let g : {v : ℕ // P v} → {v : ℕ // P v} := fun x =>
    ⟨(hstep x.1 x.2).choose, (hstep x.1 x.2).choose_spec.1⟩
  have hg : ∀ x : {v : ℕ // P v}, ((g x).1, x.1) ∈ edges := fun x =>
    (hstep x.1 x.2).choose_spec.2
  let F : ℕ → {v : ℕ // P v} := fun k => g^[k] ⟨v0, hv0⟩
  have hchain : ∀ i d : ℕ,
      Relation.TransGen (fun a b => (a, b) ∈ edges)
        (F (i + d + 1)).1 (F i).1 := by
    intro i d
    induction d with
    | zero =>
      have h1 : F (i + 0 + 1) = g (F i) := Function.iterate_succ_apply' g i _
      exact Relation.TransGen.single (h1.symm ▸ hg (F i))
    | succ d ih =>
      have h1 : F (i + (d + 1) + 1) = g (F (i + d + 1)) := by
        show g^[i + (d + 1) + 1] _ = g (g^[i + d + 1] _)
        rw [show i + (d + 1) + 1 = (i + d + 1) + 1 by omega]
        exact Function.iterate_succ_apply' g _ _
      exact Relation.TransGen.head (h1.symm ▸ hg (F (i + d + 1))) ih
  obtain ⟨i, j, hne, heq⟩ := Finite.exists_ne_map_eq_of_infinite F
  rcases hne.lt_or_lt with hij | hij
  · refine ⟨(F i).1, ?_⟩
    have h := hchain i (j - i - 1)
    rw [show i + (j - i - 1) + 1 = j by omega] at h
    rw [← heq] at h
    exact h
  · refine ⟨(F j).1, ?_⟩
    have h := hchain j (i - j - 1)
    rw [show j + (i - j - 1) + 1 = i by omega] at h
    rw [heq] at h
    exact h

/-- A rank function increasing along every edge rules out directed cycles. -/
theorem no_cycle_of_rank (edges : List (ℕ × ℕ)) (r : ℕ → ℕ)
    (h : ∀ e ∈ edges, r e.1 < r e.2) :
    ¬∃ w, Relation.TransGen (fun a b => (a, b) ∈ edges) w w := by
  rintro ⟨w, hw⟩
  have key : ∀ a b : ℕ,
      Relation.TransGen (fun a b => (a, b) ∈ edges) a b → r a < r b := by
    intro a b hab
    induction hab with
    | single h1 => exact h _ h1
    | tail h1 h2 ih => exact lt_trans ih (h _ h2)
  exact lt_irrefl _ (key w w hw)

/-- **C6.** On a directed acyclic graph with `n` vertices (every edge endpoint
below `n`, no directed cycle), `kahn_topological_sort` returns a list that
contains every vertex `v < n`, has length exactly `n`, and places the source
of every edge strictly before its target. -/
theorem c6_kahn_dag_correct (n : ℕ) (edges : List (ℕ × ℕ))
    (hval : ∀ e ∈ edges, e.1 < n ∧ e.2 < n)
    (hdag : ¬∃ w, Relation.TransGen (fun a b => (a, b) ∈ edges) w w) :
    (∀ v < n, v ∈ kahn_topological_sort n edges) ∧
      (kahn_topological_sort n edges).length = n ∧
      ∀ e ∈ edges, listBefore (kahn_topological_sort n edges) e.1 e.2 := by
  obtain ⟨topo2, ind2, hres, hinv⟩ := kahnLoop_inv n edges hval (n + 1)
    (kahnInitQueue n (kahnIndeg n edges)) [] (kahnIndeg n edges)
    (kahn_init_KInv n edges) (by simp)
  have horder_eq : kahnOrder n edges = topo2 := by
    show (kahnLoop (kahnAdj n edges) (n + 1)
      (kahnInitQueue n (kahnIndeg n edges)) (kahnIndeg n edges) []).1 = topo2
    rw [hres]
  have hcomplete : ∀ v < n, v ∈ topo2 := by
    by_contra hnc
    push_neg at hnc
    obtain ⟨v0, hv0n, hv0⟩ := hnc
    refine hdag (exists_cycle_of_succ n edges (fun v => v < n ∧ v ∉ topo2)
      (fun v hv => hv.1) ?_ v0 ⟨hv0n, hv0⟩)
    rintro v ⟨hvn, hvt⟩
    have hq := hinv.queuechar v hvn
    have hnq : ¬(v ∉ topo2 ∧ remIndeg edges topo2 v = 0) := by
      intro hcon
      exact List.not_mem_nil v (hq.mpr hcon)
    have hrem : remIndeg edges topo2 v ≠ 0 := fun h0 => hnq ⟨hvt, h0⟩
    have hpos : 0 < edges.countP fun e => decide (e.2 = v ∧ e.1 ∉ topo2) := by
      unfold remIndeg at hrem
      omega
    obtain ⟨e, he, hpe0⟩ := List.countP_pos_iff.mp hpos
    have hpe : e.2 = v ∧ e.1 ∉ topo2 := by simpa using hpe0
    refine ⟨e.1, ⟨(hval e he).1, hpe.2⟩, ?_⟩
    rw [← hpe.1]
    exact he
  have hnd : topo2.Nodup := by simpa using hinv.nodup
  have hbound2 : ∀ x ∈ topo2, x < n := fun x hx =>
    hinv.bound x (by simpa using hx)
  have hlen : topo2.length = n := by
    have hle := nodup_lt_length_le topo2 n hnd hbound2
    have hge : n ≤ topo2.length := by
      have hsub : Finset.range n ⊆ topo2.toFinset := fun x hx =>
        List.mem_toFinset.mpr (hcomplete x (Finset.mem_range.mp hx))
      have hcard := Finset.card_le_card hsub
      rw [List.toFinset_card_of_nodup hnd] at hcard
      simpa using hcard
    omega
  have hkts : kahn_topological_sort n edges = topo2 := by
    show (if (kahnOrder n edges).length ≠ n then [] else kahnOrder n edges) =
      topo2
    rw [horder_eq, if_neg (by omega : ¬topo2.length ≠ n)]
  rw [hkts]
  refine ⟨hcomplete, hlen, ?_⟩
  intro e he
  exact hinv.order e he (hcomplete e.2 (hval e he).2)

/-- Witness for **C6**: on the spec's six-vertex DAG with edges
`5→2, 5→0, 4→0, 4→1, 2→3, 3→1` the source returns a complete ordering of all
six vertices that respects every edge (acyclicity is certified by the rank
function `[1, 3, 1, 2, 0, 0]`). -/
theorem c6_witness :
    (∀ v < 6, v ∈ kahn_topological_sort 6
        [(5, 2), (5, 0), (4, 0), (4, 1), (2, 3), (3, 1)]) ∧
      (kahn_topological_sort 6
        [(5, 2), (5, 0), (4, 0), (4, 1), (2, 3), (3, 1)]).length = 6 ∧
      ∀ e ∈ [(5, 2), (5, 0), (4, 0), (4, 1), (2, 3), (3, 1)],
        listBefore (kahn_topological_sort 6
          [(5, 2), (5, 0), (4, 0), (4, 1), (2, 3), (3, 1)]) e.1 e.2 :=
  c6_kahn_dag_correct 6 [(5, 2), (5, 0), (4, 0), (4, 1), (2, 3), (3, 1)]
    (by decide)
    (no_cycle_of_rank _ (fun v => [1, 3, 1, 2, 0, 0].getD v 0) (by decide))

/-! ## Prim's algorithm, from `prims_MST.py`, and the spanning-forest
question (C9) -/

/-- `to_adj(edges)` from `prims_MST.py`: `n` is one more than the largest
endpoint (Python's `max` raises on an empty list, hence `Option`; on a
nonempty list of naturals the fold from `0` equals that maximum), and both
directions of every edge are appended, rows holding `(weight, neighbour)`
pairs. -/
def to_adj (edges : List (ℕ × ℕ × ℤ)) : Option (List (List (ℤ × ℕ))) :=
  if edges.isEmpty then none
  else
    let n := 1 + edges.foldl (fun m e => max m (max e.1 e.2.1)) 0
    some (edges.foldl
      (fun g e =>
        let g2 := g.set e.1 (g.getD e.1 [] ++ [(e.2.2, e.2.1)])
        g2.set e.2.1 (g2.getD e.2.1 [] ++ [(e.2.2, e.1)]))
      (List.replicate n []))

/-- Lexicographic order on `prim`'s `heapq` entries `(weight, node, parent)`
(Python compares tuples lexicographically). -/
def primLE (a b : ℤ × ℕ × ℕ) : Prop :=
  a.1 < b.1 ∨ (a.1 = b.1 ∧ (a.2.1 < b.2.1 ∨ (a.2.1 = b.2.1 ∧ a.2.2 ≤ b.2.2)))

instance : DecidableRel primLE := fun a b =>
  inferInstanceAs (Decidable (a.1 < b.1 ∨
    (a.1 = b.1 ∧ (a.2.1 < b.2.1 ∨ (a.2.1 = b.2.1 ∧ a.2.2 ≤ b.2.2)))))

/-- `heapq.heappush` on `prim`'s heap, on the sorted-list model of a binary
heap (the head is the least entry, which is what `heappop` returns). -/
def primPush (h : List (ℤ × ℕ × ℕ)) (e : ℤ × ℕ × ℕ) : List (ℤ × ℕ × ℕ) :=
  List.orderedInsert primLE e h

/-- The `while min_heap` loop of `prim`: pop the least entry
`(weight, node, parent)`, skip it if `node` is already visited, otherwise
append `(parent, node, weight)` to `mst`, mark `node` visited, stop once
`n - 1` edges are collected, and push `node`'s edges to unvisited
neighbours.  The fuel only bounds the number of iterations (`primFuel` below
is provably enough); the `visited` array is returned alongside `mst` so the
loop's frame can be stated. -/
def primLoop (n : ℕ) (graph : List (List (ℤ × ℕ))) :
    ℕ → List Bool → List (ℤ × ℕ × ℕ) → List (ℕ × ℕ × ℤ) →
      Option (List (ℕ × ℕ × ℤ) × List Bool)
  | 0, visited, heap, mst => if heap.isEmpty then some (mst, visited) else none
  | fuel + 1, visited, heap, mst =>
    match heap with
    | [] => some (mst, visited)
    | (weight, node, parent) :: rest =>
      if visited.getD node false then primLoop n graph fuel visited rest mst
      else
        let mst2 := mst ++ [(parent, node, weight)]
        let visited2 := visited.set node true
        if mst2.length = n - 1 then some (mst2, visited2)
        else
          primLoop n graph fuel visited2
            ((graph.getD node []).foldl
              (fun h p =>
                if visited2.getD p.2 false then h
                else primPush h (p.1, p.2, node))
              rest) mst2

/-- Fuel that provably suffices for `primLoop`: every iteration pops one
entry, and entries are only pushed (at most one batch per vertex) when a
vertex is freshly visited, so the initial heap size plus the total adjacency
size bounds the number of iterations. -/
def primFuel (graph : List (List (ℤ × ℕ))) (heap : List (ℤ × ℕ × ℕ)) : ℕ :=
  heap.length + (graph.map List.length).sum + 1

/-- `prim(n, graph)` from `prims_MST.py`: mark the start vertex `0`, push all
of `graph[0]`, and run the heap loop. -/
def prim (n : ℕ) (graph : List (List (ℤ × ℕ))) : List (ℕ × ℕ × ℤ) :=
  let visited := (List.replicate n false).set 0 true
  let heap0 := (graph.getD 0 []).foldl (fun h p => primPush h (p.1, p.2, 0)) []
  ((primLoop n graph (primFuel graph heap0) visited heap0 []).getD ([], [])).1

/-- Undirected reachability over a `(u, v, w)` edge list: the reflexive
transitive closure of "some listed edge joins `x` and `y` in either
direction". -/
def UReach (edges : List (ℕ × ℕ × ℤ)) (a b : ℕ) : Prop :=
  Relation.ReflTransGen
    (fun x y => ∃ e ∈ edges, (e.1 = x ∧ e.2.1 = y) ∨ (e.1 = y ∧ e.2.1 = x)) a b

/-- An edge list is a forest when every edge joins two vertices left
unconnected by the earlier edges. -/
def IsForest (l : List (ℕ × ℕ × ℤ)) : Prop :=
  ∀ i (h : i < l.length),
    ¬UReach (l.take i) (l.get ⟨i, h⟩).1 (l.get ⟨i, h⟩).2.1

/-- A vertex property that holds on both endpoints or neither endpoint of
every listed edge is invariant under undirected reachability. -/
theorem UReach_closed (edges : List (ℕ × ℕ × ℤ)) (Q : ℕ → Prop)
    (hQ : ∀ e ∈ edges, (Q e.1 ↔ Q e.2.1)) {a b : ℕ}
    (h : UReach edges a b) (ha : Q a) : Q b := by
  induction h with
  | refl => exact ha
  | tail h1 h2 ih =>
    obtain ⟨e, he, hcase⟩ := h2
    rcases hcase with ⟨hx, hy⟩ | ⟨hx, hy⟩
    · rw [← hy]
      rw [← hx] at ih
      exact (hQ e he).mp ih
    · rw [← hx]
      rw [← hy] at ih
      exact (hQ e he).mpr ih

/-- Counterexample to **C9** as stated: on the disconnected two-edge graph
`0 —1— 1`, `2 —1— 3` (the repo's own `to_adj` encoding shown explicitly),
`prim` returns only the edge `(0, 1, 1)` of the start component, so its
output contains no spanning tree of the component `{2, 3}` although `2` and
`3` are connected in the input — `prim` does not return a spanning forest of
every connected component. -/
theorem c9_counterexample :
    to_adj [(0, 1, 1), (2, 3, 1)] =
        some [[(1, 1)], [(1, 0)], [(1, 3)], [(1, 2)]] ∧
      prim 4 [[(1, 1)], [(1, 0)], [(1, 3)], [(1, 2)]] = [(0, 1, 1)] ∧
      UReach [(0, 1, 1), (2, 3, 1)] 2 3 ∧
      ¬UReach (prim 4 [[(1, 1)], [(1, 0)], [(1, 3)], [(1, 2)]]) 2 3 := by
  refine ⟨by decide, by decide, ?_, ?_⟩
  · exact Relation.ReflTransGen.single ⟨(2, 3, 1), by decide, Or.inl ⟨rfl, rfl⟩⟩
  · intro h
    have h2 : prim 4 [[(1, 1)], [(1, 0)], [(1, 3)], [(1, 2)]] = [(0, 1, 1)] :=
      by decide
    rw [h2] at h
    exact absurd (UReach_closed [(0, 1, 1)] (fun v => v = 2)
      (by decide) h rfl) (by decide)

/-! ### Union-find verification (for C9's Kruskal half) -/

/-- The parent of `x` as `DisjointSet.find` reads it (`self.parent[node]`;
the `getD` default is `x` itself, so out-of-range vertices are their own
parents). -/
def parentOf (ds : DisjointSet) (x : ℕ) : ℕ :=
  ds.parent.getD x x

/-- `x` is a root of the parent forest. -/
def isRoot (ds : DisjointSet) (x : ℕ) : Prop :=
  parentOf ds x = x

instance (ds : DisjointSet) (x : ℕ) : Decidable (isRoot ds x) :=
  inferInstanceAs (Decidable (parentOf ds x = x))

/-- `k`-fold parent iteration. -/
def parentIter (ds : DisjointSet) (k x : ℕ) : ℕ :=
  (parentOf ds)^[k] x

/-- `r` is the root of `x`'s parent chain. -/
def RootOf (ds : DisjointSet) (x r : ℕ) : Prop :=
  ∃ k, parentIter ds k x = r ∧ isRoot ds r

/-- `x` and `y` lie in the same union-find class. -/
def SameSet (ds : DisjointSet) (x y : ℕ) : Prop :=
  ∃ r, RootOf ds x r ∧ RootOf ds y r

/-- Number of union-find roots among the vertices `0 … n - 1`. -/
def rootCount (ds : DisjointSet) (n : ℕ) : ℕ :=
  (List.range n).countP fun v => decide (isRoot ds v)

/-- Well-formed union-find state on `n` vertices: arrays of length `n`,
parents in range, and ranks strictly increasing from child to parent (the
union-by-rank invariant), which keeps the parent forest acyclic. -/
structure WFds (ds : DisjointSet) (n : ℕ) : Prop where
  plen : ds.parent.length = n
  rlen : ds.rank.length = n
  pbound : ∀ i < n, parentOf ds i < n
  rmono : ∀ i < n, parentOf ds i ≠ i →
    ds.rank.getD i 0 < ds.rank.getD (parentOf ds i) 0

theorem parentIter_zero (ds : DisjointSet) (x : ℕ) : parentIter ds 0 x = x :=
  rfl

theorem parentIter_succ (ds : DisjointSet) (k x : ℕ) :
    parentIter ds (k + 1) x = parentIter ds k (parentOf ds x) :=
  Function.iterate_succ_apply (parentOf ds) k x

theorem parentIter_succ_outer (ds : DisjointSet) (k x : ℕ) :
    parentIter ds (k + 1) x = parentOf ds (parentIter ds k x) :=
  Function.iterate_succ_apply' (parentOf ds) k x

theorem parentIter_add (ds : DisjointSet) (j k x : ℕ) :
    parentIter ds (j + k) x = parentIter ds j (parentIter ds k x) :=
  Function.iterate_add_apply (parentOf ds) j k x

theorem parentIter_fixed (ds : DisjointSet) {r : ℕ} (h : isRoot ds r) :
    ∀ k, parentIter ds k r = r := by
  intro k
  induction k with
  | zero => rfl
  | succ k ih => rw [parentIter_succ_outer, ih, h]

theorem parentIter_lt {ds : DisjointSet} {n : ℕ} (hwf : WFds ds n) {x : ℕ}
    (hx : x < n) (k : ℕ) : parentIter ds k x < n := by
  induction k with
  | zero => exact hx
  | succ k ih => rw [parentIter_succ_outer]; exact hwf.pbound _ ih

theorem RootOf_of_isRoot {ds : DisjointSet} {r : ℕ} (h : isRoot ds r) :
    RootOf ds r r :=
  ⟨0, rfl, h⟩

theorem RootOf_isRoot_iff (ds : DisjointSet) (v : ℕ) :
    RootOf ds v v ↔ isRoot ds v := by
  constructor
  · rintro ⟨k, -, h⟩
    exact h
  · exact RootOf_of_isRoot

theorem RootOf_step {ds : DisjointSet} {x r : ℕ}
    (h : RootOf ds (parentOf ds x) r) : RootOf ds x r := by
  obtain ⟨k, hk, hr⟩ := h
  exact ⟨k + 1, by rw [parentIter_succ]; exact hk, hr⟩

theorem RootOf_parent {ds : DisjointSet} {x r : ℕ} (h : RootOf ds x r)
    (hx : ¬isRoot ds x) : RootOf ds (parentOf ds x) r := by
  obtain ⟨k, hk, hr⟩ := h
  cases k with
  | zero =>
    have hxr : x = r := hk
    exact absurd (hxr.symm ▸ hr) hx
  | succ k => exact ⟨k, by rw [parentIter_succ] at hk; exact hk, hr⟩

theorem RootOf_unique {ds : DisjointSet} {x r s : ℕ} (h1 : RootOf ds x r)
    (h2 : RootOf ds x s) : r = s := by
  obtain ⟨k, hk, hr⟩ := h1
  obtain ⟨j, hj, hs⟩ := h2
  rcases le_total k j with h | h
  · have : parentIter ds j x = parentIter ds (j - k) (parentIter ds k x) := by
      rw [← parentIter_add]
      congr 1
      omega
    rw [hj, hk, parentIter_fixed ds hr] at this
    rw [this]
  · have : parentIter ds k x = parentIter ds (k - j) (parentIter ds j x) := by
      rw [← parentIter_add]
      congr 1
      omega
    rw [hk, hj, parentIter_fixed ds hs] at this
    rw [this]

/-- Structural induction along a parent chain. -/
theorem RootOf_ind (ds : DisjointSet) (M : ℕ → ℕ → Prop)
    (hroot : ∀ r, isRoot ds r → M r r)
    (hstep : ∀ y s, ¬isRoot ds y → RootOf ds (parentOf ds y) s →
      M (parentOf ds y) s → M y s) :
    ∀ y s, RootOf ds y s → M y s := by
  intro y s h
  obtain ⟨k, hk, hr⟩ := h
  induction k generalizing y with
  | zero =>
    have hys : y = s := hk
    subst hys
    exact hroot _ hr
  | succ k ih =>
    by_cases hy : isRoot ds y
    · rw [parentIter_fixed ds hy] at hk
      subst hk
      exact hroot _ hy
    · rw [parentIter_succ] at hk
      exact hstep y s hy ⟨k, hk, hr⟩ (ih _ hk)

theorem rank_lt_root_aux {ds : DisjointSet} {n : ℕ} (hwf : WFds ds n) :
    ∀ (k x r : ℕ), x < n → ¬isRoot ds x → parentIter ds k x = r →
      isRoot ds r → ds.rank.getD x 0 < ds.rank.getD r 0 := by
  intro k
  induction k with
  | zero =>
    intro x r hx hnx hk hr
    have hxr : x = r := hk
    exact absurd (hxr.symm ▸ hr) hnx
  | succ k ih =>
    intro x r hx hnx hk hr
    rw [parentIter_succ] at hk
    have hp : parentOf ds x < n := hwf.pbound x hx
    have h1 : ds.rank.getD x 0 < ds.rank.getD (parentOf ds x) 0 :=
      hwf.rmono x hx hnx
    by_cases hproot : isRoot ds (parentOf ds x)
    · rw [parentIter_fixed ds hproot] at hk
      rw [← hk]
      exact h1
    · exact lt_trans h1 (ih _ _ hp hproot hk hr)

/-- Along a chain from a non-root to its root the rank strictly increases. -/
theorem rank_lt_root {ds : DisjointSet} {n : ℕ} (hwf : WFds ds n) {x r : ℕ}
    (hx : x < n) (hnx : ¬isRoot ds x) (h : RootOf ds x r) :
    ds.rank.getD x 0 < ds.rank.getD r 0 := by
  obtain ⟨k, hk, hr⟩ := h
  exact rank_lt_root_aux hwf k x r hx hnx hk hr

/-- Every vertex below `n` of a well-formed state reaches a root in fewer
than `n` steps. -/
theorem root_exists {ds : DisjointSet} {n : ℕ} (hwf : WFds ds n) {x : ℕ}
    (hx : x < n) : ∃ k < n, isRoot ds (parentIter ds k x) := by
  by_contra hnone
  push_neg at hnone
  have hrank : ∀ j d : ℕ, j + d ≤ n →
      ds.rank.getD (parentIter ds j x) 0 + d ≤
        ds.rank.getD (parentIter ds (j + d) x) 0 := by
    intro j d
    induction d with
    | zero => simp
    | succ d ih =>
      intro hle
      have hlt : parentIter ds (j + d) x < n := parentIter_lt hwf hx _
      have hnr := hnone (j + d) (by omega)
      have := hwf.rmono _ hlt hnr
      have hih := ih (by omega)
      rw [show j + (d + 1) = (j + d) + 1 by omega, parentIter_succ_outer]
      omega
  have hinj : Function.Injective
      (fun k : Fin (n + 1) =>
        (⟨parentIter ds k.1 x, parentIter_lt hwf hx _⟩ : Fin n)) := by
    intro a b hab
    by_contra hne
    have hv : parentIter ds a.1 x = parentIter ds b.1 x :=
      congrArg Fin.val hab
    have ha1 : a.1 ≤ n := by omega
    have hb1 : b.1 ≤ n := by omega
    rcases lt_or_gt_of_ne (fun h : a.1 = b.1 => hne (Fin.ext h)) with h | h
    · have := hrank a.1 (b.1 - a.1) (by omega)
      rw [show a.1 + (b.1 - a.1) = b.1 by omega, ← hv] at this
      omega
    · have := hrank b.1 (a.1 - b.1) (by omega)
      rw [show b.1 + (a.1 - b.1) = a.1 by omega, hv] at this
      omega
  have := Fintype.card_le_of_injective _ hinj
  simp at this

/-- Path-compression step: pointing a non-root vertex directly at its root
preserves well-formedness and every root assignment. -/
theorem ds_set_root {t : DisjointSet} {n x r : ℕ} (hwf : WFds t n)
    (hx : x < n) (hroot : RootOf t x r) (hxr : x ≠ r) :
    WFds ⟨t.parent.set x r, t.rank⟩ n ∧
      ∀ y s, RootOf ⟨t.parent.set x r, t.rank⟩ y s ↔ RootOf t y s := by
  obtain ⟨kx, hkx, hrroot⟩ := hroot
  have hnx : ¬isRoot t x := by
    intro hxroot
    exact hxr (RootOf_unique (RootOf_of_isRoot hxroot) ⟨kx, hkx, hrroot⟩)
  have hrn : r < n := by
    rw [← hkx]
    exact parentIter_lt hwf hx kx
  have hrankxr : t.rank.getD x 0 < t.rank.getD r 0 :=
    rank_lt_root hwf hx hnx ⟨kx, hkx, hrroot⟩
  set t' : DisjointSet := ⟨t.parent.set x r, t.rank⟩ with ht'
  have hpar : ∀ y, parentOf t' y = if y = x then r else parentOf t y := by
    intro y
    by_cases hyx : y = x
    · subst hyx
      rw [if_pos rfl]
      show (t.parent.set y r).getD y y = r
      exact getD_set_self t.parent r y (by rw [hwf.plen]; exact hx)
    · rw [if_neg hyx]
      show (t.parent.set x r).getD y y = parentOf t y
      exact getD_set_ne t.parent r y fun h => hyx h.symm
  have hpx : parentOf t' x = r := by
    rw [hpar x]
    exact if_pos rfl
  have hisroot : ∀ v, isRoot t' v ↔ isRoot t v := by
    intro v
    unfold isRoot
    rw [hpar v]
    by_cases hvx : v = x
    · rw [if_pos hvx]
      subst hvx
      constructor
      · intro h
        exact absurd h.symm hxr
      · intro h
        exact absurd h hnx
    · rw [if_neg hvx]
  have hwf2 : WFds t' n := by
    refine ⟨?_, hwf.rlen, ?_, ?_⟩
    · show (t.parent.set x r).length = n
      rw [List.length_set]
      exact hwf.plen
    · intro i hi
      rw [hpar i]
      by_cases hix : i = x
      · rw [if_pos hix]
        exact hrn
      · rw [if_neg hix]
        exact hwf.pbound i hi
    · intro i hi hne
      rw [hpar i] at hne ⊢
      by_cases hix : i = x
      · rw [if_pos hix] at hne ⊢
        subst hix
        exact hrankxr
      · rw [if_neg hix] at hne ⊢
        exact hwf.rmono i hi hne
  have hfwd : ∀ y s, RootOf t' y s → RootOf t y s := by
    refine RootOf_ind t' (fun y s => RootOf t y s) ?_ ?_
    · intro v hv
      exact RootOf_of_isRoot ((hisroot v).mp hv)
    · intro y s hny hps ih
      by_cases hyx : y = x
      · subst hyx
        rw [hpx] at ih
        have hs : s = r :=
          RootOf_unique ih (RootOf_of_isRoot hrroot)
        rw [hs]
        exact ⟨kx, hkx, hrroot⟩
      · have hpy : parentOf t' y = parentOf t y := by
          rw [hpar y]
          exact if_neg hyx
        rw [hpy] at ih
        exact RootOf_step ih
  have hbwd : ∀ y s, RootOf t y s → RootOf t' y s := by
    refine RootOf_ind t (fun y s => RootOf t' y s) ?_ ?_
    · intro v hv
      exact RootOf_of_isRoot ((hisroot v).mpr hv)
    · intro y s hny hps ih
      by_cases hyx : y = x
      · subst hyx
        have hs : s = r := RootOf_unique (RootOf_step hps) ⟨kx, hkx, hrroot⟩
        have hr' : RootOf t' (parentOf t' y) r := by
          rw [hpx]
          exact RootOf_of_isRoot ((hisroot r).mpr hrroot)
        rw [hs]
        exact RootOf_step hr'
      · refine RootOf_step ?_
        rw [hpar y, if_neg hyx]
        exact ih
  exact ⟨hwf2, fun y s => ⟨hfwd y s, hbwd y s⟩⟩

/-- Full specification of `DisjointSet.find` with sufficient fuel: it
returns the root of the queried vertex, leaves the ranks unchanged,
preserves well-formedness and preserves every root assignment. -/
theorem dsFind_spec :
    ∀ (fuel : ℕ) {ds : DisjointSet} {n : ℕ} (x k : ℕ), WFds ds n → x < n →
      k < fuel → isRoot ds (parentIter ds k x) →
      (dsFind fuel ds x).2 = parentIter ds k x ∧
        (dsFind fuel ds x).1.rank = ds.rank ∧
        WFds (dsFind fuel ds x).1 n ∧
        ∀ y s, RootOf (dsFind fuel ds x).1 y s ↔ RootOf ds y s := by
  intro fuel
  induction fuel with
  | zero =>
    intro ds n x k hwf hx hk hr
    omega
  | succ fuel ih =>
    intro ds n x k hwf hx hk hr
    by_cases hroot : isRoot ds x
    · have hres : dsFind (fuel + 1) ds x = (ds, x) := by
        simp only [dsFind]
        rw [if_neg (show ¬ds.parent.getD x x ≠ x from not_not_intro hroot)]
      rw [hres]
      exact ⟨(parentIter_fixed ds hroot k).symm, rfl, hwf, fun y s => Iff.rfl⟩
    · have hk0 : k ≠ 0 := by
        intro h0
        rw [h0] at hr
        exact hroot hr
      obtain ⟨k2, rfl⟩ : ∃ k2, k = k2 + 1 := ⟨k - 1, by omega⟩
      have hp : parentOf ds x < n := hwf.pbound x hx
      rw [parentIter_succ] at hr
      obtain ⟨hival, hirank, hiwf, hiroot⟩ :=
        ih (parentOf ds x) k2 hwf hp (by omega) hr
      have hres : dsFind (fuel + 1) ds x =
          (⟨(dsFind fuel ds (parentOf ds x)).1.parent.set x
              (dsFind fuel ds (parentOf ds x)).2,
            (dsFind fuel ds (parentOf ds x)).1.rank⟩,
            (dsFind fuel ds (parentOf ds x)).2) := by
        simp only [dsFind]
        rw [if_pos (show ds.parent.getD x x ≠ x from hroot)]
        rfl
      set inner := dsFind fuel ds (parentOf ds x) with hinner
      have hxroot : RootOf ds x (parentIter ds (k2 + 1) x) := by
        refine ⟨k2 + 1, rfl, ?_⟩
        rw [parentIter_succ]
        exact hr
      have hinner_root : RootOf inner.1 x inner.2 := by
        rw [hival]
        rw [← parentIter_succ]
        exact (hiroot x _).mpr hxroot
      have hxne : x ≠ inner.2 := by
        rw [hival]
        intro hxeq
        exact hroot (hxeq.symm ▸ hr)
      have hset := ds_set_root hiwf hx hinner_root hxne
      rw [hres]
      refine ⟨?_, ?_, ?_, ?_⟩
      · show inner.2 = parentIter ds (k2 + 1) x
        rw [parentIter_succ]
        exact hival
      · show inner.1.rank = ds.rank
        exact hirank
      · exact hset.1
      · intro y s
        exact (hset.2 y s).trans (hiroot y s)

theorem RootOf.isRoot {ds : DisjointSet} {x r : ℕ} (h : RootOf ds x r) :
    LearnPython.isRoot ds r := by
  obtain ⟨-, -, hr⟩ := h
  exact hr

/-- Linking the root `b` under the root `a` (with a possibly bumped rank
array `R`) preserves well-formedness and merges exactly the two classes. -/
theorem ds_link {t : DisjointSet} {n a b : ℕ} (R : List ℕ) (hwf : WFds t n)
    (ha : a < n) (hb : b < n) (hra : isRoot t a) (hrb : isRoot t b)
    (hab : a ≠ b) (hR1 : R.length = n)
    (hRb : t.rank.getD b 0 < R.getD a 0)
    (hRoth : ∀ i, i ≠ a → R.getD i 0 = t.rank.getD i 0)
    (hRge : t.rank.getD a 0 ≤ R.getD a 0) :
    WFds ⟨t.parent.set b a, R⟩ n ∧
      ∀ y s, RootOf ⟨t.parent.set b a, R⟩ y s ↔
        ((RootOf t y s ∧ s ≠ b) ∨ (RootOf t y b ∧ s = a)) := by
  have hba : b ≠ a := fun h => hab h.symm
  set t' : DisjointSet := ⟨t.parent.set b a, R⟩ with ht'
  have hpar : ∀ y, parentOf t' y = if y = b then a else parentOf t y := by
    intro y
    by_cases hyb : y = b
    · subst hyb
      rw [if_pos rfl]
      show (t.parent.set y a).getD y y = a
      exact getD_set_self t.parent a y (by rw [hwf.plen]; exact hb)
    · rw [if_neg hyb]
      show (t.parent.set b a).getD y y = parentOf t y
      exact getD_set_ne t.parent a y fun h => hyb h.symm
  have hpb : parentOf t' b = a := by
    rw [hpar b]
    exact if_pos rfl
  have hisroot : ∀ v, isRoot t' v ↔ (isRoot t v ∧ v ≠ b) := by
    intro v
    by_cases hvb : v = b
    · subst hvb
      unfold isRoot
      rw [hpb]
      constructor
      · intro h
        exact absurd h hab
      · rintro ⟨-, h⟩
        exact absurd rfl h
    · unfold isRoot
      rw [hpar v, if_neg hvb]
      exact ⟨fun h => ⟨h, hvb⟩, fun h => h.1⟩
  have hwf2 : WFds t' n := by
    refine ⟨?_, hR1, ?_, ?_⟩
    · show (t.parent.set b a).length = n
      rw [List.length_set]
      exact hwf.plen
    · intro i hi
      rw [hpar i]
      by_cases hib : i = b
      · rw [if_pos hib]
        exact ha
      · rw [if_neg hib]
        exact hwf.pbound i hi
    · intro i hi hne
      rw [hpar i] at hne ⊢
      by_cases hib : i = b
      · rw [if_pos hib] at hne ⊢
        subst hib
        show R.getD i 0 < R.getD a 0
        rw [hRoth i hba]
        exact hRb
      · rw [if_neg hib] at hne ⊢
        have hia : i ≠ a := by
          intro hia
          subst hia
          exact hne hra
        have h1 := hwf.rmono i hi hne
        show R.getD i 0 < R.getD (parentOf t i) 0
        rw [hRoth i hia]
        by_cases hpa : parentOf t i = a
        · rw [hpa] at h1 ⊢
          omega
        · rw [hRoth _ hpa]
          exact h1
  have hfwd : ∀ y s, RootOf t' y s →
      ((RootOf t y s ∧ s ≠ b) ∨ (RootOf t y b ∧ s = a)) := by
    refine RootOf_ind t'
      (fun y s => (RootOf t y s ∧ s ≠ b) ∨ (RootOf t y b ∧ s = a)) ?_ ?_
    · intro v hv
      obtain ⟨hvr, hvb⟩ := (hisroot v).mp hv
      exact Or.inl ⟨RootOf_of_isRoot hvr, hvb⟩
    · intro y s hny hps ih
      by_cases hyb : y = b
      · subst hyb
        rw [hpb] at ih
        rcases ih with ⟨h1, h2⟩ | ⟨h1, h2⟩
        · have hs : s = a := RootOf_unique h1 (RootOf_of_isRoot hra)
          exact Or.inr ⟨RootOf_of_isRoot hrb, hs⟩
        · exact absurd (RootOf_unique h1 (RootOf_of_isRoot hra)) hba
      · have hpy : parentOf t' y = parentOf t y := by
          rw [hpar y]
          exact if_neg hyb
        rw [hpy] at ih
        rcases ih with ⟨h1, h2⟩ | ⟨h1, h2⟩
        · exact Or.inl ⟨RootOf_step h1, h2⟩
        · exact Or.inr ⟨RootOf_step h1, h2⟩
  have hA : ∀ y s, RootOf t y s → s ≠ b → RootOf t' y s := by
    refine RootOf_ind t (fun y s => s ≠ b → RootOf t' y s) ?_ ?_
    · intro v hv hvb
      exact RootOf_of_isRoot ((hisroot v).mpr ⟨hv, hvb⟩)
    · intro y s hny hps ih hsb
      have hyb : y ≠ b := by
        intro hyb
        subst hyb
        exact hny hrb
      refine RootOf_step ?_
      rw [hpar y, if_neg hyb]
      exact ih hsb
  have hB : ∀ y s, RootOf t y s → s = b → RootOf t' y a := by
    refine RootOf_ind t (fun y s => s = b → RootOf t' y a) ?_ ?_
    · intro v hv hvb
      subst hvb
      refine RootOf_step ?_
      rw [hpb]
      exact RootOf_of_isRoot ((hisroot a).mpr ⟨hra, hab⟩)
    · intro y s hny hps ih hsb
      have hyb : y ≠ b := by
        intro hyb
        subst hyb
        exact hny hrb
      refine RootOf_step ?_
      rw [hpar y, if_neg hyb]
      exact ih hsb
  refine ⟨hwf2, fun y s => ⟨hfwd y s, ?_⟩⟩
  rintro (⟨h1, h2⟩ | ⟨h1, h2⟩)
  · exact hA y s h1 h2
  · subst h2
    exact hB y b h1 rfl

/-- Specification of `DisjointSet.union` with fuel `n`: `u` and `v` have
roots `ru`, `rv`; on equal roots the resulting state keeps every root
assignment, and otherwise it is well-formed and merges exactly the two
classes, one root absorbing the other. -/
theorem dsUnion_spec {ds : DisjointSet} {n : ℕ} (hwf : WFds ds n) {u v : ℕ}
    (hu : u < n) (hv : v < n) :
    ∃ ru rv, RootOf ds u ru ∧ RootOf ds v rv ∧
      (ru = rv → WFds (dsUnion n ds u v) n ∧
        ∀ y s, RootOf (dsUnion n ds u v) y s ↔ RootOf ds y s) ∧
      (ru ≠ rv → WFds (dsUnion n ds u v) n ∧
        ∃ w l, ((w = ru ∧ l = rv) ∨ (w = rv ∧ l = ru)) ∧
          ∀ y s, RootOf (dsUnion n ds u v) y s ↔
            ((RootOf ds y s ∧ s ≠ l) ∨ (RootOf ds y l ∧ s = w))) := by
  obtain ⟨ku, hku, hkuroot⟩ := root_exists hwf hu
  obtain ⟨f1val, f1rank, f1wf, f1root⟩ := dsFind_spec n u ku hwf hu hku hkuroot
  obtain ⟨kv, hkv, hkvroot⟩ := root_exists f1wf hv
  obtain ⟨f2val, f2rank, f2wf, f2root⟩ :=
    dsFind_spec n v kv f1wf hv hkv hkvroot
  have hruds : RootOf ds u (parentIter ds ku u) := ⟨ku, rfl, hkuroot⟩
  have hrvt1 : RootOf (dsFind n ds u).1 v
      (parentIter (dsFind n ds u).1 kv v) := ⟨kv, rfl, hkvroot⟩
  have hrvds : RootOf ds v (parentIter (dsFind n ds u).1 kv v) :=
    (f1root v _).mp hrvt1
  have t2root : ∀ y s, RootOf (dsFind n (dsFind n ds u).1 v).1 y s ↔
      RootOf ds y s := fun y s => (f2root y s).trans (f1root y s)
  have t2rank : (dsFind n (dsFind n ds u).1 v).1.rank = ds.rank :=
    f2rank.trans f1rank
  have hrun : parentIter ds ku u < n := parentIter_lt hwf hu ku
  have hrvn : parentIter (dsFind n ds u).1 kv v < n :=
    parentIter_lt f1wf hv kv
  refine ⟨parentIter ds ku u, parentIter (dsFind n ds u).1 kv v,
    hruds, hrvds, ?_, ?_⟩
  · intro heq
    have hun : dsUnion n ds u v = (dsFind n (dsFind n ds u).1 v).1 := by
      simp only [dsUnion]
      rw [f1val, f2val, if_pos heq]
    rw [hun]
    exact ⟨f2wf, t2root⟩
  · intro hne
    have hrut2 : isRoot (dsFind n (dsFind n ds u).1 v).1
        (parentIter ds ku u) :=
      RootOf.isRoot ((t2root u _).mpr hruds)
    have hrvt2 : isRoot (dsFind n (dsFind n ds u).1 v).1
        (parentIter (dsFind n ds u).1 kv v) :=
      RootOf.isRoot ((t2root v _).mpr hrvds)
    rcases lt_trichotomy (ds.rank.getD (parentIter ds ku u) 0)
      (ds.rank.getD (parentIter (dsFind n ds u).1 kv v) 0) with hlt | heq2 | hgt
    · -- rank ru < rank rv: ru is attached under rv
      have hun : dsUnion n ds u v =
          ⟨(dsFind n (dsFind n ds u).1 v).1.parent.set
              (parentIter ds ku u) (parentIter (dsFind n ds u).1 kv v),
            (dsFind n (dsFind n ds u).1 v).1.rank⟩ := by
        simp only [dsUnion]
        rw [f1val, f2val, if_neg hne,
          if_neg (show ¬((dsFind n (dsFind n ds u).1 v).1.rank.getD
              (parentIter ds ku u) 0 >
            (dsFind n (dsFind n ds u).1 v).1.rank.getD
              (parentIter (dsFind n ds u).1 kv v) 0) by
            rw [t2rank]; omega),
          if_pos (show (dsFind n (dsFind n ds u).1 v).1.rank.getD
              (parentIter ds ku u) 0 <
            (dsFind n (dsFind n ds u).1 v).1.rank.getD
              (parentIter (dsFind n ds u).1 kv v) 0 by
            rw [t2rank]; exact hlt)]
      have hlink := ds_link (dsFind n (dsFind n ds u).1 v).1.rank f2wf
        hrvn hrun hrvt2 hrut2 (fun h => hne h.symm) f2wf.rlen
        (by rw [t2rank]; exact hlt) (fun i _ => rfl) le_rfl
      rw [hun]
      refine ⟨hlink.1, parentIter (dsFind n ds u).1 kv v,
        parentIter ds ku u, Or.inr ⟨rfl, rfl⟩, ?_⟩
      intro y s
      rw [hlink.2 y s]
      constructor
      · rintro (⟨h1, h2⟩ | ⟨h1, h2⟩)
        · exact Or.inl ⟨(t2root y s).mp h1, h2⟩
        · exact Or.inr ⟨(t2root y _).mp h1, h2⟩
      · rintro (⟨h1, h2⟩ | ⟨h1, h2⟩)
        · exact Or.inl ⟨(t2root y s).mpr h1, h2⟩
        · exact Or.inr ⟨(t2root y _).mpr h1, h2⟩
    · -- equal ranks: rv is attached under ru, whose rank is bumped
      have hun : dsUnion n ds u v =
          ⟨(dsFind n (dsFind n ds u).1 v).1.parent.set
              (parentIter (dsFind n ds u).1 kv v) (parentIter ds ku u),
            (dsFind n (dsFind n ds u).1 v).1.rank.set (parentIter ds ku u)
              ((dsFind n (dsFind n ds u).1 v).1.rank.getD
                (parentIter ds ku u) 0 + 1)⟩ := by
        simp only [dsUnion]
        rw [f1val, f2val, if_neg hne,
          if_neg (show ¬((dsFind n (dsFind n ds u).1 v).1.rank.getD
              (parentIter ds ku u) 0 >
            (dsFind n (dsFind n ds u).1 v).1.rank.getD
              (parentIter (dsFind n ds u).1 kv v) 0) by
            rw [t2rank]; omega),
          if_neg (show ¬((dsFind n (dsFind n ds u).1 v).1.rank.getD
              (parentIter ds ku u) 0 <
            (dsFind n (dsFind n ds u).1 v).1.rank.getD
              (parentIter (dsFind n ds u).1 kv v) 0) by
            rw [t2rank]; omega)]
      have hlink := ds_link ((dsFind n (dsFind n ds u).1 v).1.rank.set
          (parentIter ds ku u)
          ((dsFind n (dsFind n ds u).1 v).1.rank.getD (parentIter ds ku u) 0 + 1))
        f2wf hrun hrvn hrut2 hrvt2 hne
        (by rw [List.length_set]; exact f2wf.rlen)
        (by
          rw [getD_set_self _ _ _ (by rw [f2wf.rlen]; exact hrun), t2rank]
          omega)
        (fun i hi => getD_set_ne _ _ _ fun h => hi h.symm)
        (by
          rw [getD_set_self _ _ _ (by rw [f2wf.rlen]; exact hrun)]
          omega)
      rw [hun]
      refine ⟨hlink.1, parentIter ds ku u,
        parentIter (dsFind n ds u).1 kv v, Or.inl ⟨rfl, rfl⟩, ?_⟩
      intro y s
      rw [hlink.2 y s]
      constructor
      · rintro (⟨h1, h2⟩ | ⟨h1, h2⟩)
        · exact Or.inl ⟨(t2root y s).mp h1, h2⟩
        · exact Or.inr ⟨(t2root y _).mp h1, h2⟩
      · rintro (⟨h1, h2⟩ | ⟨h1, h2⟩)
        · exact Or.inl ⟨(t2root y s).mpr h1, h2⟩
        · exact Or.inr ⟨(t2root y _).mpr h1, h2⟩
    · -- rank ru > rank rv: rv is attached under ru
      have hun : dsUnion n ds u v =
          ⟨(dsFind n (dsFind n ds u).1 v).1.parent.set
              (parentIter (dsFind n ds u).1 kv v) (parentIter ds ku u),
            (dsFind n (dsFind n ds u).1 v).1.rank⟩ := by
        simp only [dsUnion]
        rw [f1val, f2val, if_neg hne,
          if_pos (show (dsFind n (dsFind n ds u).1 v).1.rank.getD
              (parentIter ds ku u) 0 >
            (dsFind n (dsFind n ds u).1 v).1.rank.getD
              (parentIter (dsFind n ds u).1 kv v) 0 by
            rw [t2rank]; exact hgt)]
      have hlink := ds_link (dsFind n (dsFind n ds u).1 v).1.rank f2wf
        hrun hrvn hrut2 hrvt2 hne f2wf.rlen
        (by rw [t2rank]; omega) (fun i _ => rfl) le_rfl
      rw [hun]
      refine ⟨hlink.1, parentIter ds ku u,
        parentIter (dsFind n ds u).1 kv v, Or.inl ⟨rfl, rfl⟩, ?_⟩
      intro y s
      rw [hlink.2 y s]
      constructor
      · rintro (⟨h1, h2⟩ | ⟨h1, h2⟩)
        · exact Or.inl ⟨(t2root y s).mp h1, h2⟩
        · exact Or.inr ⟨(t2root y _).mp h1, h2⟩
      · rintro (⟨h1, h2⟩ | ⟨h1, h2⟩)
        · exact Or.inl ⟨(t2root y s).mpr h1, h2⟩
        · exact Or.inr ⟨(t2root y _).mpr h1, h2⟩

theorem isRoot_of_rootof_pres {ds ds2 : DisjointSet}
    (h : ∀ y s, RootOf ds2 y s ↔ RootOf ds y s) (v : ℕ) :
    isRoot ds2 v ↔ isRoot ds v := by
  rw [← RootOf_isRoot_iff, ← RootOf_isRoot_iff]
  exact h v v

theorem rootCount_congr {ds ds2 : DisjointSet} {n : ℕ}
    (h : ∀ v < n, isRoot ds2 v ↔ isRoot ds v) :
    rootCount ds2 n = rootCount ds n := by
  unfold rootCount
  apply countP_congr_list
  intro a ha
  rw [List.mem_range] at ha
  exact decide_eq_decide.mpr (h a ha)

theorem countP_eq_one_of_mem {b : ℕ} (p : ℕ → Bool) :
    ∀ {l : List ℕ}, b ∈ l → l.Nodup → p b = true →
      (∀ a ∈ l, p a = true → a = b) → l.countP p = 1 := by
  intro l
  induction l with
  | nil =>
    intro hb
    exact absurd hb (List.not_mem_nil b)
  | cons x t ih =>
    intro hb hnd hpb honly
    rw [List.countP_cons]
    rcases List.mem_cons.mp hb with rfl | hbt
    · have ht0 : t.countP p = 0 := by
        rw [List.countP_eq_zero]
        intro a hat hpa
        have hab := honly a (List.mem_cons_of_mem _ hat) hpa
        subst hab
        exact (List.nodup_cons.mp hnd).1 hat
      rw [ht0, hpb]
      rfl
    · have hpx : p x = false := by
        by_contra hpx
        rw [Bool.not_eq_false] at hpx
        have hxb := honly x (List.mem_cons_self x t) hpx
        subst hxb
        exact (List.nodup_cons.mp hnd).1 hbt
      rw [hpx]
      have := ih hbt (List.nodup_cons.mp hnd).2 hpb
        fun a hat hpa => honly a (List.mem_cons_of_mem _ hat) hpa
      simp [this]

theorem two_le_countP :
    ∀ (l : List ℕ) (a b : ℕ) (p : ℕ → Bool), a ≠ b → a ∈ l → b ∈ l →
      p a = true → p b = true → 2 ≤ l.countP p := by
  intro l
  induction l with
  | nil =>
    intro a b p _ ha
    exact absurd ha (List.not_mem_nil a)
  | cons x t ih =>
    intro a b p hab ha hb hpa hpb
    rw [List.countP_cons]
    rcases List.mem_cons.mp ha with rfl | hat
    · have hbt : b ∈ t := by
        rcases List.mem_cons.mp hb with h | h
        · exact absurd h.symm hab
        · exact h
      have : 0 < t.countP p := List.countP_pos_iff.mpr ⟨b, hbt, hpb⟩
      rw [hpa, if_pos rfl]
      omega
    · rcases List.mem_cons.mp hb with rfl | hbt
      · have : 0 < t.countP p := List.countP_pos_iff.mpr ⟨a, hat, hpa⟩
        rw [hpb, if_pos rfl]
        omega
      · have := ih a b p hab hat hbt hpa hpb
        omega

theorem rootCount_drop {ds ds2 : DisjointSet} {n b : ℕ} (hb : b < n)
    (hroot : isRoot ds b)
    (h : ∀ v < n, isRoot ds2 v ↔ (isRoot ds v ∧ v ≠ b)) :
    rootCount ds2 n + 1 = rootCount ds n := by
  unfold rootCount
  rw [countP_split (fun v => decide (isRoot ds v)) (fun v => decide (v = b))
    (List.range n)]
  have h1 : (List.range n).countP
      (fun v => decide (isRoot ds v) && decide (v = b)) = 1 := by
    apply countP_eq_one_of_mem _ (List.mem_range.mpr hb) (List.nodup_range n)
    · simp [hroot]
    · intro a _ hpa
      have h3 : isRoot ds a ∧ a = b := by simpa using hpa
      exact h3.2
  have h2 : (List.range n).countP
      (fun v => decide (isRoot ds v) && !decide (v = b)) =
      (List.range n).countP fun v => decide (isRoot ds2 v) := by
    apply countP_congr_list
    intro a ha
    rw [List.mem_range] at ha
    show (decide (isRoot ds a) && !decide (a = b)) = decide (isRoot ds2 a)
    rw [← decide_not, ← Bool.decide_and]
    exact decide_eq_decide.mpr (h a ha).symm
  rw [h1, h2]
  omega

/-! ### Undirected reachability toolkit (for C9) -/

theorem UReach_mono {l m : List (ℕ × ℕ × ℤ)} (h : ∀ e ∈ l, e ∈ m) {a b : ℕ}
    (hr : UReach l a b) : UReach m a b := by
  refine Relation.ReflTransGen.mono ?_ hr
  rintro x y ⟨e, he, hcase⟩
  exact ⟨e, h e he, hcase⟩

theorem UReach_symm {l : List (ℕ × ℕ × ℤ)} {a b : ℕ} (h : UReach l a b) :
    UReach l b a := by
  induction h with
  | refl => exact Relation.ReflTransGen.refl
  | tail h1 h2 ih =>
    refine Relation.ReflTransGen.head ?_ ih
    obtain ⟨e, he, hcase⟩ := h2
    rcases hcase with ⟨hx, hy⟩ | ⟨hx, hy⟩
    · exact ⟨e, he, Or.inr ⟨hx, hy⟩⟩
    · exact ⟨e, he, Or.inl ⟨hx, hy⟩⟩

theorem UReach_single {l : List (ℕ × ℕ × ℤ)} {e : ℕ × ℕ × ℤ} (he : e ∈ l) :
    UReach l e.1 e.2.1 :=
  Relation.ReflTransGen.single ⟨e, he, Or.inl ⟨rfl, rfl⟩⟩

/-- If every edge of `l` has its endpoints connected in `m`, reachability
over `l` implies reachability over `m`. -/
theorem UReach_lift {l m : List (ℕ × ℕ × ℤ)}
    (h : ∀ e ∈ l, UReach m e.1 e.2.1) {x y : ℕ} (hr : UReach l x y) :
    UReach m x y := by
  induction hr with
  | refl => exact Relation.ReflTransGen.refl
  | tail h1 h2 ih =>
    obtain ⟨e, he, hcase⟩ := h2
    rcases hcase with ⟨hx, hy⟩ | ⟨hx, hy⟩
    · refine ih.trans ?_
      rw [← hx, ← hy]
      exact h e he
    · refine ih.trans ?_
      rw [← hx, ← hy]
      exact UReach_symm (h e he)

/-- Appending one edge connects exactly the pairs already connected or
joined through the two endpoints of the new edge. -/
theorem UReach_append_edge (l : List (ℕ × ℕ × ℤ)) (e : ℕ × ℕ × ℤ)
    {x y : ℕ} :
    UReach (l ++ [e]) x y ↔
      UReach l x y ∨ (UReach l x e.1 ∧ UReach l e.2.1 y) ∨
        (UReach l x e.2.1 ∧ UReach l e.1 y) := by
  constructor
  · intro h
    induction h with
    | refl => exact Or.inl Relation.ReflTransGen.refl
    | tail h1 h2 ih =>
      obtain ⟨f, hf, hcase⟩ := h2
      rcases List.mem_append.mp hf with hfl | hfe
      · have hstep : ∀ c d : ℕ,
            (f.1 = c ∧ f.2.1 = d) ∨ (f.1 = d ∧ f.2.1 = c) →
            ∀ z, UReach l z c → UReach l z d := by
          rintro c d hcd z hz
          refine hz.trans ?_
          rcases hcd with ⟨h1, h2⟩ | ⟨h1, h2⟩
          · rw [← h1, ← h2]
            exact UReach_single hfl
          · rw [← h1, ← h2]
            exact UReach_symm (UReach_single hfl)
        rcases ih with h | ⟨ha, hb⟩ | ⟨ha, hb⟩
        · exact Or.inl (hstep _ _ hcase _ h)
        · exact Or.inr (Or.inl ⟨ha, hstep _ _ hcase _ hb⟩)
        · exact Or.inr (Or.inr ⟨ha, hstep _ _ hcase _ hb⟩)
      · have hfe2 : f = e := List.mem_singleton.mp hfe
        subst hfe2
        rcases hcase with ⟨h1, h2⟩ | ⟨h1, h2⟩
        · -- step through f in the forward direction: c = f.1, next = f.2.1
          rcases ih with h | ⟨ha, hb⟩ | ⟨ha, hb⟩
          · rw [← h2]
            rw [← h1] at h
            exact Or.inr (Or.inl ⟨h, Relation.ReflTransGen.refl⟩)
          · rw [← h2]
            exact Or.inr (Or.inl ⟨ha, Relation.ReflTransGen.refl⟩)
          · rw [← h2]
            exact Or.inl ha
        · -- step through f backwards: c = f.2.1, next = f.1
          rcases ih with h | ⟨ha, hb⟩ | ⟨ha, hb⟩
          · rw [← h1]
            rw [← h2] at h
            exact Or.inr (Or.inr ⟨h, Relation.ReflTransGen.refl⟩)
          · rw [← h1]
            exact Or.inl ha
          · rw [← h1]
            exact Or.inr (Or.inr ⟨ha, Relation.ReflTransGen.refl⟩)
  · have hsub : ∀ p q : ℕ, UReach l p q → UReach (l ++ [e]) p q :=
      fun p q h => UReach_mono (fun f hf => List.mem_append_left _ hf) h
    have hee : UReach (l ++ [e]) e.1 e.2.1 :=
      UReach_single (List.mem_append_right _ (List.mem_singleton.mpr rfl))
    rintro (h | ⟨ha, hb⟩ | ⟨ha, hb⟩)
    · exact hsub _ _ h
    · exact ((hsub _ _ ha).trans hee).trans (hsub _ _ hb)
    · exact ((hsub _ _ ha).trans (UReach_symm hee)).trans (hsub _ _ hb)

/-- Appending an edge whose endpoints are already connected changes no
reachability. -/
theorem UReach_append_redundant {l : List (ℕ × ℕ × ℤ)} {e : ℕ × ℕ × ℤ}
    (he : UReach l e.1 e.2.1) (x y : ℕ) :
    UReach (l ++ [e]) x y ↔ UReach l x y := by
  rw [UReach_append_edge]
  constructor
  · rintro (h | ⟨ha, hb⟩ | ⟨ha, hb⟩)
    · exact h
    · exact (ha.trans he).trans hb
    · exact (ha.trans (UReach_symm he)).trans hb
  · exact Or.inl

theorem UReach_congr {l m : List (ℕ × ℕ × ℤ)} (h : ∀ e, e ∈ l ↔ e ∈ m)
    (x y : ℕ) : UReach l x y ↔ UReach m x y :=
  ⟨fun hr => UReach_mono (fun e he => (h e).mp he) hr,
    fun hr => UReach_mono (fun e he => (h e).mpr he) hr⟩

/-- Two connected distinct vertices are both endpoints of listed edges. -/
theorem UReach_endpoint {l : List (ℕ × ℕ × ℤ)} {a b : ℕ}
    (h : UReach l a b) :
    a = b ∨ ((∃ e ∈ l, e.1 = a ∨ e.2.1 = a) ∧ ∃ e ∈ l, e.1 = b ∨ e.2.1 = b) := by
  induction h with
  | refl => exact Or.inl rfl
  | tail h1 h2 ih =>
    obtain ⟨e, he, hcase⟩ := h2
    right
    constructor
    · rcases ih with rfl | ⟨ha, -⟩
      · rcases hcase with ⟨h3, h4⟩ | ⟨h3, h4⟩
        · exact ⟨e, he, Or.inl h3⟩
        · exact ⟨e, he, Or.inr h4⟩
      · exact ha
    · rcases hcase with ⟨h3, h4⟩ | ⟨h3, h4⟩
      · exact ⟨e, he, Or.inr h4⟩
      · exact ⟨e, he, Or.inl h3⟩

/-! ### Kruskal builds a maximal spanning forest (C9) -/

theorem foldl_preserve2 {α β : Type} (P : List α → β → Prop) (f : β → α → β) :
    ∀ (l pre : List α) (init : β), P pre init →
      (∀ q b a, a ∈ l → P q b → P (q ++ [a]) (f b a)) →
      P (pre ++ l) (l.foldl f init) := by
  intro l
  induction l with
  | nil =>
    intro pre init h0 _
    simpa using h0
  | cons a t ih =>
    intro pre init h0 hstep
    rw [show pre ++ a :: t = (pre ++ [a]) ++ t by simp]
    exact ih (pre ++ [a]) (f init a)
      (hstep pre init a (List.mem_cons_self a t) h0)
      fun q b x hx hb => hstep q b x (List.mem_cons_of_mem a hx) hb

theorem SameSet_congr {ds ds2 : DisjointSet}
    (h : ∀ y s, RootOf ds2 y s ↔ RootOf ds y s) (x y : ℕ) :
    SameSet ds2 x y ↔ SameSet ds x y := by
  constructor
  · rintro ⟨r, h1, h2⟩
    exact ⟨r, (h x r).mp h1, (h y r).mp h2⟩
  · rintro ⟨r, h1, h2⟩
    exact ⟨r, (h x r).mpr h1, (h y r).mpr h2⟩

theorem IsForest_append {l : List (ℕ × ℕ × ℤ)} {e : ℕ × ℕ × ℤ}
    (hl : IsForest l) (hnc : ¬UReach l e.1 e.2.1) : IsForest (l ++ [e]) := by
  intro i hi
  rw [List.length_append, List.length_singleton] at hi
  by_cases hil : i < l.length
  · have hget : (l ++ [e]).get ⟨i, by rw [List.length_append]; omega⟩ =
        l.get ⟨i, hil⟩ := List.get_append i hil
    rw [hget, List.take_append_of_le_length (by omega)]
    exact hl i hil
  · have hieq : i = l.length := by omega
    subst hieq
    have hget : (l ++ [e]).get ⟨l.length, by simp⟩ = e :=
      List.get_of_append rfl rfl
    rw [hget, List.take_append_of_le_length le_rfl, List.take_length]
    exact hnc

/-- Loop invariant for Kruskal's edge fold: the state after processing the
prefix `pre` of the sorted edge list. -/
structure KrInv (n : ℕ) (pre : List (ℕ × ℕ × ℤ))
    (st : List (ℕ × ℕ × ℤ) × DisjointSet) : Prop where
  wf : WFds st.2 n
  sub : ∀ e ∈ st.1, e ∈ pre
  forest : IsForest st.1
  conn : ∀ x < n, ∀ y < n, (SameSet st.2 x y ↔ UReach st.1 x y)
  cover : ∀ e ∈ pre, UReach st.1 e.1 e.2.1
  count : st.1.length + rootCount st.2 n = n

/-- One Kruskal step (find both endpoints' roots; on distinct roots union
them and keep the edge) preserves the invariant. -/
theorem KrInv_step {n : ℕ} {pre : List (ℕ × ℕ × ℤ)}
    {st : List (ℕ × ℕ × ℤ) × DisjointSet} (e : ℕ × ℕ × ℤ)
    (he1 : e.1 < n) (he2 : e.2.1 < n) (hinv : KrInv n pre st) :
    KrInv n (pre ++ [e])
      (if (dsFind n st.2 e.1).2 ≠ (dsFind n (dsFind n st.2 e.1).1 e.2.1).2
        then (st.1 ++ [e],
          dsUnion n (dsFind n (dsFind n st.2 e.1).1 e.2.1).1 e.1 e.2.1)
        else (st.1, (dsFind n (dsFind n st.2 e.1).1 e.2.1).1)) := by
  obtain ⟨hwf, hsub, hforest, hconn, hcover, hcount⟩ := hinv
  obtain ⟨ku, hku, hkuroot⟩ := root_exists hwf he1
  obtain ⟨f1val, f1rank, f1wf, f1root⟩ :=
    dsFind_spec n e.1 ku hwf he1 hku hkuroot
  obtain ⟨kv, hkv, hkvroot⟩ := root_exists f1wf he2
  obtain ⟨f2val, f2rank, f2wf, f2root⟩ :=
    dsFind_spec n e.2.1 kv f1wf he2 hkv hkvroot
  have t2root : ∀ y s, RootOf (dsFind n (dsFind n st.2 e.1).1 e.2.1).1 y s ↔
      RootOf st.2 y s := fun y s => (f2root y s).trans (f1root y s)
  have hru : RootOf st.2 e.1 (parentIter st.2 ku e.1) := ⟨ku, rfl, hkuroot⟩
  have hrv : RootOf st.2 e.2.1
      (parentIter (dsFind n st.2 e.1).1 kv e.2.1) :=
    (f1root e.2.1 _).mp ⟨kv, rfl, hkvroot⟩
  have hrun : parentIter st.2 ku e.1 < n := parentIter_lt hwf he1 ku
  have hrvn : parentIter (dsFind n st.2 e.1).1 kv e.2.1 < n :=
    parentIter_lt f1wf he2 kv
  have hsame_iff : SameSet st.2 e.1 e.2.1 ↔
      parentIter st.2 ku e.1 = parentIter (dsFind n st.2 e.1).1 kv e.2.1 := by
    constructor
    · rintro ⟨r, h1, h2⟩
      rw [← RootOf_unique h1 hru, ← RootOf_unique h2 hrv]
    · intro h
      exact ⟨parentIter st.2 ku e.1, hru, h ▸ hrv⟩
  by_cases hcond : (dsFind n st.2 e.1).2 =
      (dsFind n (dsFind n st.2 e.1).1 e.2.1).2
  · -- equal roots: the edge is skipped
    rw [if_neg (not_not_intro hcond)]
    have hsame : SameSet st.2 e.1 e.2.1 := by
      rw [hsame_iff]
      rw [f1val, f2val] at hcond
      exact hcond
    have hconn2 := fun x hx y hy =>
      (SameSet_congr t2root x y).trans (hconn x hx y hy)
    refine ⟨f2wf, ?_, hforest, hconn2, ?_, ?_⟩
    · intro f hf
      exact List.mem_append_left _ (hsub f hf)
    · intro f hf
      rcases List.mem_append.mp hf with h | h
      · exact hcover f h
      · rw [List.mem_singleton.mp h]
        exact (hconn e.1 he1 e.2.1 he2).mp hsame
    · show st.1.length + rootCount (dsFind n (dsFind n st.2 e.1).1 e.2.1).1 n = n
      rw [rootCount_congr fun v _ => isRoot_of_rootof_pres t2root v]
      exact hcount
  · -- distinct roots: the edge joins two components
    rw [if_pos hcond]
    rw [f1val, f2val] at hcond
    have hnsame : ¬SameSet st.2 e.1 e.2.1 := by
      rw [hsame_iff]
      exact hcond
    have hnreach : ¬UReach st.1 e.1 e.2.1 := fun h =>
      hnsame ((hconn e.1 he1 e.2.1 he2).mpr h)
    obtain ⟨ru2, rv2, hru2, hrv2, -, hne_spec⟩ :=
      dsUnion_spec f2wf he1 he2
    have hru2eq : ru2 = parentIter st.2 ku e.1 :=
      RootOf_unique ((t2root e.1 ru2).mp hru2) hru
    have hrv2eq : rv2 = parentIter (dsFind n st.2 e.1).1 kv e.2.1 :=
      RootOf_unique ((t2root e.2.1 rv2).mp hrv2) hrv
    obtain ⟨hwf3, w, l, hwl, hchar⟩ :=
      hne_spec (by rw [hru2eq, hrv2eq]; exact hcond)
    -- translate the merge characterisation to the original state
    have hchar2 : ∀ y s,
        RootOf (dsUnion n (dsFind n (dsFind n st.2 e.1).1 e.2.1).1 e.1 e.2.1) y s ↔
          ((RootOf st.2 y s ∧ s ≠ l) ∨ (RootOf st.2 y l ∧ s = w)) := by
      intro y s
      rw [hchar y s]
      constructor
      · rintro (⟨h1, h2⟩ | ⟨h1, h2⟩)
        · exact Or.inl ⟨(t2root y s).mp h1, h2⟩
        · exact Or.inr ⟨(t2root y l).mp h1, h2⟩
      · rintro (⟨h1, h2⟩ | ⟨h1, h2⟩)
        · exact Or.inl ⟨(t2root y s).mpr h1, h2⟩
        · exact Or.inr ⟨(t2root y l).mpr h1, h2⟩
    have hwroots : (RootOf st.2 e.1 w ∧ RootOf st.2 e.2.1 l) ∨
        (RootOf st.2 e.2.1 w ∧ RootOf st.2 e.1 l) := by
      rcases hwl with ⟨hw, hl⟩ | ⟨hw, hl⟩
      · subst hw
        subst hl
        exact Or.inl ⟨hru2eq ▸ hru, hrv2eq ▸ hrv⟩
      · subst hw
        subst hl
        exact Or.inr ⟨hrv2eq ▸ hrv, hru2eq ▸ hru⟩
    have hwnl : w ≠ l := by
      rcases hwl with ⟨hw, hl⟩ | ⟨hw, hl⟩
      · subst hw; subst hl
        rw [hru2eq, hrv2eq]
        exact hcond
      · subst hw; subst hl
        rw [hru2eq, hrv2eq]
        exact fun h => hcond h.symm
    have hwisroot : isRoot st.2 w := by
      rcases hwroots with ⟨h1, -⟩ | ⟨h1, -⟩ <;> exact h1.isRoot
    have hlisroot : isRoot st.2 l := by
      rcases hwroots with ⟨-, h1⟩ | ⟨-, h1⟩ <;> exact h1.isRoot
    have hln : l < n := by
      rcases hwl with ⟨-, hl⟩ | ⟨-, hl⟩
      · rw [hl, hrv2eq]; exact hrvn
      · rw [hl, hru2eq]; exact hrun
    -- a SameSet-style description of the merged state
    have hmerge : ∀ x < n, ∀ y < n,
        (SameSet (dsUnion n (dsFind n (dsFind n st.2 e.1).1 e.2.1).1 e.1 e.2.1) x y ↔
          (SameSet st.2 x y ∨
            (SameSet st.2 x e.1 ∧ SameSet st.2 e.2.1 y) ∨
            (SameSet st.2 x e.2.1 ∧ SameSet st.2 e.1 y))) := by
      intro x hx y hy
      constructor
      · rintro ⟨r, h1, h2⟩
        rw [hchar2 x r] at h1
        rw [hchar2 y r] at h2
        rcases h1 with ⟨h1a, h1b⟩ | ⟨h1a, h1b⟩ <;>
          rcases h2 with ⟨h2a, h2b⟩ | ⟨h2a, h2b⟩
        · exact Or.inl ⟨r, h1a, h2a⟩
        · -- x has root r = w, y has root l
          rcases hwroots with ⟨hew, hel⟩ | ⟨hew, hel⟩
          · exact Or.inr (Or.inl ⟨⟨w, h2b ▸ h1a, hew⟩, ⟨l, hel, h2a⟩⟩)
          · exact Or.inr (Or.inr ⟨⟨w, h2b ▸ h1a, hew⟩, ⟨l, hel, h2a⟩⟩)
        · -- x has root l, y has root r = w
          rcases hwroots with ⟨hew, hel⟩ | ⟨hew, hel⟩
          · exact Or.inr (Or.inr ⟨⟨l, h1a, hel⟩, ⟨w, hew, h1b ▸ h2a⟩⟩)
          · exact Or.inr (Or.inl ⟨⟨l, h1a, hel⟩, ⟨w, hew, h1b ▸ h2a⟩⟩)
        · exact Or.inl ⟨l, h1a, h2a⟩
      · have hx3 : ∀ z rz, RootOf st.2 z rz → (rz = w ∨ rz = l) →
            RootOf (dsUnion n (dsFind n (dsFind n st.2 e.1).1 e.2.1).1 e.1 e.2.1)
              z w := by
          intro z rz hz hcases
          rw [hchar2 z w]
          rcases hcases with rfl | rfl
          · exact Or.inl ⟨hz, hwnl⟩
          · exact Or.inr ⟨hz, rfl⟩
        have hkeep : ∀ z rz, RootOf st.2 z rz →
            ∃ r3, RootOf (dsUnion n (dsFind n (dsFind n st.2 e.1).1 e.2.1).1
              e.1 e.2.1) z r3 ∧
              (rz ≠ l → r3 = rz) ∧ (rz = l → r3 = w) := by
          intro z rz hz
          by_cases hrzl : rz = l
          · subst hrzl
            refine ⟨w, ?_, fun h => absurd rfl h, fun _ => rfl⟩
            rw [hchar2 z w]
            exact Or.inr ⟨hz, rfl⟩
          · refine ⟨rz, ?_, fun _ => rfl, fun h => absurd h hrzl⟩
            rw [hchar2 z rz]
            exact Or.inl ⟨hz, hrzl⟩
        rintro (⟨r, h1, h2⟩ | ⟨⟨r1, hx1, he1r⟩, ⟨r2, he2r, hy2⟩⟩ |
          ⟨⟨r1, hx1, he1r⟩, ⟨r2, he2r, hy2⟩⟩)
        · obtain ⟨r3, hz3, hne3, heq3⟩ := hkeep x r h1
          obtain ⟨r4, hz4, hne4, heq4⟩ := hkeep y r h2
          by_cases hrl : r = l
          · exact ⟨w, (heq3 hrl) ▸ hz3, (heq4 hrl) ▸ hz4⟩
          · exact ⟨r, (hne3 hrl) ▸ hz3, (hne4 hrl) ▸ hz4⟩
        · -- x ∼ e.1 and e.2.1 ∼ y
          have hxw : RootOf (dsUnion n (dsFind n (dsFind n st.2 e.1).1 e.2.1).1
              e.1 e.2.1) x w := by
            refine hx3 x r1 hx1 ?_
            have : r1 = parentIter st.2 ku e.1 := RootOf_unique he1r hru
            rcases hwroots with ⟨hew, -⟩ | ⟨-, hel⟩
            · exact Or.inl (this.trans (RootOf_unique hru hew))
            · exact Or.inr (this.trans (RootOf_unique hru hel))
          have hyw : RootOf (dsUnion n (dsFind n (dsFind n st.2 e.1).1 e.2.1).1
              e.1 e.2.1) y w := by
            refine hx3 y r2 hy2 ?_
            have : r2 = parentIter (dsFind n st.2 e.1).1 kv e.2.1 :=
              RootOf_unique he2r hrv
            rcases hwroots with ⟨-, hel⟩ | ⟨hew, -⟩
            · exact Or.inr (this.trans (RootOf_unique hrv hel))
            · exact Or.inl (this.trans (RootOf_unique hrv hew))
          exact ⟨w, hxw, hyw⟩
        · -- x ∼ e.2.1 and e.1 ∼ y
          have hxw : RootOf (dsUnion n (dsFind n (dsFind n st.2 e.1).1 e.2.1).1
              e.1 e.2.1) x w := by
            refine hx3 x r1 hx1 ?_
            have : r1 = parentIter (dsFind n st.2 e.1).1 kv e.2.1 :=
              RootOf_unique he1r hrv
            rcases hwroots with ⟨-, hel⟩ | ⟨hew, -⟩
            · exact Or.inr (this.trans (RootOf_unique hrv hel))
            · exact Or.inl (this.trans (RootOf_unique hrv hew))
          have hyw : RootOf (dsUnion n (dsFind n (dsFind n st.2 e.1).1 e.2.1).1
              e.1 e.2.1) y w := by
            refine hx3 y r2 hy2 ?_
            have : r2 = parentIter st.2 ku e.1 := RootOf_unique he2r hru
            rcases hwroots with ⟨hew, -⟩ | ⟨-, hel⟩
            · exact Or.inl (this.trans (RootOf_unique hru hew))
            · exact Or.inr (this.trans (RootOf_unique hru hel))
          exact ⟨w, hxw, hyw⟩
    refine ⟨hwf3, ?_, IsForest_append hforest hnreach, ?_, ?_, ?_⟩
    · intro f hf
      rcases List.mem_append.mp hf with h | h
      · exact List.mem_append_left _ (hsub f h)
      · exact List.mem_append_right _ h
    · -- connectivity characterisation for the extended forest
      intro x hx y hy
      rw [hmerge x hx y hy, UReach_append_edge]
      constructor
      · rintro (h | ⟨h1, h2⟩ | ⟨h1, h2⟩)
        · exact Or.inl ((hconn x hx y hy).mp h)
        · exact Or.inr (Or.inl ⟨(hconn x hx e.1 he1).mp h1,
            (hconn e.2.1 he2 y hy).mp h2⟩)
        · exact Or.inr (Or.inr ⟨(hconn x hx e.2.1 he2).mp h1,
            (hconn e.1 he1 y hy).mp h2⟩)
      · rintro (h | ⟨h1, h2⟩ | ⟨h1, h2⟩)
        · exact Or.inl ((hconn x hx y hy).mpr h)
        · exact Or.inr (Or.inl ⟨(hconn x hx e.1 he1).mpr h1,
            (hconn e.2.1 he2 y hy).mpr h2⟩)
        · exact Or.inr (Or.inr ⟨(hconn x hx e.2.1 he2).mpr h1,
            (hconn e.1 he1 y hy).mpr h2⟩)
    · intro f hf
      rcases List.mem_append.mp hf with h | h
      · exact UReach_mono (fun g hg => List.mem_append_left _ hg) (hcover f h)
      · rw [List.mem_singleton.mp h]
        exact UReach_single (List.mem_append_right _ (List.mem_singleton.mpr rfl))
    · show (st.1 ++ [e]).length +
        rootCount (dsUnion n (dsFind n (dsFind n st.2 e.1).1 e.2.1).1 e.1 e.2.1) n = n
      have hdrop : rootCount (dsUnion n (dsFind n (dsFind n st.2 e.1).1 e.2.1).1
          e.1 e.2.1) n + 1 = rootCount st.2 n := by
        refine rootCount_drop hln hlisroot ?_
        intro v hv
        rw [← RootOf_isRoot_iff, ← RootOf_isRoot_iff, hchar2 v v]
        constructor
        · rintro (⟨h1, h2⟩ | ⟨h1, h2⟩)
          · exact ⟨h1, h2⟩
          · subst h2
            exact absurd (RootOf_unique (RootOf_of_isRoot hwisroot) h1) hwnl
        · rintro ⟨h1, h2⟩
          exact Or.inl ⟨h1, h2⟩
      rw [List.length_append, List.length_singleton]
      omega

theorem UReach_nil (x y : ℕ) : UReach [] x y ↔ x = y := by
  constructor
  · intro h
    induction h with
    | refl => rfl
    | tail h1 h2 ih =>
      obtain ⟨e, he, -⟩ := h2
      exact absurd he (List.not_mem_nil e)
  · rintro rfl
    exact Relation.ReflTransGen.refl

theorem dsInit_parentOf (n x : ℕ) : parentOf (dsInit n) x = x := by
  show (List.range n).getD x x = x
  rcases lt_or_ge x n with hx | hx
  · rw [List.getD_eq_getElem?_getD, List.getElem?_range hx]
    rfl
  · rw [List.getD_eq_default]
    rw [List.length_range]
    exact hx

theorem dsInit_isRoot (n x : ℕ) : isRoot (dsInit n) x :=
  dsInit_parentOf n x

theorem dsInit_RootOf {n x r : ℕ} (h : RootOf (dsInit n) x r) : r = x := by
  obtain ⟨k, hk, -⟩ := h
  rw [parentIter_fixed _ (dsInit_isRoot n x) k] at hk
  exact hk.symm

theorem kruskal_init_KrInv (n : ℕ) : KrInv n [] ([], dsInit n) := by
  refine ⟨⟨?_, ?_, ?_, ?_⟩, ?_, ?_, ?_, ?_, ?_⟩
  · show (List.range n).length = n
    exact List.length_range n
  · show (List.replicate n 0).length = n
    exact List.length_replicate n 0
  · intro i hi
    rw [dsInit_parentOf]
    exact hi
  · intro i hi hne
    exact absurd (dsInit_parentOf n i) hne
  · intro e he
    exact absurd he (List.not_mem_nil e)
  · intro i hi
    exact absurd hi (by simp)
  · intro x hx y hy
    show SameSet (dsInit n) x y ↔ UReach [] x y
    rw [UReach_nil]
    constructor
    · rintro ⟨r, h1, h2⟩
      rw [← dsInit_RootOf h1, ← dsInit_RootOf h2]
    · rintro rfl
      exact ⟨x, RootOf_of_isRoot (dsInit_isRoot n x),
        RootOf_of_isRoot (dsInit_isRoot n x)⟩
  · intro e he
    exact absurd he (List.not_mem_nil e)
  · show ([] : List (ℕ × ℕ × ℤ)).length + rootCount (dsInit n) n = n
    have hall : rootCount (dsInit n) n = n := by
      unfold rootCount
      rw [List.countP_eq_length.mpr]
      · exact List.length_range n
      · intro a _
        exact decide_eq_true (dsInit_isRoot n a)
    rw [List.length_nil, hall]
    omega

/-- Kruskal returns a maximal spanning forest: its edges come from the
input, they are acyclic, they connect exactly the pairs the input connects,
and on a disconnected input strictly fewer than `n - 1` edges are
returned. -/
theorem kruskal_spec (n : ℕ) (edges : List (ℕ × ℕ × ℤ))
    (hval : ∀ e ∈ edges, e.1 < n ∧ e.2.1 < n) :
    (∀ e ∈ (kruskal n edges).1, e ∈ edges) ∧
      IsForest (kruskal n edges).1 ∧
      (∀ x < n, ∀ y < n,
        (UReach edges x y ↔ UReach (kruskal n edges).1 x y)) ∧
      ((∃ x < n, ∃ y < n, ¬UReach edges x y) →
        (kruskal n edges).1.length < n - 1) := by
  have hsorted_mem : ∀ f, f ∈ edges.mergeSort edgeLE ↔ f ∈ edges := fun f =>
    (List.mergeSort_perm edges edgeLE).mem_iff
  have hval2 : ∀ e ∈ edges.mergeSort edgeLE, e.1 < n ∧ e.2.1 < n :=
    fun e he => hval e ((hsorted_mem e).mp he)
  have hKI : KrInv n ([] ++ edges.mergeSort edgeLE)
      ((edges.mergeSort edgeLE).foldl
        (fun st e =>
          let f1 := dsFind n st.2 e.1
          let f2 := dsFind n f1.1 e.2.1
          if f1.2 ≠ f2.2 then (st.1 ++ [e], dsUnion n f2.1 e.1 e.2.1)
          else (st.1, f2.1))
        ([], dsInit n)) := by
    refine foldl_preserve2 (fun pre st => KrInv n pre st) _
      (edges.mergeSort edgeLE) [] ([], dsInit n) (kruskal_init_KrInv n) ?_
    intro q b a ha hq
    exact KrInv_step a (hval2 a ha).1 (hval2 a ha).2 hq
  rw [List.nil_append] at hKI
  set res := (edges.mergeSort edgeLE).foldl
      (fun st e =>
        let f1 := dsFind n st.2 e.1
        let f2 := dsFind n f1.1 e.2.1
        if f1.2 ≠ f2.2 then (st.1 ++ [e], dsUnion n f2.1 e.1 e.2.1)
        else (st.1, f2.1))
      ([], dsInit n) with hres
  have hmst : (kruskal n edges).1 = res.1 := by
    rw [hres]
    rfl
  rw [hmst]
  obtain ⟨hwf, hsub, hforest, hconn, hcover, hcount⟩ := hKI
  have hconn2 : ∀ x < n, ∀ y < n,
      (UReach edges x y ↔ UReach res.1 x y) := by
    intro x hx y hy
    rw [UReach_congr (fun f => (hsorted_mem f).symm) x y]
    constructor
    · intro h
      exact UReach_lift hcover h
    · intro h
      exact UReach_mono hsub h
  refine ⟨fun e he => (hsorted_mem e).mp (hsub e he), hforest, hconn2, ?_⟩
  rintro ⟨x, hx, y, hy, hnxy⟩
  have hnmst : ¬UReach res.1 x y := fun h => hnxy ((hconn2 x hx y hy).mpr h)
  have hnsame : ¬SameSet res.2 x y := fun h =>
    hnmst ((hconn x hx y hy).mp h)
  obtain ⟨kx, hkx, hkxroot⟩ := root_exists hwf hx
  obtain ⟨ky, hky, hkyroot⟩ := root_exists hwf hy
  have hrne : parentIter res.2 kx x ≠ parentIter res.2 ky y := by
    intro heq
    exact hnsame ⟨_, ⟨kx, rfl, hkxroot⟩, heq ▸ ⟨ky, rfl, hkyroot⟩⟩
  have h2 : 2 ≤ rootCount res.2 n :=
    two_le_countP (List.range n) _ _ _ hrne
      (List.mem_range.mpr (parentIter_lt hwf hx kx))
      (List.mem_range.mpr (parentIter_lt hwf hy ky))
      (decide_eq_true hkxroot) (decide_eq_true hkyroot)
  omega

/-! ### Prim spans exactly the start component (C9) -/

/-- Reachability from vertex to vertex along the adjacency structure. -/
def AReach (graph : List (List (ℤ × ℕ))) (a b : ℕ) : Prop :=
  Relation.ReflTransGen (fun x y => ∃ w, (w, y) ∈ graph.getD x []) a b

theorem mem_orderedInsert_primLE (h : List (ℤ × ℕ × ℕ)) (e x : ℤ × ℕ × ℕ) :
    x ∈ primPush h e ↔ x = e ∨ x ∈ h :=
  List.mem_orderedInsert primLE

theorem primPush_length (h : List (ℤ × ℕ × ℕ)) (e : ℤ × ℕ × ℕ) :
    (primPush h e).length = h.length + 1 :=
  List.orderedInsert_length primLE h e

/-- Membership in the conditional neighbour-push fold of `primLoop`. -/
theorem primPushFold_mem (visited2 : List Bool) (node : ℕ) :
    ∀ (row : List (ℤ × ℕ)) (acc : List (ℤ × ℕ × ℕ)) (h : ℤ × ℕ × ℕ),
      (h ∈ row.foldl
        (fun hp p => if visited2.getD p.2 false then hp
          else primPush hp (p.1, p.2, node)) acc ↔
      h ∈ acc ∨ ∃ p ∈ row, visited2.getD p.2 false = false ∧
        h = (p.1, p.2, node)) := by
  intro row
  induction row with
  | nil =>
    intro acc h
    simp
  | cons p t ih =>
    intro acc h
    rw [List.foldl_cons]
    by_cases hvis : visited2.getD p.2 false = true
    · rw [if_pos hvis, ih]
      constructor
      · rintro (h1 | ⟨q, hq, h2, h3⟩)
        · exact Or.inl h1
        · exact Or.inr ⟨q, List.mem_cons_of_mem p hq, h2, h3⟩
      · rintro (h1 | ⟨q, hq, h2, h3⟩)
        · exact Or.inl h1
        · rcases List.mem_cons.mp hq with rfl | hqt
          · rw [hvis] at h2
            exact absurd h2 (by simp)
          · exact Or.inr ⟨q, hqt, h2, h3⟩
    · rw [Bool.not_eq_true] at hvis
      rw [if_neg (by rw [hvis]; simp), ih]
      rw [mem_orderedInsert_primLE]
      constructor
      · rintro ((h1 | h1) | ⟨q, hq, h2, h3⟩)
        · exact Or.inr ⟨p, List.mem_cons_self p t, hvis, h1⟩
        · exact Or.inl h1
        · exact Or.inr ⟨q, List.mem_cons_of_mem p hq, h2, h3⟩
      · rintro (h1 | ⟨q, hq, h2, h3⟩)
        · exact Or.inl (Or.inr h1)
        · rcases List.mem_cons.mp hq with rfl | hqt
          · exact Or.inl (Or.inl h3)
          · exact Or.inr ⟨q, hqt, h2, h3⟩

/-- Length bound for the conditional neighbour-push fold. -/
theorem primPushFold_len (visited2 : List Bool) (node : ℕ) :
    ∀ (row : List (ℤ × ℕ)) (acc : List (ℤ × ℕ × ℕ)),
      (row.foldl
        (fun hp p => if visited2.getD p.2 false then hp
          else primPush hp (p.1, p.2, node)) acc).length ≤
        acc.length + row.length := by
  intro row
  induction row with
  | nil =>
    intro acc
    simp
  | cons p t ih =>
    intro acc
    rw [List.foldl_cons, List.length_cons]
    by_cases hvis : visited2.getD p.2 false = true
    · rw [if_pos hvis]
      have := ih acc
      omega
    · rw [if_neg hvis]
      have := ih (primPush acc (p.1, p.2, node))
      rw [primPush_length] at this
      omega

/-- Membership in the unconditional initial push fold of `prim`. -/
theorem primPushFold0_mem (node : ℕ) :
    ∀ (row : List (ℤ × ℕ)) (acc : List (ℤ × ℕ × ℕ)) (h : ℤ × ℕ × ℕ),
      (h ∈ row.foldl (fun hp p => primPush hp (p.1, p.2, node)) acc ↔
        h ∈ acc ∨ ∃ p ∈ row, h = (p.1, p.2, node)) := by
  intro row
  induction row with
  | nil =>
    intro acc h
    simp
  | cons p t ih =>
    intro acc h
    rw [List.foldl_cons, ih, mem_orderedInsert_primLE]
    constructor
    · rintro ((h1 | h1) | ⟨q, hq, h2⟩)
      · exact Or.inr ⟨p, List.mem_cons_self p t, h1⟩
      · exact Or.inl h1
      · exact Or.inr ⟨q, List.mem_cons_of_mem p hq, h2⟩
    · rintro (h1 | ⟨q, hq, h2⟩)
      · exact Or.inl (Or.inr h1)
      · rcases List.mem_cons.mp hq with rfl | hqt
        · exact Or.inl (Or.inl h2)
        · exact Or.inr ⟨q, hqt, h2⟩

theorem primPushFold0_len (node : ℕ) :
    ∀ (row : List (ℤ × ℕ)) (acc : List (ℤ × ℕ × ℕ)),
      (row.foldl (fun hp p => primPush hp (p.1, p.2, node)) acc).length =
        acc.length + row.length := by
  intro row
  induction row with
  | nil =>
    intro acc
    simp
  | cons p t ih =>
    intro acc
    rw [List.foldl_cons, List.length_cons, ih, primPush_length]
    omega

theorem getD_set_true_mono {visited : List Bool} {node v : ℕ}
    (h : visited.getD v false = true) :
    (visited.set node true).getD v false = true := by
  rcases eq_or_ne node v with rfl | hne
  · by_cases hlt : node < visited.length
    · exact getD_set_self visited true false hlt
    · rw [List.set_eq_of_length_le (by omega)]
      exact h
  · rw [getD_set_ne visited true false hne]
    exact h

theorem countP_set_true {visited : List Bool} {node n : ℕ}
    (hnode : node < n) (hlen : visited.length = n)
    (hfalse : visited.getD node false = false) :
    (List.range n).countP (fun v => (visited.set node true).getD v false) =
      (List.range n).countP (fun v => visited.getD v false) + 1 := by
  rw [countP_split (fun v => (visited.set node true).getD v false)
      (fun v => decide (v = node)) (List.range n),
    countP_split (fun v => visited.getD v false)
      (fun v => decide (v = node)) (List.range n)]
  have h1 : (List.range n).countP
      (fun v => (visited.set node true).getD v false && decide (v = node)) = 1 := by
    apply countP_eq_one_of_mem _ (List.mem_range.mpr hnode) (List.nodup_range n)
    · rw [getD_set_self visited true false (by omega)]
      simp
    · intro a _ hpa
      have h3 : (visited.set node true).getD a false = true ∧ a = node := by
        simpa using hpa
      exact h3.2
  have h2 : (List.range n).countP
      (fun v => visited.getD v false && decide (v = node)) = 0 := by
    rw [List.countP_eq_zero]
    intro a _ hpa
    have h3 : visited.getD a false = true ∧ a = node := by simpa using hpa
    rw [h3.2, hfalse] at h3
    exact absurd h3.1 (by simp)
  have h3 : (List.range n).countP
      (fun v => (visited.set node true).getD v false && !decide (v = node)) =
      (List.range n).countP
        (fun v => visited.getD v false && !decide (v = node)) := by
    apply countP_congr_list
    intro a _
    by_cases hav : a = node
    · rw [hav]
      simp
    · rw [getD_set_ne visited true false fun h => hav h.symm]
  rw [h1, h2, h3]
  omega

theorem countP_lt_length {l : List ℕ} (p : ℕ → Bool) {y : ℕ} (hy : y ∈ l)
    (hpy : p y = false) : l.countP p < l.length := by
  induction l with
  | nil => exact absurd hy (List.not_mem_nil y)
  | cons a t ih =>
    rw [List.countP_cons, List.length_cons]
    rcases List.mem_cons.mp hy with rfl | hyt
    · rw [hpy, if_neg Bool.false_ne_true]
      have := List.countP_le_length (l := t) (p := p)
      omega
    · have h1 := ih hyt
      have h2 : (if p a then 1 else 0) ≤ 1 := by
        split <;> omega
      omega

/-- Each edge of a list whose edges are adjacency edges gives a two-way
`AReach` step, so list reachability implies adjacency reachability. -/
theorem UReach_to_AReach {graph : List (List (ℤ × ℕ))}
    {l : List (ℕ × ℕ × ℤ)}
    (hmem : ∀ e ∈ l, (e.2.2, e.2.1) ∈ graph.getD e.1 [])
    (HG3 : ∀ u x w, (w, x) ∈ graph.getD u [] → (w, u) ∈ graph.getD x [])
    {x y : ℕ} (h : UReach l x y) : AReach graph x y := by
  induction h with
  | refl => exact Relation.ReflTransGen.refl
  | tail h1 h2 ih =>
    obtain ⟨e, he, hcase⟩ := h2
    refine Relation.ReflTransGen.tail ih ?_
    rcases hcase with ⟨hx, hy⟩ | ⟨hx, hy⟩
    · refine ⟨e.2.2, ?_⟩
      rw [← hx, ← hy]
      exact hmem e he
    · refine ⟨e.2.2, ?_⟩
      rw [← hx, ← hy]
      exact HG3 e.1 e.2.1 e.2.2 (hmem e he)

/-- Remaining push budget of `primLoop`: total adjacency-row length of the
unvisited vertices. -/
def primBudget (graph : List (List (ℤ × ℕ))) (visited : List Bool) : ℕ :=
  ∑ v ∈ Finset.range graph.length,
    if visited.getD v false then 0 else (graph.getD v []).length

theorem primBudget_flip {graph : List (List (ℤ × ℕ))} {visited : List Bool}
    {node : ℕ} (h1 : node < graph.length) (h2 : node < visited.length)
    (h3 : visited.getD node false = false) :
    primBudget graph (visited.set node true) + (graph.getD node []).length =
      primBudget graph visited := by
  unfold primBudget
  rw [Finset.sum_eq_sum_diff_singleton_add (Finset.mem_range.mpr h1)
      (fun v => if (visited.set node true).getD v false then 0
        else (graph.getD v []).length),
    Finset.sum_eq_sum_diff_singleton_add (Finset.mem_range.mpr h1)
      (fun v => if visited.getD v false then 0 else (graph.getD v []).length)]
  have hdiff : ∑ v ∈ Finset.range graph.length \ {node},
      (if (visited.set node true).getD v false then 0
        else (graph.getD v []).length) =
      ∑ v ∈ Finset.range graph.length \ {node},
        (if visited.getD v false then 0 else (graph.getD v []).length) := by
    apply Finset.sum_congr rfl
    intro v hv
    have hvne : v ≠ node := (Finset.mem_sdiff.mp hv).2 ∘ Finset.mem_singleton.mpr
    rw [getD_set_ne visited true false fun h => hvne h.symm]
  rw [hdiff, getD_set_self visited true false h2, h3]
  simp

theorem sum_rowLengths :
    ∀ graph : List (List (ℤ × ℕ)),
      ∑ v ∈ Finset.range graph.length, (graph.getD v []).length =
        (graph.map List.length).sum := by
  intro graph
  induction graph with
  | nil => simp
  | cons r t ih =>
    rw [List.length_cons, Finset.sum_range_succ']
    simp only [List.map_cons, List.sum_cons]
    have h1 : ∀ i, ((r :: t).getD (i + 1) []).length = (t.getD i []).length :=
      fun i => rfl
    have h2 : ((r :: t).getD 0 []).length = r.length := rfl
    rw [h2]
    calc (∑ i ∈ Finset.range t.length, ((r :: t).getD (i + 1) []).length)
        + r.length
        = (∑ i ∈ Finset.range t.length, (t.getD i []).length) + r.length := by
          rw [Finset.sum_congr rfl fun i _ => h1 i]
      _ = r.length + (t.map List.length).sum := by rw [ih]; omega

theorem primBudget_le (graph : List (List (ℤ × ℕ))) (visited : List Bool) :
    primBudget graph visited ≤ (graph.map List.length).sum := by
  rw [← sum_rowLengths graph]
  unfold primBudget
  apply Finset.sum_le_sum
  intro v _
  split <;> omega

/-- Loop invariant for `prim`'s heap loop. -/
structure PrInv (n : ℕ) (graph : List (List (ℤ × ℕ))) (visited : List Bool)
    (heap : List (ℤ × ℕ × ℕ)) (mst : List (ℕ × ℕ × ℤ)) : Prop where
  vlen : visited.length = n
  v0 : visited.getD 0 false = true
  vconn : ∀ v, visited.getD v false = true → AReach graph 0 v
  mstmem : ∀ e ∈ mst, (e.2.2, e.2.1) ∈ graph.getD e.1 []
  mstvis : ∀ e ∈ mst, visited.getD e.1 false = true ∧
    visited.getD e.2.1 false = true
  mstconn : ∀ v, visited.getD v false = true → UReach mst 0 v
  forest : IsForest mst
  count : mst.length + 1 =
    (List.range n).countP fun v => visited.getD v false
  heapvalid : ∀ h ∈ heap, visited.getD h.2.2 false = true ∧
    (h.1, h.2.1) ∈ graph.getD h.2.2 []
  covered : ∀ u, visited.getD u false = true →
    ∀ p ∈ graph.getD u [], visited.getD p.2 false = true ∨
      (p.1, p.2, u) ∈ heap

/-- On a graph whose start component misses some vertex `y < n`, the heap
loop of `prim` runs to heap exhaustion (never hitting the `n - 1` break)
and preserves the invariant. -/
theorem primLoop_spec (n : ℕ) (graph : List (List (ℤ × ℕ)))
    (HG1 : graph.length = n) (HG2 : ∀ u, ∀ p ∈ graph.getD u [], p.2 < n)
    {y : ℕ} (hyn : y < n) (hyun : ¬AReach graph 0 y) :
    ∀ (fuel : ℕ) (visited : List Bool) (heap : List (ℤ × ℕ × ℕ))
      (mst : List (ℕ × ℕ × ℤ)),
      PrInv n graph visited heap mst →
      heap.length + primBudget graph visited < fuel →
      ∃ mst2 visited2,
        primLoop n graph fuel visited heap mst = some (mst2, visited2) ∧
          PrInv n graph visited2 [] mst2 := by
  intro fuel
  induction fuel with
  | zero =>
    intro visited heap mst hinv hmeas
    omega
  | succ fuel ih =>
    intro visited heap mst hinv hmeas
    rcases heap with - | ⟨⟨w, node, parent⟩, rest⟩
    · exact ⟨mst, visited, rfl, hinv⟩
    obtain ⟨hvlen, hv0, hvconn, hmstmem, hmstvis, hmstconn, hforest, hcount,
      hheapvalid, hcovered⟩ := hinv
    by_cases hvisnode : visited.getD node false = true
    · -- stale entry: pop and continue
      have hres : primLoop n graph (fuel + 1) visited
          ((w, node, parent) :: rest) mst =
          primLoop n graph fuel visited rest mst := by
        simp only [primLoop]
        rw [if_pos hvisnode]
      rw [hres]
      refine ih visited rest mst
        ⟨hvlen, hv0, hvconn, hmstmem, hmstvis, hmstconn, hforest, hcount,
          ?_, ?_⟩
        (by rw [List.length_cons] at hmeas; omega)
      · intro h hh
        exact hheapvalid h (List.mem_cons_of_mem _ hh)
      · intro u hu p hp
        rcases hcovered u hu p hp with h | h
        · exact Or.inl h
        · rcases List.mem_cons.mp h with heq | hmem
          · have hp2 : p.2 = node := by
              have := congrArg (fun z : ℤ × ℕ × ℕ => z.2.1) heq
              simpa using this
            rw [hp2]
            exact Or.inl hvisnode
          · exact Or.inr hmem
    · -- fresh vertex: record the edge, mark it, push its neighbours
      rw [Bool.not_eq_true] at hvisnode
      obtain ⟨hparvis, hedge⟩ :=
        hheapvalid (w, node, parent) (List.mem_cons_self _ _)
      have hnoden : node < n := HG2 parent (w, node) hedge
      have hneq : parent ≠ node := by
        intro h
        rw [h, hvisnode] at hparvis
        exact absurd hparvis (by simp)
      have hnotreach : ¬UReach mst parent node := by
        intro hr
        rcases UReach_endpoint hr with heq | ⟨-, f, hf, hfe⟩
        · exact hneq heq
        · obtain ⟨h1, h2⟩ := hmstvis f hf
          rcases hfe with h3 | h3
          · rw [h3, hvisnode] at h1
            exact absurd h1 (by simp)
          · rw [h3, hvisnode] at h2
            exact absurd h2 (by simp)
      have hcount2 := countP_set_true hnoden hvlen hvisnode
      have hyunvis : visited.getD y false = false := by
        by_contra hyv
        rw [Bool.not_eq_false] at hyv
        exact hyun (hvconn y hyv)
      have hnodeAR : AReach graph 0 node :=
        Relation.ReflTransGen.tail (hvconn parent hparvis) ⟨w, hedge⟩
      have hyneqnode : y ≠ node := by
        intro h
        subst h
        exact hyun hnodeAR
      have hcountlt : (List.range n).countP
          (fun v => (visited.set node true).getD v false) < n := by
        have h1 : (visited.set node true).getD y false = false := by
          rw [getD_set_ne visited true false fun h => hyneqnode h.symm]
          exact hyunvis
        have h2 := countP_lt_length
          (fun v => (visited.set node true).getD v false)
          (List.mem_range.mpr hyn) h1
        rw [List.length_range] at h2
        exact h2
      have hbreak : ¬((mst ++ [(parent, node, w)]).length = n - 1) := by
        rw [List.length_append, List.length_singleton]
        omega
      have hres : primLoop n graph (fuel + 1) visited
          ((w, node, parent) :: rest) mst =
          primLoop n graph fuel (visited.set node true)
            ((graph.getD node []).foldl
              (fun hp p => if (visited.set node true).getD p.2 false then hp
                else primPush hp (p.1, p.2, node)) rest)
            (mst ++ [(parent, node, w)]) := by
        simp only [primLoop]
        rw [if_neg (by rw [hvisnode]; simp)]
        rw [if_neg hbreak]
      rw [hres]
      have hnodelen : node < visited.length := by omega
      refine ih _ _ _ ⟨?_, ?_, ?_, ?_, ?_, ?_, ?_, ?_, ?_, ?_⟩ ?_
      · rw [List.length_set]
        exact hvlen
      · exact getD_set_true_mono hv0
      · intro v hv
        by_cases hvn : v = node
        · subst hvn
          exact hnodeAR
        · rw [getD_set_ne visited true false fun h => hvn h.symm] at hv
          exact hvconn v hv
      · intro e he
        rcases List.mem_append.mp he with h | h
        · exact hmstmem e h
        · rw [List.mem_singleton.mp h]
          exact hedge
      · intro e he
        rcases List.mem_append.mp he with h | h
        · obtain ⟨h1, h2⟩ := hmstvis e h
          exact ⟨getD_set_true_mono h1, getD_set_true_mono h2⟩
        · rw [List.mem_singleton.mp h]
          exact ⟨getD_set_true_mono hparvis,
            getD_set_self visited true false hnodelen⟩
      · intro v hv
        by_cases hvn : v = node
        · rw [hvn]
          have h1 : UReach (mst ++ [(parent, node, w)]) 0 parent :=
            UReach_mono (fun f hf => List.mem_append_left _ hf)
              (hmstconn parent hparvis)
          refine h1.trans ?_
          exact UReach_single
            (List.mem_append_right _ (List.mem_singleton.mpr rfl))
        · rw [getD_set_ne visited true false fun h => hvn h.symm] at hv
          exact UReach_mono (fun f hf => List.mem_append_left _ hf)
            (hmstconn v hv)
      · exact IsForest_append hforest hnotreach
      · rw [List.length_append, List.length_singleton, hcount2]
        omega
      · intro h hh
        rw [primPushFold_mem] at hh
        rcases hh with h1 | ⟨p, hp, h2, h3⟩
        · obtain ⟨ha, hb⟩ := hheapvalid h (List.mem_cons_of_mem _ h1)
          exact ⟨getD_set_true_mono ha, hb⟩
        · rw [h3]
          exact ⟨getD_set_self visited true false hnodelen, hp⟩
      · intro u hu p hp
        by_cases hun : u = node
        · rw [hun] at hp ⊢
          by_cases hpv : (visited.set node true).getD p.2 false = true
          · exact Or.inl hpv
          · rw [Bool.not_eq_true] at hpv
            right
            rw [primPushFold_mem]
            exact Or.inr ⟨p, hp, hpv, rfl⟩
        · rw [getD_set_ne visited true false fun h => hun h.symm] at hu
          rcases hcovered u hu p hp with h | h
          · exact Or.inl (getD_set_true_mono h)
          · rcases List.mem_cons.mp h with heq | hmem
            · have hp2 : p.2 = node := by
                have := congrArg (fun z : ℤ × ℕ × ℕ => z.2.1) heq
                simpa using this
              rw [hp2]
              exact Or.inl (getD_set_self visited true false hnodelen)
            · right
              rw [primPushFold_mem]
              exact Or.inl hmem
      · -- the measure decreases
        have hlen2 := primPushFold_len (visited.set node true) node
          (graph.getD node []) rest
        have hflip := primBudget_flip (show node < graph.length by omega)
          hnodelen hvisnode
        rw [List.length_cons] at hmeas
        omega

/-- On a graph whose start component misses a vertex `y < n`, `prim`
returns an acyclic set of adjacency edges that spans exactly the component
of the start vertex `0`, with strictly fewer than `n - 1` edges. -/
theorem prim_spec (n : ℕ) (graph : List (List (ℤ × ℕ)))
    (HG1 : graph.length = n) (HG2 : ∀ u, ∀ p ∈ graph.getD u [], p.2 < n)
    (HG3 : ∀ u x w, (w, x) ∈ graph.getD u [] → (w, u) ∈ graph.getD x [])
    {y : ℕ} (hyn : y < n) (hyun : ¬AReach graph 0 y) :
    (∀ e ∈ prim n graph, (e.2.2, e.2.1) ∈ graph.getD e.1 []) ∧
      IsForest (prim n graph) ∧
      (∀ v, (AReach graph 0 v ↔ UReach (prim n graph) 0 v)) ∧
      (prim n graph).length < n - 1 := by
  have hn0 : 0 < n := by omega
  set visited0 := (List.replicate n false).set 0 true with hv0def
  set heap0 := (graph.getD 0 []).foldl
    (fun h p => primPush h (p.1, p.2, 0)) [] with hh0def
  have hgd0 : visited0.getD 0 false = true := by
    rw [hv0def]
    exact getD_set_self _ true false
      (by rw [List.length_replicate]; exact hn0)
  have hgdother : ∀ v, v ≠ 0 → visited0.getD v false = false := by
    intro v hv
    rw [hv0def, getD_set_ne _ true false fun h => hv h.symm]
    exact getD_replicate n v false
  have hinv0 : PrInv n graph visited0 heap0 [] := by
    refine ⟨?_, hgd0, ?_, ?_, ?_, ?_, ?_, ?_, ?_, ?_⟩
    · rw [hv0def, List.length_set, List.length_replicate]
    · intro v hv
      by_cases h : v = 0
      · rw [h]
        exact Relation.ReflTransGen.refl
      · rw [hgdother v h] at hv
        exact absurd hv (by simp)
    · intro e he
      exact absurd he (List.not_mem_nil e)
    · intro e he
      exact absurd he (List.not_mem_nil e)
    · intro v hv
      by_cases h : v = 0
      · rw [h]
        exact Relation.ReflTransGen.refl
      · rw [hgdother v h] at hv
        exact absurd hv (by simp)
    · intro i hi
      exact absurd hi (by simp)
    · rw [List.length_nil]
      have h1 : (List.range n).countP (fun v => visited0.getD v false) = 1 := by
        apply countP_eq_one_of_mem _ (List.mem_range.mpr hn0)
          (List.nodup_range n) hgd0
        intro a _ hpa
        by_contra h
        rw [hgdother a h] at hpa
        exact absurd hpa (by simp)
      rw [h1]
    · intro h hh
      rw [hh0def, primPushFold0_mem] at hh
      rcases hh with h1 | ⟨p, hp, h2⟩
      · exact absurd h1 (List.not_mem_nil _)
      · rw [h2]
        exact ⟨hgd0, hp⟩
    · intro u hu p hp
      have hu0 : u = 0 := by
        by_contra h
        rw [hgdother u h] at hu
        exact absurd hu (by simp)
      right
      rw [hh0def, primPushFold0_mem]
      rw [hu0] at hp ⊢
      exact Or.inr ⟨p, hp, rfl⟩
  have hmeas : heap0.length + primBudget graph visited0 <
      primFuel graph heap0 := by
    unfold primFuel
    have := primBudget_le graph visited0
    omega
  obtain ⟨mst2, visited2, hrun, hfin⟩ := primLoop_spec n graph HG1 HG2 hyn
    hyun (primFuel graph heap0) visited0 heap0 [] hinv0 hmeas
  have hprim : prim n graph =
      ((primLoop n graph (primFuel graph heap0) visited0 heap0 []).getD
        ([], [])).1 := by
    rw [hv0def, hh0def]
    rfl
  rw [hprim, hrun, Option.getD_some]
  obtain ⟨-, hv02, hvconn2, hmstmem2, hmstvis2, hmstconn2, hforest2,
    hcount2, -, hcovered2⟩ := hfin
  refine ⟨hmstmem2, hforest2, ?_, ?_⟩
  · intro v
    constructor
    · intro h
      have hvis : ∀ a b, AReach graph a b →
          visited2.getD a false = true → visited2.getD b false = true := by
        intro a b hab
        induction hab with
        | refl => exact fun hq => hq
        | tail h1 h2 ih =>
          intro ha
          obtain ⟨w2, hw2⟩ := h2
          rcases hcovered2 _ (ih ha) (w2, _) hw2 with hc | hc
          · exact hc
          · exact absurd hc (List.not_mem_nil _)
      exact hmstconn2 v (hvis 0 v h hv02)
    · intro h
      exact UReach_to_AReach hmstmem2 HG3 h
  · have hyunvis2 : visited2.getD y false = false := by
      by_contra hyv
      rw [Bool.not_eq_false] at hyv
      exact hyun (hvconn2 y hyv)
    have hlt := countP_lt_length (fun v => visited2.getD v false)
      (List.mem_range.mpr hyn) hyunvis2
    rw [List.length_range] at hlt
    show mst2.length < n - 1
    omega

/-! ### Characterisation of `to_adj` (for C9) -/

theorem foldmax_ge :
    ∀ (l : List (ℕ × ℕ × ℤ)) (a : ℕ),
      a ≤ l.foldl (fun m e => max m (max e.1 e.2.1)) a ∧
        ∀ e ∈ l, max e.1 e.2.1 ≤ l.foldl (fun m e => max m (max e.1 e.2.1)) a := by
  intro l
  induction l with
  | nil =>
    intro a
    exact ⟨le_rfl, fun e he => absurd he (List.not_mem_nil e)⟩
  | cons e t ih =>
    intro a
    rw [List.foldl_cons]
    obtain ⟨h1, h2⟩ := ih (max a (max e.1 e.2.1))
    refine ⟨le_trans (le_max_left _ _) h1, ?_⟩
    intro f hf
    rcases List.mem_cons.mp hf with rfl | hft
    · exact le_trans (le_max_right _ _) h1
    · exact h2 f hft

theorem adjRow_set (g : List (List (ℤ × ℕ))) (i : ℕ) (a : ℤ × ℕ) (u : ℕ)
    (hi : i < g.length) :
    (g.set i (g.getD i [] ++ [a])).getD u [] =
      if i = u then g.getD u [] ++ [a] else g.getD u [] := by
  by_cases h : i = u
  · subst h
    rw [if_pos rfl]
    exact getD_set_self g _ [] hi
  · rw [if_neg h]
    exact getD_set_ne g _ [] h

theorem to_adj_step_mem (init : List (List (ℤ × ℕ))) (e : ℕ × ℕ × ℤ)
    (h1 : e.1 < init.length) (h2 : e.2.1 < init.length) (u : ℕ) (w : ℤ)
    (x : ℕ) :
    ((w, x) ∈ ((init.set e.1 (init.getD e.1 [] ++ [(e.2.2, e.2.1)])).set e.2.1
        ((init.set e.1 (init.getD e.1 [] ++ [(e.2.2, e.2.1)])).getD e.2.1 []
          ++ [(e.2.2, e.1)])).getD u [] ↔
      (w, x) ∈ init.getD u [] ∨ (e.1 = u ∧ e.2.2 = w ∧ e.2.1 = x) ∨
        (e.2.1 = u ∧ e.2.2 = w ∧ e.1 = x)) := by
  rw [adjRow_set _ e.2.1 (e.2.2, e.1) u (by rw [List.length_set]; exact h2),
    adjRow_set init e.1 (e.2.2, e.2.1) u h1]
  by_cases hc1 : e.1 = u
  · by_cases hc2 : e.2.1 = u
    · rw [if_pos hc2, if_pos hc1]
      simp only [List.mem_append, List.mem_singleton, Prod.mk.injEq]
      constructor
      · rintro ((h | ⟨ha, hb⟩) | ⟨ha, hb⟩)
        · exact Or.inl h
        · exact Or.inr (Or.inl ⟨hc1, ha.symm, hb.symm⟩)
        · exact Or.inr (Or.inr ⟨hc2, ha.symm, hb.symm⟩)
      · rintro (h | ⟨-, ha, hb⟩ | ⟨-, ha, hb⟩)
        · exact Or.inl (Or.inl h)
        · exact Or.inl (Or.inr ⟨ha.symm, hb.symm⟩)
        · exact Or.inr ⟨ha.symm, hb.symm⟩
    · rw [if_neg hc2, if_pos hc1]
      simp only [List.mem_append, List.mem_singleton, Prod.mk.injEq]
      constructor
      · rintro (h | ⟨ha, hb⟩)
        · exact Or.inl h
        · exact Or.inr (Or.inl ⟨hc1, ha.symm, hb.symm⟩)
      · rintro (h | ⟨-, ha, hb⟩ | ⟨hu, -, -⟩)
        · exact Or.inl h
        · exact Or.inr ⟨ha.symm, hb.symm⟩
        · exact absurd hu hc2
  · by_cases hc2 : e.2.1 = u
    · rw [if_pos hc2, if_neg hc1]
      simp only [List.mem_append, List.mem_singleton, Prod.mk.injEq]
      constructor
      · rintro (h | ⟨ha, hb⟩)
        · exact Or.inl h
        · exact Or.inr (Or.inr ⟨hc2, ha.symm, hb.symm⟩)
      · rintro (h | ⟨hu, -, -⟩ | ⟨-, ha, hb⟩)
        · exact Or.inl h
        · exact absurd hu hc1
        · exact Or.inr ⟨ha.symm, hb.symm⟩
    · rw [if_neg hc2, if_neg hc1]
      constructor
      · intro h
        exact Or.inl h
      · rintro (h | ⟨hu, -, -⟩ | ⟨hu, -, -⟩)
        · exact h
        · exact absurd hu hc1
        · exact absurd hu hc2

theorem to_adj_fold_len (l : List (ℕ × ℕ × ℤ))
    (init : List (List (ℤ × ℕ))) :
    (l.foldl (fun g e =>
        let g2 := g.set e.1 (g.getD e.1 [] ++ [(e.2.2, e.2.1)])
        g2.set e.2.1 (g2.getD e.2.1 [] ++ [(e.2.2, e.1)])) init).length =
      init.length := by
  refine foldl_preserve
    (P := fun g : List (List (ℤ × ℕ)) => g.length = init.length) _ l init rfl
    ?_
  intro b a _ hb
  show (List.set _ _ _).length = init.length
  rw [List.length_set, List.length_set]
  exact hb

theorem to_adj_fold_mem :
    ∀ (l : List (ℕ × ℕ × ℤ)) (init : List (List (ℤ × ℕ))),
      (∀ e ∈ l, e.1 < init.length ∧ e.2.1 < init.length) →
      ∀ u w x,
        ((w, x) ∈ (l.foldl (fun g e =>
            let g2 := g.set e.1 (g.getD e.1 [] ++ [(e.2.2, e.2.1)])
            g2.set e.2.1 (g2.getD e.2.1 [] ++ [(e.2.2, e.1)])) init).getD u []
          ↔ (w, x) ∈ init.getD u [] ∨
            ∃ e ∈ l, (e.1 = u ∧ e.2.2 = w ∧ e.2.1 = x) ∨
              (e.2.1 = u ∧ e.2.2 = w ∧ e.1 = x)) := by
  intro l
  induction l with
  | nil =>
    intro init hval u w x
    simp
  | cons e t ih =>
    intro init hval u w x
    rw [List.foldl_cons]
    have he1 := (hval e (List.mem_cons_self e t)).1
    have he2 := (hval e (List.mem_cons_self e t)).2
    have ihmem := ih
      ((init.set e.1 (init.getD e.1 [] ++ [(e.2.2, e.2.1)])).set e.2.1
        ((init.set e.1 (init.getD e.1 [] ++ [(e.2.2, e.2.1)])).getD e.2.1 []
          ++ [(e.2.2, e.1)]))
      (by
        intro f hf
        rw [List.length_set, List.length_set]
        exact hval f (List.mem_cons_of_mem e hf))
      u w x
    refine (ihmem.trans ?_)
    rw [to_adj_step_mem init e he1 he2 u w x]
    constructor
    · rintro ((h | h) | ⟨f, hf, hd⟩)
      · exact Or.inl h
      · exact Or.inr ⟨e, List.mem_cons_self e t, h⟩
      · exact Or.inr ⟨f, List.mem_cons_of_mem e hf, hd⟩
    · rintro (h | ⟨f, hf, hd⟩)
      · exact Or.inl (Or.inl h)
      · rcases List.mem_cons.mp hf with rfl | hft
        · exact Or.inl (Or.inr hd)
        · exact Or.inr ⟨f, hft, hd⟩

/-- Full characterisation of `to_adj`: row `u` holds `(w, x)` exactly when
the input lists the edge `(u, x, w)` or `(x, u, w)`, and every endpoint is
below the computed vertex count. -/
theorem to_adj_spec {edges : List (ℕ × ℕ × ℤ)}
    {graph : List (List (ℤ × ℕ))} (hadj : to_adj edges = some graph) :
    (∀ e ∈ edges, e.1 < graph.length ∧ e.2.1 < graph.length) ∧
      ∀ u w x, ((w, x) ∈ graph.getD u [] ↔
        (u, x, w) ∈ edges ∨ (x, u, w) ∈ edges) := by
  have hne : ¬edges.isEmpty = true := by
    intro h
    unfold to_adj at hadj
    rw [if_pos h] at hadj
    exact absurd hadj (by simp)
  have hgraph : graph = edges.foldl (fun g e =>
      let g2 := g.set e.1 (g.getD e.1 [] ++ [(e.2.2, e.2.1)])
      g2.set e.2.1 (g2.getD e.2.1 [] ++ [(e.2.2, e.1)]))
      (List.replicate
        (1 + edges.foldl (fun m e => max m (max e.1 e.2.1)) 0) []) := by
    unfold to_adj at hadj
    rw [if_neg hne] at hadj
    exact (Option.some.inj hadj).symm
  have hlen : graph.length =
      1 + edges.foldl (fun m e => max m (max e.1 e.2.1)) 0 := by
    rw [hgraph, to_adj_fold_len, List.length_replicate]
  have hbound : ∀ e ∈ edges, e.1 < graph.length ∧ e.2.1 < graph.length := by
    intro e he
    have := (foldmax_ge edges 0).2 e he
    rw [hlen]
    constructor
    · have h1 : e.1 ≤ max e.1 e.2.1 := le_max_left _ _
      omega
    · have h1 : e.2.1 ≤ max e.1 e.2.1 := le_max_right _ _
      omega
  refine ⟨hbound, ?_⟩
  intro u w x
  rw [hgraph, to_adj_fold_mem edges _
    (by
      intro f hf
      rw [List.length_replicate, ← hlen]
      exact hbound f hf) u w x]
  rw [getD_replicate]
  simp only [List.not_mem_nil, false_or]
  constructor
  · rintro ⟨e, he, ⟨h1, h2, h3⟩ | ⟨h1, h2, h3⟩⟩
    · left
      rw [← h1, ← h2, ← h3]
      exact he
    · right
      rw [← h1, ← h2, ← h3]
      exact he
  · rintro (h | h)
    · exact ⟨(u, x, w), h, Or.inl ⟨rfl, rfl, rfl⟩⟩
    · exact ⟨(x, u, w), h, Or.inr ⟨rfl, rfl, rfl⟩⟩

theorem AReach_iff_UReach {edges : List (ℕ × ℕ × ℤ)}
    {graph : List (List (ℤ × ℕ))}
    (hchar : ∀ u w x, ((w, x) ∈ graph.getD u [] ↔
      (u, x, w) ∈ edges ∨ (x, u, w) ∈ edges)) (a b : ℕ) :
    AReach graph a b ↔ UReach edges a b := by
  constructor
  · refine Relation.ReflTransGen.mono ?_
    rintro x y ⟨w, hw⟩
    rcases (hchar x w y).mp hw with h | h
    · exact ⟨(x, y, w), h, Or.inl ⟨rfl, rfl⟩⟩
    · exact ⟨(y, x, w), h, Or.inr ⟨rfl, rfl⟩⟩
  · refine Relation.ReflTransGen.mono ?_
    rintro x y ⟨e, he, hcase⟩
    rcases hcase with ⟨h1, h2⟩ | ⟨h1, h2⟩
    · refine ⟨e.2.2, (hchar x e.2.2 y).mpr (Or.inl ?_)⟩
      rw [← h1, ← h2]
      exact he
    · refine ⟨e.2.2, (hchar x e.2.2 y).mpr (Or.inr ?_)⟩
      rw [← h1, ← h2]
      exact he

/-- **C9 (amended).** On a disconnected undirected input (edge list `edges`
together with its `to_adj` adjacency structure, `n` vertices), neither MST
routine treats the disconnection as an error, but only `kruskal` returns a
spanning forest of every connected component: its result is drawn from the
input edges, acyclic, connects exactly the vertex pairs the input connects,
and has fewer than `n - 1` edges; `prim` instead returns an acyclic set of
input edges that spans exactly the connected component of its fixed start
vertex `0` (components not containing `0` are untouched), also with fewer
than `n - 1` edges. -/
theorem c9_spanning_forest (edges : List (ℕ × ℕ × ℤ))
    (graph : List (List (ℤ × ℕ))) (n : ℕ)
    (hadj : to_adj edges = some graph) (hn : n = graph.length)
    (hdisc : ∃ x < n, ∃ y < n, ¬UReach edges x y) :
    ((∀ e ∈ (kruskal n edges).1, e ∈ edges) ∧
      IsForest (kruskal n edges).1 ∧
      (∀ x < n, ∀ y < n,
        (UReach edges x y ↔ UReach (kruskal n edges).1 x y)) ∧
      (kruskal n edges).1.length < n - 1) ∧
    ((∀ e ∈ prim n graph,
        (e.1, e.2.1, e.2.2) ∈ edges ∨ (e.2.1, e.1, e.2.2) ∈ edges) ∧
      IsForest (prim n graph) ∧
      (∀ v, (UReach edges 0 v ↔ UReach (prim n graph) 0 v)) ∧
      (prim n graph).length < n - 1) := by
  obtain ⟨hbound, hchar⟩ := to_adj_spec hadj
  have hval : ∀ e ∈ edges, e.1 < n ∧ e.2.1 < n := by
    intro e he
    rw [hn]
    exact hbound e he
  obtain ⟨x0, hx0, y0, hy0, hnxy⟩ := hdisc
  have hku := kruskal_spec n edges hval
  refine ⟨⟨hku.1, hku.2.1, hku.2.2.1,
    hku.2.2.2 ⟨x0, hx0, y0, hy0, hnxy⟩⟩, ?_⟩
  have hAU := AReach_iff_UReach hchar
  have HG2 : ∀ u, ∀ p ∈ graph.getD u [], p.2 < n := by
    intro u p hp
    rcases (hchar u p.1 p.2).mp hp with h | h
    · exact (hval _ h).2
    · exact (hval _ h).1
  have HG3 : ∀ u x w, (w, x) ∈ graph.getD u [] → (w, u) ∈ graph.getD x [] := by
    intro u x w hw
    rcases (hchar u w x).mp hw with h | h
    · exact (hchar x w u).mpr (Or.inr h)
    · exact (hchar x w u).mpr (Or.inl h)
  have hdisc2 : ∃ z, z < n ∧ ¬AReach graph 0 z := by
    by_cases h0x : AReach graph 0 x0
    · refine ⟨y0, hy0, ?_⟩
      intro h0y
      exact hnxy ((UReach_symm ((hAU 0 x0).mp h0x)).trans ((hAU 0 y0).mp h0y))
    · exact ⟨x0, hx0, h0x⟩
  obtain ⟨z, hz, hzun⟩ := hdisc2
  have hpr := prim_spec n graph hn.symm HG2 HG3 hz hzun
  refine ⟨?_, hpr.2.1, ?_, hpr.2.2.2⟩
  · intro e he
    exact (hchar e.1 e.2.2 e.2.1).mp (hpr.1 e he)
  · intro v
    rw [← hAU 0 v]
    exact hpr.2.2.1 v

/-- Witness for the amended **C9**: the disconnected two-edge graph
`0 —1— 1`, `2 —1— 3` (with its `to_adj` adjacency structure and `n = 4`);
`kruskal` spans both components while `prim` spans only the component of
`0`, both without error and with fewer than `3` edges. -/
theorem c9_witness :
    ((∀ e ∈ (kruskal 4 [(0, 1, 1), (2, 3, 1)]).1,
        e ∈ [(0, 1, 1), (2, 3, 1)]) ∧
      IsForest (kruskal 4 [(0, 1, 1), (2, 3, 1)]).1 ∧
      (∀ x < 4, ∀ y < 4,
        (UReach [(0, 1, 1), (2, 3, 1)] x y ↔
          UReach (kruskal 4 [(0, 1, 1), (2, 3, 1)]).1 x y)) ∧
      (kruskal 4 [(0, 1, 1), (2, 3, 1)]).1.length < 4 - 1) ∧
    ((∀ e ∈ prim 4 [[(1, 1)], [(1, 0)], [(1, 3)], [(1, 2)]],
        (e.1, e.2.1, e.2.2) ∈ [(0, 1, 1), (2, 3, 1)] ∨
          (e.2.1, e.1, e.2.2) ∈ [(0, 1, 1), (2, 3, 1)]) ∧
      IsForest (prim 4 [[(1, 1)], [(1, 0)], [(1, 3)], [(1, 2)]]) ∧
      (∀ v, (UReach [(0, 1, 1), (2, 3, 1)] 0 v ↔
        UReach (prim 4 [[(1, 1)], [(1, 0)], [(1, 3)], [(1, 2)]]) 0 v)) ∧
      (prim 4 [[(1, 1)], [(1, 0)], [(1, 3)], [(1, 2)]]).length < 4 - 1) :=
  c9_spanning_forest [(0, 1, 1), (2, 3, 1)]
    [[(1, 1)], [(1, 0)], [(1, 3)], [(1, 2)]] 4 (by decide) (by decide)
    ⟨0, by decide, 2, by decide, fun h => absurd
      (UReach_closed [(0, 1, 1), (2, 3, 1)] (fun v => v < 2) (by decide) h
        (by decide))
      (by decide)⟩

/-! ## Kosaraju's strongly connected components, from
`kosaraju_strongly_connected_components.py` (C7)

A `Kosaraju` instance is its vertex count `V` and adjacency list `graph`
(`add_edge` appends).  The recursive depth-first searches receive fuel that
only bounds the recursion depth; `kosFuel` is provably enough. -/

/-- Directed reachability along an adjacency list. -/
def Reach (g : List (List ℕ)) (a b : ℕ) : Prop :=
  Relation.ReflTransGen (fun x y => y ∈ g.getD x []) a b

mutual
/-- `Kosaraju._dfs_fill_order`: mark the node, recurse into unvisited
neighbours, then append the node to the stack (finish order). -/
def dfs_fill_order (g : List (List ℕ)) :
    ℕ → ℕ → List Bool → List ℕ → Option (List Bool × List ℕ)
  | 0, _, _, _ => none
  | fuel + 1, node, visited, stack =>
    match dfs_fill_list g fuel (g.getD node []) (visited.set node true)
        stack with
    | none => none
    | some (v2, s2) => some (v2, s2 ++ [node])

/-- The `for neighbor in self.graph[node]` loop of `_dfs_fill_order`. -/
def dfs_fill_list (g : List (List ℕ)) :
    ℕ → List ℕ → List Bool → List ℕ → Option (List Bool × List ℕ)
  | 0, _, _, _ => none
  | _ + 1, [], visited, stack => some (visited, stack)
  | fuel + 1, neighbor :: rest, visited, stack =>
    if visited.getD neighbor false then
      dfs_fill_list g fuel rest visited stack
    else
      match dfs_fill_order g fuel neighbor visited stack with
      | none => none
      | some (v2, s2) => dfs_fill_list g fuel rest v2 s2
end

/-- `Kosaraju._get_transpose`: a fresh instance with every edge reversed
(`add_edge(neighbor, node)` appends). -/
def get_transpose (V : ℕ) (g : List (List ℕ)) : List (List ℕ) :=
  (List.range V).foldl
    (fun rg node =>
      (g.getD node []).foldl
        (fun rg neighbor => rg.set neighbor (rg.getD neighbor [] ++ [node]))
        rg)
    (List.replicate V [])

mutual
/-- `Kosaraju._dfs_collect_scc`: mark the node, append it to the component,
recurse into unvisited neighbours. -/
def dfs_collect_scc (rg : List (List ℕ)) :
    ℕ → ℕ → List Bool → List ℕ → Option (List Bool × List ℕ)
  | 0, _, _, _ => none
  | fuel + 1, node, visited, component =>
    dfs_collect_list rg fuel (rg.getD node []) (visited.set node true)
      (component ++ [node])

/-- The `for neighbor in self.graph[node]` loop of `_dfs_collect_scc`. -/
def dfs_collect_list (rg : List (List ℕ)) :
    ℕ → List ℕ → List Bool → List ℕ → Option (List Bool × List ℕ)
  | 0, _, _, _ => none
  | _ + 1, [], visited, component => some (visited, component)
  | fuel + 1, neighbor :: rest, visited, component =>
    if visited.getD neighbor false then
      dfs_collect_list rg fuel rest visited component
    else
      match dfs_collect_scc rg fuel neighbor visited component with
      | none => none
      | some (v2, c2) => dfs_collect_list rg fuel rest v2 c2
end

/-- The `while stack: node = stack.pop()` loop of `find_sccs`: popping from
the top of the stack traverses the reversed stack from its head. -/
def sccLoop (rg : List (List ℕ)) (fuel : ℕ) :
    List ℕ → List Bool → List (List ℕ) → Option (List (List ℕ))
  | [], _, acc => some acc
  | node :: rest, visited, acc =>
    if visited.getD node false then sccLoop rg fuel rest visited acc
    else
      match dfs_collect_scc rg fuel node visited [] with
      | none => none
      | some (v2, comp) => sccLoop rg fuel rest v2 (acc ++ [comp])

/-- Fuel that provably suffices for the recursive searches: one level per
vertex plus one per adjacency entry. -/
def kosFuel (V : ℕ) (g : List (List ℕ)) : ℕ :=
  V + (g.map List.length).sum + 1

/-- `Kosaraju.find_sccs`: fill the stack by DFS over all vertices, build
the transpose, then collect components in stack-pop order. -/
def find_sccs (V : ℕ) (g : List (List ℕ)) : Option (List (List ℕ)) :=
  let fuel := kosFuel V g
  match (List.range V).foldl
      (fun st i =>
        match st with
        | none => none
        | some (visited, stack) =>
          if visited.getD i false then some (visited, stack)
          else dfs_fill_order g fuel i visited stack)
      (some (List.replicate V false, [])) with
  | none => none
  | some (_, stack) =>
    sccLoop (get_transpose V g) fuel stack.reverse
      (List.replicate V false) []

/-- Generic row-append/set reading lemma. -/
theorem rowSet_getD {α : Type} (g : List (List α)) (i : ℕ) (a : α) (u : ℕ)
    (hi : i < g.length) :
    (g.set i (g.getD i [] ++ [a])).getD u [] =
      if i = u then g.getD u [] ++ [a] else g.getD u [] := by
  by_cases h : i = u
  · subst h
    rw [if_pos rfl]
    exact getD_set_self g _ [] hi
  · rw [if_neg h]
    exact getD_set_ne g _ [] h

/-- A true entry of a boolean array lies within its length. -/
theorem getD_true_lt {visited : List Bool} {x : ℕ}
    (h : visited.getD x false = true) : x < visited.length := by
  by_contra hx
  rw [List.getD_eq_default _ _ (by omega)] at h
  exact absurd h (by simp)

/-- Decomposing a snoc as `p ++ r :: s`. -/
theorem snoc_decomp {α : Type} (l p s : List α) (r a : α)
    (h : l ++ [a] = p ++ r :: s) :
    (s = [] ∧ p = l ∧ r = a) ∨ ∃ s2, s = s2 ++ [a] ∧ l = p ++ r :: s2 := by
  rcases List.eq_nil_or_concat s with rfl | ⟨s2, c, rfl⟩
  · left
    have h2 := List.append_inj' h (by rfl)
    refine ⟨rfl, h2.1.symm, ?_⟩
    have := h2.2
    simpa using this.symm
  · right
    rw [List.concat_eq_append] at h
    rw [show p ++ r :: (s2 ++ [c]) = (p ++ r :: s2) ++ [c] by simp] at h
    have h2 := List.append_inj' h (by rfl)
    have hca : a = c := by simpa using h2.2
    exact ⟨s2, by rw [List.concat_eq_append, hca], h2.1⟩

theorem getD_set_true_iff {visited : List Bool} {node x : ℕ}
    (hlen : node < visited.length) :
    ((visited.set node true).getD x false = true ↔
      (visited.getD x false = true ∨ x = node)) := by
  by_cases hx : x = node
  · subst hx
    rw [getD_set_self visited true false hlen]
    simp
  · rw [getD_set_ne visited true false fun h => hx h.symm]
    simp [hx]

/-- Invariant of the finish-order phase: `stack` lists the finished
vertices without duplicates, finished vertices are visited with all their
neighbours visited, and every decomposition `stack = p ++ r :: suffix`
satisfies the key order property: any vertex with a path to `r` running
inside `p ∪ {r}` is reachable from `r`. -/
structure KosInv (V : ℕ) (g : List (List ℕ)) (visited : List Bool)
    (stack : List ℕ) : Prop where
  vlen : visited.length = V
  nodup : stack.Nodup
  fin_vis : ∀ u ∈ stack, visited.getD u false = true
  fin_nbrs : ∀ u ∈ stack, ∀ nb ∈ g.getD u [], visited.getD nb false = true
  main : ∀ p r suffix, stack = p ++ r :: suffix →
    ∀ x, (x ∈ p ∨ x = r) →
      Relation.ReflTransGen
        (fun a b => b ∈ g.getD a [] ∧ (b ∈ p ∨ b = r)) x r →
      Reach g r x

/-- Full specification of the finish-order DFS (and its neighbour loop):
monotone on `visited`, appends exactly the freshly finished vertices (all
fresh, all reachable from the start vertex, and identical to the freshly
visited vertices), and preserves the invariant. -/
theorem dfs_fill_spec (V : ℕ) (g : List (List ℕ))
    (hadj : ∀ u, ∀ v ∈ g.getD u [], v < V) :
    ∀ fuel : ℕ,
      (∀ node visited stack v2 s2,
        KosInv V g visited stack → node < V →
        visited.getD node false = false →
        dfs_fill_order g fuel node visited stack = some (v2, s2) →
        (∀ x, visited.getD x false = true → v2.getD x false = true) ∧
        v2.getD node false = true ∧
        ∃ δ, s2 = stack ++ δ ∧
          (∀ x ∈ δ, visited.getD x false = false ∧ Reach g node x) ∧
          (∀ x, v2.getD x false = true ↔
            (visited.getD x false = true ∨ x ∈ δ)) ∧
          KosInv V g v2 s2) ∧
      (∀ l visited stack v2 s2,
        KosInv V g visited stack → (∀ x ∈ l, x < V) →
        dfs_fill_list g fuel l visited stack = some (v2, s2) →
        (∀ x, visited.getD x false = true → v2.getD x false = true) ∧
        (∀ nb ∈ l, v2.getD nb false = true) ∧
        ∃ δ, s2 = stack ++ δ ∧
          (∀ x ∈ δ, visited.getD x false = false ∧
            ∃ nb ∈ l, Reach g nb x) ∧
          (∀ x, v2.getD x false = true ↔
            (visited.getD x false = true ∨ x ∈ δ)) ∧
          KosInv V g v2 s2) := by
  intro fuel
  induction fuel with
  | zero =>
    constructor
    · intro node visited stack v2 s2 _ _ _ hres
      exact Option.noConfusion hres
    · intro l visited stack v2 s2 _ _ hres
      exact Option.noConfusion hres
  | succ fuel ih =>
    obtain ⟨ihFill, ihList⟩ := ih
    constructor
    · -- dfs_fill_order
      intro node visited stack v2 s2 hKI hnode hfresh hres
      simp only [dfs_fill_order] at hres
      rcases hrl : dfs_fill_list g fuel (g.getD node [])
          (visited.set node true) stack with - | ⟨v2l, s2l⟩
      · rw [hrl] at hres
        exact Option.noConfusion hres
      rw [hrl] at hres
      have hres2 := Option.some.inj hres
      injection hres2 with hA hB
      subst hA
      subst hB
      have hnodelen : node < visited.length := by
        rw [hKI.vlen]
        exact hnode
      have hKI2 : KosInv V g (visited.set node true) stack := by
        refine ⟨?_, hKI.nodup, ?_, ?_, hKI.main⟩
        · rw [List.length_set]
          exact hKI.vlen
        · exact fun u hu => getD_set_true_mono (hKI.fin_vis u hu)
        · exact fun u hu nb hnb =>
            getD_set_true_mono (hKI.fin_nbrs u hu nb hnb)
      obtain ⟨mono_l, post_l, δ2, hs2l, hδ2, hiff_l, hKI_l⟩ :=
        ihList (g.getD node []) (visited.set node true) stack v2l s2l hKI2
          (hadj node) hrl
      have hv2node : v2l.getD node false = true :=
        mono_l node (getD_set_self visited true false hnodelen)
      have hδ2fresh : ∀ x ∈ δ2,
          visited.getD x false = false ∧ x ≠ node := by
        intro x hx
        have h1 := (hδ2 x hx).1
        constructor
        · by_contra h2
          rw [Bool.not_eq_false] at h2
          rw [getD_set_true_mono h2] at h1
          exact absurd h1 (by simp)
        · intro h2
          rw [h2, getD_set_self visited true false hnodelen] at h1
          exact absurd h1 (by simp)
      have hnode_stack : node ∉ stack := by
        intro h
        rw [hKI.fin_vis node h] at hfresh
        exact absurd hfresh (by simp)
      have hnode_δ2 : node ∉ δ2 := fun h => (hδ2fresh node h).2 rfl
      refine ⟨fun x hx => mono_l x (getD_set_true_mono hx), hv2node,
        δ2 ++ [node], by rw [hs2l, List.append_assoc], ?_, ?_, ?_⟩
      · intro x hx
        rcases List.mem_append.mp hx with h | h
        · refine ⟨(hδ2fresh x h).1, ?_⟩
          obtain ⟨-, nb, hnb, hr⟩ := hδ2 x h
          exact Relation.ReflTransGen.head hnb hr
        · rw [List.mem_singleton.mp h]
          exact ⟨hfresh, Relation.ReflTransGen.refl⟩
      · intro x
        rw [hiff_l x, getD_set_true_iff hnodelen, List.mem_append,
          List.mem_singleton]
        constructor
        · rintro ((h | h) | h)
          · exact Or.inl h
          · exact Or.inr (Or.inr h)
          · exact Or.inr (Or.inl h)
        · rintro (h | h | h)
          · exact Or.inl (Or.inl h)
          · exact Or.inr h
          · exact Or.inl (Or.inr h)
      · -- the invariant after appending `node`
        refine ⟨hKI_l.vlen, ?_, ?_, ?_, ?_⟩
        · rw [List.nodup_append]
          refine ⟨hKI_l.nodup, List.nodup_singleton node, ?_⟩
          intro a ha hb
          rw [List.mem_singleton.mp hb] at ha
          rw [hs2l] at ha
          rcases List.mem_append.mp ha with h | h
          · exact hnode_stack h
          · exact hnode_δ2 h
        · intro u hu
          rcases List.mem_append.mp hu with h | h
          · exact hKI_l.fin_vis u h
          · rw [List.mem_singleton.mp h]
            exact hv2node
        · intro u hu nb hnb
          rcases List.mem_append.mp hu with h | h
          · exact hKI_l.fin_nbrs u h nb hnb
          · rw [List.mem_singleton.mp h] at hnb
            exact post_l nb hnb
        · intro p r suffix hdec x hx hpath
          rcases snoc_decomp s2l p suffix r node hdec with
            ⟨-, hp, hr⟩ | ⟨s3, -, hs3⟩
          · -- the new decomposition: r = node, p = s2l
            rw [hp] at hx hpath
            rw [hr] at hx hpath ⊢
            have hQ : ∀ z,
                Relation.ReflTransGen
                  (fun a b => b ∈ g.getD a [] ∧ (b ∈ s2l ∨ b = node)) z node →
                z ∈ stack → False := by
              intro z hz
              induction hz using Relation.ReflTransGen.head_induction_on with
              | refl =>
                intro hmem
                rw [hKI.fin_vis node hmem] at hfresh
                exact absurd hfresh (by simp)
              | head hstep htail ih2 =>
                intro hmem
                obtain ⟨hedge, hside⟩ := hstep
                have hcvis := hKI.fin_nbrs _ hmem _ hedge
                rcases hside with hc | rfl
                · rw [hs2l] at hc
                  rcases List.mem_append.mp hc with hcst | hcδ
                  · exact ih2 hcst
                  · rw [(hδ2fresh _ hcδ).1] at hcvis
                    exact absurd hcvis (by simp)
                · rw [hfresh] at hcvis
                  exact absurd hcvis (by simp)
            rcases hx with hx | rfl
            · rw [hs2l] at hx
              rcases List.mem_append.mp hx with h | h
              · exact absurd (hQ x hpath h) (by simp)
              · obtain ⟨-, nb, hnb, hr⟩ := hδ2 x h
                exact Relation.ReflTransGen.head hnb hr
            · exact Relation.ReflTransGen.refl
          · exact hKI_l.main p r s3 hs3 x hx hpath
    · -- dfs_fill_list
      intro l visited stack v2 s2 hKI hl hres
      match l with
      | [] =>
        simp only [dfs_fill_list] at hres
        have hres2 := Option.some.inj hres
        injection hres2 with hA hB
        subst hA
        subst hB
        refine ⟨fun x hx => hx, fun nb hnb => absurd hnb (List.not_mem_nil nb),
          [], by simp, ?_, ?_, hKI⟩
        · intro x hx
          exact absurd hx (List.not_mem_nil x)
        · intro x
          simp
      | nbr :: rest =>
        simp only [dfs_fill_list] at hres
        by_cases hvis : visited.getD nbr false = true
        · rw [if_pos hvis] at hres
          obtain ⟨mono, post, δ2, hs2, hδ2, hiff, hKI2⟩ :=
            ihList rest visited stack v2 s2 hKI
              (fun x hx => hl x (List.mem_cons_of_mem nbr hx)) hres
          refine ⟨mono, ?_, δ2, hs2, ?_, hiff, hKI2⟩
          · intro nb hnb
            rcases List.mem_cons.mp hnb with rfl | h
            · exact mono nb hvis
            · exact post nb h
          · intro x hx
            obtain ⟨h1, nb, hnb, hr⟩ := hδ2 x hx
            exact ⟨h1, nb, List.mem_cons_of_mem nbr hnb, hr⟩
        · rw [if_neg hvis] at hres
          rw [Bool.not_eq_true] at hvis
          rcases hro : dfs_fill_order g fuel nbr visited stack with
            - | ⟨v2a, s2a⟩
          · rw [hro] at hres
            exact Option.noConfusion hres
          rw [hro] at hres
          obtain ⟨monoA, hnbrA, δa, hs2a, hδa, hiffA, hKIa⟩ :=
            ihFill nbr visited stack v2a s2a hKI
              (hl nbr (List.mem_cons_self nbr rest)) hvis hro
          obtain ⟨monoB, postB, δb, hs2b, hδb, hiffB, hKIb⟩ :=
            ihList rest v2a s2a v2 s2 hKIa
              (fun x hx => hl x (List.mem_cons_of_mem nbr hx)) hres
          refine ⟨fun x hx => monoB x (monoA x hx), ?_,
            δa ++ δb, by rw [hs2b, hs2a, List.append_assoc], ?_, ?_, hKIb⟩
          · intro nb hnb
            rcases List.mem_cons.mp hnb with rfl | h
            · exact monoB nb hnbrA
            · exact postB nb h
          · intro x hx
            rcases List.mem_append.mp hx with h | h
            · exact ⟨(hδa x h).1, nbr, List.mem_cons_self nbr rest,
                (hδa x h).2⟩
            · obtain ⟨h1, nb, hnb, hr⟩ := hδb x h
              refine ⟨?_, nb, List.mem_cons_of_mem nbr hnb, hr⟩
              by_contra h2
              rw [Bool.not_eq_false] at h2
              rw [monoA x h2] at h1
              exact absurd h1 (by simp)
          · intro x
            rw [hiffB x, hiffA x, List.mem_append]
            constructor
            · rintro ((h | h) | h)
              · exact Or.inl h
              · exact Or.inr (Or.inl h)
              · exact Or.inr (Or.inr h)
            · rintro (h | h | h)
              · exact Or.inl (Or.inl h)
              · exact Or.inl (Or.inr h)
              · exact Or.inr h

/-- Remaining recursion-depth budget of the Kosaraju searches. -/
def kosPhi (V : ℕ) (g : List (List ℕ)) (visited : List Bool) : ℕ :=
  ∑ v ∈ Finset.range V,
    if visited.getD v false then 0 else 1 + (g.getD v []).length

theorem kosPhi_flip {V : ℕ} {g : List (List ℕ)} {visited : List Bool}
    {node : ℕ} (h1 : node < V) (h2 : node < visited.length)
    (h3 : visited.getD node false = false) :
    kosPhi V g (visited.set node true) + (1 + (g.getD node []).length) =
      kosPhi V g visited := by
  unfold kosPhi
  rw [Finset.sum_eq_sum_diff_singleton_add (Finset.mem_range.mpr h1)
      (fun v => if (visited.set node true).getD v false then 0
        else 1 + (g.getD v []).length),
    Finset.sum_eq_sum_diff_singleton_add (Finset.mem_range.mpr h1)
      (fun v => if visited.getD v false then 0 else 1 + (g.getD v []).length)]
  have hdiff : ∑ v ∈ Finset.range V \ {node},
      (if (visited.set node true).getD v false then 0
        else 1 + (g.getD v []).length) =
      ∑ v ∈ Finset.range V \ {node},
        (if visited.getD v false then 0 else 1 + (g.getD v []).length) := by
    apply Finset.sum_congr rfl
    intro v hv
    have hvne : v ≠ node :=
      (Finset.mem_sdiff.mp hv).2 ∘ Finset.mem_singleton.mpr
    rw [getD_set_ne visited true false fun h => hvne h.symm]
  rw [hdiff, getD_set_self visited true false h2, h3]
  simp

theorem kosPhi_anti {V : ℕ} {g : List (List ℕ)} {v1 v2 : List Bool}
    (h : ∀ x, v1.getD x false = true → v2.getD x false = true) :
    kosPhi V g v2 ≤ kosPhi V g v1 := by
  unfold kosPhi
  apply Finset.sum_le_sum
  intro v _
  by_cases hv : v1.getD v false = true
  · rw [hv, h v hv]
  · rw [Bool.not_eq_true] at hv
    rw [hv, if_neg Bool.false_ne_true]
    split <;> omega

theorem sum_rowLengthsN :
    ∀ g : List (List ℕ),
      ∑ v ∈ Finset.range g.length, (g.getD v []).length =
        (g.map List.length).sum := by
  intro g
  induction g with
  | nil => simp
  | cons r t ih =>
    rw [List.length_cons, Finset.sum_range_succ']
    simp only [List.map_cons, List.sum_cons]
    have h1 : ∀ i, ((r :: t).getD (i + 1) []).length = (t.getD i []).length :=
      fun i => rfl
    have h2 : ((r :: t).getD 0 []).length = r.length := rfl
    rw [h2]
    calc (∑ i ∈ Finset.range t.length, ((r :: t).getD (i + 1) []).length)
        + r.length
        = (∑ i ∈ Finset.range t.length, (t.getD i []).length) + r.length := by
          rw [Finset.sum_congr rfl fun i _ => h1 i]
      _ = r.length + (t.map List.length).sum := by rw [ih]; omega

theorem kosPhi_le {V : ℕ} {g : List (List ℕ)} (hglen : g.length = V)
    (visited : List Bool) :
    kosPhi V g visited ≤ V + (g.map List.length).sum := by
  have h1 : kosPhi V g visited ≤
      ∑ v ∈ Finset.range V, (1 + (g.getD v []).length) := by
    unfold kosPhi
    apply Finset.sum_le_sum
    intro v _
    split <;> omega
  have h2 : ∑ v ∈ Finset.range V, (1 + (g.getD v []).length) =
      V + ∑ v ∈ Finset.range V, (g.getD v []).length := by
    rw [Finset.sum_add_distrib]
    simp
  rw [h2, ← hglen, sum_rowLengthsN g] at h1
  rw [← hglen]
  exact h1

/-- With budget-sized fuel the finish-order DFS always returns. -/
theorem dfs_fill_fuel (V : ℕ) (g : List (List ℕ))
    (hadj : ∀ u, ∀ v ∈ g.getD u [], v < V) :
    ∀ fuel : ℕ,
      (∀ node visited stack, node < V → visited.length = V →
        visited.getD node false = false →
        kosPhi V g visited + 1 ≤ fuel →
        ∃ v2 s2, dfs_fill_order g fuel node visited stack = some (v2, s2) ∧
          (∀ x, visited.getD x false = true → v2.getD x false = true) ∧
          v2.getD node false = true ∧ v2.length = V) ∧
      (∀ l visited stack, (∀ x ∈ l, x < V) → visited.length = V →
        kosPhi V g visited + l.length + 1 ≤ fuel →
        ∃ v2 s2, dfs_fill_list g fuel l visited stack = some (v2, s2) ∧
          (∀ x, visited.getD x false = true → v2.getD x false = true) ∧
          v2.length = V) := by
  intro fuel
  induction fuel with
  | zero =>
    constructor
    · intro node visited stack _ _ _ h
      omega
    · intro l visited stack _ _ h
      omega
  | succ fuel ih =>
    obtain ⟨ihFill, ihList⟩ := ih
    constructor
    · intro node visited stack hnode hvlen hfresh hΦ
      have hnodelen : node < visited.length := by omega
      have hflip := kosPhi_flip (g := g) hnode hnodelen hfresh
      obtain ⟨v2, s2, hres, hmono, hv2len⟩ :=
        ihList (g.getD node []) (visited.set node true) stack (hadj node)
          (by rw [List.length_set]; exact hvlen) (by omega)
      refine ⟨v2, s2 ++ [node], ?_, ?_, ?_, hv2len⟩
      · simp only [dfs_fill_order]
        rw [hres]
      · exact fun x hx => hmono x (getD_set_true_mono hx)
      · exact hmono node (getD_set_self visited true false hnodelen)
    · intro l visited stack hl hvlen hΦ
      match l with
      | [] =>
        exact ⟨visited, stack, rfl, fun x hx => hx, hvlen⟩
      | nbr :: rest =>
        rw [List.length_cons] at hΦ
        by_cases hvis : visited.getD nbr false = true
        · obtain ⟨v2, s2, hres, hmono, hv2len⟩ :=
            ihList rest visited stack
              (fun x hx => hl x (List.mem_cons_of_mem nbr hx)) hvlen
              (by omega)
          refine ⟨v2, s2, ?_, hmono, hv2len⟩
          simp only [dfs_fill_list]
          rw [if_pos hvis]
          exact hres
        · rw [Bool.not_eq_true] at hvis
          have hnbr : nbr < V := hl nbr (List.mem_cons_self nbr rest)
          have hnbrlen : nbr < visited.length := by omega
          have hflip := kosPhi_flip (g := g) hnbr hnbrlen hvis
          obtain ⟨v2a, s2a, hresa, hmonoa, hnbra, hv2alen⟩ :=
            ihFill nbr visited stack hnbr hvlen hvis (by omega)
          have hΦa : kosPhi V g v2a ≤ kosPhi V g (visited.set nbr true) := by
            apply kosPhi_anti
            intro x hx
            rw [getD_set_true_iff hnbrlen] at hx
            rcases hx with h | rfl
            · exact hmonoa x h
            · exact hnbra
          obtain ⟨v2, s2, hresb, hmonob, hv2len⟩ :=
            ihList rest v2a s2a
              (fun x hx => hl x (List.mem_cons_of_mem nbr hx)) hv2alen
              (by omega)
          refine ⟨v2, s2, ?_, fun x hx => hmonob x (hmonoa x hx), hv2len⟩
          simp only [dfs_fill_list]
          rw [if_neg (by rw [hvis]; simp), hresa]
          exact hresb

theorem foldl_step_eq {α β : Type} (f : β → α → β) {b b2 : β} (a : α)
    (l : List α) (h : f b a = b2) :
    List.foldl f b (a :: l) = List.foldl f b2 l := by
  rw [List.foldl_cons, h]

/-- The first-phase fold visits every listed vertex, maintaining the
finish-order invariant and the match between `visited` and the stack. -/
theorem fill_fold_spec (V : ℕ) (g : List (List ℕ)) (hglen : g.length = V)
    (hadj : ∀ u, ∀ v ∈ g.getD u [], v < V) :
    ∀ l : List ℕ, (∀ i ∈ l, i < V) →
    ∀ visited stack, KosInv V g visited stack →
      (∀ x, visited.getD x false = true ↔ x ∈ stack) →
      ∃ v2 s2,
        l.foldl
          (fun st i =>
            match st with
            | none => none
            | some (visited, stack) =>
              if visited.getD i false then some (visited, stack)
              else dfs_fill_order g (kosFuel V g) i visited stack)
          (some (visited, stack)) = some (v2, s2) ∧
        KosInv V g v2 s2 ∧
        (∀ x, v2.getD x false = true ↔ x ∈ s2) ∧
        (∀ i ∈ l, v2.getD i false = true) ∧
        (∀ x, visited.getD x false = true → v2.getD x false = true) := by
  intro l
  induction l with
  | nil =>
    intro _ visited stack hKI hmem
    exact ⟨visited, stack, rfl, hKI, hmem, by simp, fun x hx => hx⟩
  | cons i t ih =>
    intro hl visited stack hKI hmem
    have hi : i < V := hl i (List.mem_cons_self i t)
    have ht : ∀ j ∈ t, j < V := fun j hj => hl j (List.mem_cons_of_mem i hj)
    by_cases hvis : visited.getD i false = true
    · have hstep :
          (fun (st : Option (List Bool × List ℕ)) (i : ℕ) =>
            match st with
            | none => none
            | some (visited, stack) =>
              if visited.getD i false then some (visited, stack)
              else dfs_fill_order g (kosFuel V g) i visited stack)
            (some (visited, stack)) i = some (visited, stack) := by
        show (if visited.getD i false then some (visited, stack)
          else dfs_fill_order g (kosFuel V g) i visited stack)
            = some (visited, stack)
        rw [if_pos hvis]
      obtain ⟨v2, s2, hfold, hKI2, hmem2, hcov2, hmono2⟩ :=
        ih ht visited stack hKI hmem
      refine ⟨v2, s2, ?_, hKI2, hmem2, ?_, hmono2⟩
      · rw [foldl_step_eq _ i t hstep]
        exact hfold
      · intro j hj
        rcases List.mem_cons.mp hj with rfl | hj2
        · exact hmono2 j hvis
        · exact hcov2 j hj2
    · rw [Bool.not_eq_true] at hvis
      have hΦ : kosPhi V g visited + 1 ≤ kosFuel V g := by
        have h1 := kosPhi_le hglen visited
        unfold kosFuel
        omega
      obtain ⟨va, sa, hres, hmonoF, hvai, hvalen⟩ :=
        (dfs_fill_fuel V g hadj (kosFuel V g)).1 i visited stack hi
          hKI.vlen hvis hΦ
      obtain ⟨hmonoS, hvai2, δ, hsa, hδ, hiff, hKIa⟩ :=
        (dfs_fill_spec V g hadj (kosFuel V g)).1 i visited stack va sa
          hKI hi hvis hres
      have hmema : ∀ x, va.getD x false = true ↔ x ∈ sa := by
        intro x
        rw [hsa, List.mem_append, hiff x, hmem x]
      have hstep :
          (fun (st : Option (List Bool × List ℕ)) (i : ℕ) =>
            match st with
            | none => none
            | some (visited, stack) =>
              if visited.getD i false then some (visited, stack)
              else dfs_fill_order g (kosFuel V g) i visited stack)
            (some (visited, stack)) i = some (va, sa) := by
        show (if visited.getD i false then some (visited, stack)
          else dfs_fill_order g (kosFuel V g) i visited stack)
            = some (va, sa)
        rw [if_neg (by rw [hvis]; simp)]
        exact hres
      obtain ⟨v2, s2, hfold, hKI2, hmem2, hcov2, hmono2⟩ :=
        ih ht va sa hKIa hmema
      refine ⟨v2, s2, ?_, hKI2, hmem2, ?_, ?_⟩
      · rw [foldl_step_eq _ i t hstep]
        exact hfold
      · intro j hj
        rcases List.mem_cons.mp hj with rfl | hj2
        · exact hmono2 j hvai
        · exact hcov2 j hj2
      · exact fun x hx => hmono2 x (hmonoF x hx)

theorem kosInv_init (V : ℕ) (g : List (List ℕ)) :
    KosInv V g (List.replicate V false) [] := by
  refine ⟨List.length_replicate V false, List.nodup_nil, ?_, ?_, ?_⟩
  · intro u hu
    exact absurd hu (List.not_mem_nil u)
  · intro u hu
    exact absurd hu (List.not_mem_nil u)
  · intro p r suffix hps
    exact absurd hps.symm (by simp)

/-- Phase one of Kosaraju: the finish-order stack exists, satisfies the
invariant and lists exactly the vertices `0..V-1`. -/
theorem fill_phase (V : ℕ) (g : List (List ℕ)) (hglen : g.length = V)
    (hadj : ∀ u, ∀ v ∈ g.getD u [], v < V) :
    ∃ vF S,
      (List.range V).foldl
        (fun st i =>
          match st with
          | none => none
          | some (visited, stack) =>
            if visited.getD i false then some (visited, stack)
            else dfs_fill_order g (kosFuel V g) i visited stack)
        (some (List.replicate V false, [])) = some (vF, S) ∧
      KosInv V g vF S ∧ (∀ x, x ∈ S ↔ x < V) := by
  have hinit_mem : ∀ x : ℕ,
      (List.replicate V false).getD x false = true ↔ x ∈ ([] : List ℕ) := by
    intro x
    rw [getD_replicate]
    simp
  obtain ⟨v2, s2, hfold, hKI2, hmem2, hcov2, _⟩ :=
    fill_fold_spec V g hglen hadj (List.range V)
      (fun i hi => List.mem_range.mp hi)
      (List.replicate V false) [] (kosInv_init V g) hinit_mem
  refine ⟨v2, s2, hfold, hKI2, ?_⟩
  intro x
  constructor
  · intro hx
    have hvx := (hmem2 x).mpr hx
    have := getD_true_lt hvx
    rw [hKI2.vlen] at this
    exact this
  · intro hx
    exact (hmem2 x).mp (hcov2 x (List.mem_range.mpr hx))

theorem transpose_row_fold (node : ℕ) :
    ∀ (l : List ℕ) (rg : List (List ℕ)),
      (∀ nb ∈ l, nb < rg.length) →
      ((l.foldl (fun rg neighbor =>
            rg.set neighbor (rg.getD neighbor [] ++ [node])) rg).length
          = rg.length ∧
        ∀ x u, u ∈ (l.foldl (fun rg neighbor =>
            rg.set neighbor (rg.getD neighbor [] ++ [node])) rg).getD x [] ↔
          (u ∈ rg.getD x [] ∨ (u = node ∧ x ∈ l))) := by
  intro l
  induction l with
  | nil =>
    intro rg _
    refine ⟨rfl, fun x u => ?_⟩
    simp
  | cons nb t ih =>
    intro rg hl
    have hnb : nb < rg.length := hl nb (List.mem_cons_self nb t)
    have hlen2 : (rg.set nb (rg.getD nb [] ++ [node])).length = rg.length :=
      List.length_set rg nb _
    have ht : ∀ x ∈ t, x < (rg.set nb (rg.getD nb [] ++ [node])).length := by
      intro x hx
      rw [hlen2]
      exact hl x (List.mem_cons_of_mem nb hx)
    obtain ⟨ihlen, ihmem⟩ := ih (rg.set nb (rg.getD nb [] ++ [node])) ht
    rw [List.foldl_cons]
    refine ⟨by rw [ihlen, hlen2], fun x u => ?_⟩
    rw [ihmem x u, rowSet_getD rg nb node x hnb]
    by_cases hx : nb = x
    · rw [if_pos hx]
      subst hx
      simp only [List.mem_append, List.mem_singleton, List.mem_cons]
      tauto
    · rw [if_neg hx]
      simp only [List.mem_cons]
      tauto

theorem transpose_fold (g : List (List ℕ)) :
    ∀ (L : List ℕ) (rg : List (List ℕ)),
      (∀ n ∈ L, ∀ nb ∈ g.getD n [], nb < rg.length) →
      ((L.foldl (fun rg node => (g.getD node []).foldl
          (fun rg neighbor =>
            rg.set neighbor (rg.getD neighbor [] ++ [node])) rg) rg).length
          = rg.length ∧
        ∀ x u, u ∈ (L.foldl (fun rg node => (g.getD node []).foldl
          (fun rg neighbor =>
            rg.set neighbor (rg.getD neighbor [] ++ [node])) rg) rg).getD x []
          ↔ (u ∈ rg.getD x [] ∨ ∃ n ∈ L, u = n ∧ x ∈ g.getD n [])) := by
  intro L
  induction L with
  | nil =>
    intro rg _
    refine ⟨rfl, fun x u => ?_⟩
    simp
  | cons n t ih =>
    intro rg hL
    obtain ⟨rlen, rmem⟩ :=
      transpose_row_fold n (g.getD n []) rg (hL n (List.mem_cons_self n t))
    have ht : ∀ m ∈ t, ∀ nb ∈ g.getD m [],
        nb < ((g.getD n []).foldl (fun rg neighbor =>
          rg.set neighbor (rg.getD neighbor [] ++ [n])) rg).length := by
      intro m hm nb hnb
      rw [rlen]
      exact hL m (List.mem_cons_of_mem n hm) nb hnb
    obtain ⟨ihlen, ihmem⟩ := ih _ ht
    rw [List.foldl_cons]
    refine ⟨by rw [ihlen, rlen], fun x u => ?_⟩
    rw [ihmem x u, rmem x u]
    constructor
    · rintro ((h | ⟨h, h2⟩) | ⟨m, hm, h, h2⟩)
      · exact Or.inl h
      · exact Or.inr ⟨n, List.mem_cons_self n t, h, h2⟩
      · exact Or.inr ⟨m, List.mem_cons_of_mem n hm, h, h2⟩
    · rintro (h | ⟨m, hm, h, h2⟩)
      · exact Or.inl (Or.inl h)
      · rcases List.mem_cons.mp hm with rfl | hm2
        · exact Or.inl (Or.inr ⟨h, h2⟩)
        · exact Or.inr ⟨m, hm2, h, h2⟩

/-- The transposed instance has `V` rows and contains exactly the reversed
edges. -/
theorem get_transpose_spec (V : ℕ) (g : List (List ℕ))
    (hadj : ∀ n, ∀ nb ∈ g.getD n [], nb < V) :
    (get_transpose V g).length = V ∧
    ∀ x u, u ∈ (get_transpose V g).getD x [] ↔
      (u < V ∧ x ∈ g.getD u []) := by
  have hL : ∀ n ∈ List.range V, ∀ nb ∈ g.getD n [],
      nb < (List.replicate V ([] : List ℕ)).length := by
    intro n _ nb hnb
    rw [List.length_replicate]
    exact hadj n nb hnb
  obtain ⟨hlen, hmem⟩ := transpose_fold g (List.range V)
    (List.replicate V []) hL
  constructor
  · unfold get_transpose
    rw [hlen, List.length_replicate]
  · intro x u
    unfold get_transpose
    rw [hmem x u]
    constructor
    · rintro (h | ⟨n, hn, rfl, h2⟩)
      · rw [getD_replicate] at h
        exact absurd h (List.not_mem_nil u)
      · exact ⟨List.mem_range.mp hn, h2⟩
    · rintro ⟨h1, h2⟩
      exact Or.inr ⟨u, List.mem_range.mpr h1, rfl, h2⟩

theorem sum_set_nat :
    ∀ (l : List ℕ) (i b : ℕ), i < l.length →
      (l.set i b).sum + l.getD i 0 = l.sum + b := by
  intro l
  induction l with
  | nil =>
    intro i b h
    simp at h
  | cons a t ih =>
    intro i b h
    match i with
    | 0 =>
      show (b :: t).sum + a = (a :: t).sum + b
      simp only [List.sum_cons]
      omega
    | i + 1 =>
      show (a :: t.set i b).sum + t.getD i 0 = (a :: t).sum + b
      simp only [List.sum_cons]
      have := ih i b (by rw [List.length_cons] at h; omega)
      omega

theorem transpose_row_sum (node : ℕ) :
    ∀ (l : List ℕ) (rg : List (List ℕ)),
      (∀ nb ∈ l, nb < rg.length) →
      ((l.foldl (fun rg neighbor =>
          rg.set neighbor (rg.getD neighbor [] ++ [node])) rg).map
            List.length).sum
        = (rg.map List.length).sum + l.length := by
  intro l
  induction l with
  | nil =>
    intro rg _
    simp
  | cons nb t ih =>
    intro rg hl
    have hnb : nb < rg.length := hl nb (List.mem_cons_self nb t)
    have hlen2 : (rg.set nb (rg.getD nb [] ++ [node])).length = rg.length :=
      List.length_set rg nb _
    have hstep : ((rg.set nb (rg.getD nb [] ++ [node])).map
        List.length).sum = (rg.map List.length).sum + 1 := by
      rw [List.map_set]
      have h1 := sum_set_nat (rg.map List.length) nb
        (rg.getD nb [] ++ [node]).length
        (by rw [List.length_map]; exact hnb)
      have h2 := @List.getD_map _ _ rg [] nb List.length
      simp only [List.length_nil] at h2
      rw [h2] at h1
      have hx : (rg.getD nb [] ++ [node]).length
          = (rg.getD nb []).length + 1 := by
        rw [List.length_append, List.length_singleton]
      omega
    have htl : ∀ x ∈ t, x < (rg.set nb (rg.getD nb [] ++ [node])).length := by
      intro x hx
      rw [hlen2]
      exact hl x (List.mem_cons_of_mem nb hx)
    have hih := ih _ htl
    rw [List.foldl_cons, hih, hstep, List.length_cons]
    omega

theorem transpose_sum (g : List (List ℕ)) :
    ∀ (L : List ℕ) (rg : List (List ℕ)),
      (∀ n ∈ L, ∀ nb ∈ g.getD n [], nb < rg.length) →
      ((L.foldl (fun rg node => (g.getD node []).foldl
          (fun rg neighbor =>
            rg.set neighbor (rg.getD neighbor [] ++ [node])) rg) rg).map
            List.length).sum
        = (rg.map List.length).sum
          + (L.map (fun n => (g.getD n []).length)).sum := by
  intro L
  induction L with
  | nil =>
    intro rg _
    simp
  | cons n t ih =>
    intro t0 hL
    obtain ⟨rlen, _⟩ :=
      transpose_row_fold n (g.getD n []) t0 (hL n (List.mem_cons_self n t))
    have hsum := transpose_row_sum n (g.getD n []) t0
      (hL n (List.mem_cons_self n t))
    have htl : ∀ m ∈ t, ∀ nb ∈ g.getD m [],
        nb < ((g.getD n []).foldl (fun rg neighbor =>
          rg.set neighbor (rg.getD neighbor [] ++ [n])) t0).length := by
      intro m hm nb hnb
      rw [rlen]
      exact hL m (List.mem_cons_of_mem n hm) nb hnb
    have hih := ih _ htl
    rw [List.foldl_cons, hih, hsum]
    simp only [List.map_cons, List.sum_cons]
    omega

/-- The transpose has exactly as many adjacency entries as the original. -/
theorem get_transpose_edges (V : ℕ) (g : List (List ℕ))
    (hglen : g.length = V)
    (hadj : ∀ n, ∀ nb ∈ g.getD n [], nb < V) :
    ((get_transpose V g).map List.length).sum
      = (g.map List.length).sum := by
  unfold get_transpose
  rw [transpose_sum g (List.range V) (List.replicate V [])
    (by intro n _ nb hnb; rw [List.length_replicate]; exact hadj n nb hnb)]
  have h1 : ((List.replicate V ([] : List ℕ)).map List.length).sum = 0 := by
    simp
  have h2 : ((List.range V).map
      (fun n => (g.getD n []).length)).sum
      = ∑ n ∈ Finset.range V, (g.getD n []).length := rfl
  rw [h1, h2, ← hglen, sum_rowLengthsN g]
  omega

/-- With budget-sized fuel the collection DFS always returns. -/
theorem dfs_collect_fuel (V : ℕ) (rg : List (List ℕ))
    (hadj : ∀ u, ∀ v ∈ rg.getD u [], v < V) :
    ∀ fuel : ℕ,
      (∀ node visited comp, node < V → visited.length = V →
        visited.getD node false = false →
        kosPhi V rg visited + 1 ≤ fuel →
        ∃ v2 c2, dfs_collect_scc rg fuel node visited comp
            = some (v2, c2) ∧
          (∀ x, visited.getD x false = true → v2.getD x false = true) ∧
          v2.getD node false = true ∧ v2.length = V) ∧
      (∀ l visited comp, (∀ x ∈ l, x < V) → visited.length = V →
        kosPhi V rg visited + l.length + 1 ≤ fuel →
        ∃ v2 c2, dfs_collect_list rg fuel l visited comp
            = some (v2, c2) ∧
          (∀ x, visited.getD x false = true → v2.getD x false = true) ∧
          v2.length = V) := by
  intro fuel
  induction fuel with
  | zero =>
    constructor
    · intro node visited comp _ _ _ h
      omega
    · intro l visited comp _ _ h
      omega
  | succ fuel ih =>
    obtain ⟨ihScc, ihList⟩ := ih
    constructor
    · intro node visited comp hnode hvlen hfresh hΦ
      have hnodelen : node < visited.length := by omega
      have hflip := kosPhi_flip (g := rg) hnode hnodelen hfresh
      obtain ⟨v2, c2, hres, hmono, hv2len⟩ :=
        ihList (rg.getD node []) (visited.set node true) (comp ++ [node])
          (hadj node) (by rw [List.length_set]; exact hvlen) (by omega)
      refine ⟨v2, c2, ?_, ?_, ?_, hv2len⟩
      · simp only [dfs_collect_scc]
        exact hres
      · exact fun x hx => hmono x (getD_set_true_mono hx)
      · exact hmono node (getD_set_self visited true false hnodelen)
    · intro l visited comp hl hvlen hΦ
      match l with
      | [] =>
        exact ⟨visited, comp, rfl, fun x hx => hx, hvlen⟩
      | nbr :: rest =>
        rw [List.length_cons] at hΦ
        by_cases hvis : visited.getD nbr false = true
        · obtain ⟨v2, c2, hres, hmono, hv2len⟩ :=
            ihList rest visited comp
              (fun x hx => hl x (List.mem_cons_of_mem nbr hx)) hvlen
              (by omega)
          refine ⟨v2, c2, ?_, hmono, hv2len⟩
          simp only [dfs_collect_list]
          rw [if_pos hvis]
          exact hres
        · rw [Bool.not_eq_true] at hvis
          have hnbr : nbr < V := hl nbr (List.mem_cons_self nbr rest)
          have hnbrlen : nbr < visited.length := by omega
          have hflip := kosPhi_flip (g := rg) hnbr hnbrlen hvis
          obtain ⟨v2a, c2a, hresa, hmonoa, hnbra, hv2alen⟩ :=
            ihScc nbr visited comp hnbr hvlen hvis (by omega)
          have hΦa : kosPhi V rg v2a
              ≤ kosPhi V rg (visited.set nbr true) := by
            apply kosPhi_anti
            intro x hx
            rw [getD_set_true_iff hnbrlen] at hx
            rcases hx with h | rfl
            · exact hmonoa x h
            · exact hnbra
          obtain ⟨v2, c2, hresb, hmonob, hv2len⟩ :=
            ihList rest v2a c2a
              (fun x hx => hl x (List.mem_cons_of_mem nbr hx)) hv2alen
              (by omega)
          refine ⟨v2, c2, ?_, fun x hx => hmonob x (hmonoa x hx), hv2len⟩
          simp only [dfs_collect_list]
          rw [if_neg (by rw [hvis]; simp), hresa]
          exact hresb

/-- What the collection DFS returns: the component grows by exactly the
vertices freshly marked, each reached from the start along a path of
previously unvisited vertices. -/
theorem dfs_collect_spec (V : ℕ) (rg : List (List ℕ))
    (hadj : ∀ u, ∀ v ∈ rg.getD u [], v < V) :
    ∀ fuel : ℕ,
      (∀ node visited comp v2 c2,
        visited.length = V → node < V →
        visited.getD node false = false →
        dfs_collect_scc rg fuel node visited comp = some (v2, c2) →
        (∀ x, visited.getD x false = true → v2.getD x false = true) ∧
        v2.length = V ∧
        ∃ δ, c2 = comp ++ δ ∧ node ∈ δ ∧ δ.Nodup ∧
          (∀ x ∈ δ, visited.getD x false = false ∧
            Relation.ReflTransGen (fun a b => b ∈ rg.getD a [] ∧
              visited.getD b false = false) node x) ∧
          (∀ x, v2.getD x false = true ↔
            (visited.getD x false = true ∨ x ∈ δ))) ∧
      (∀ l visited comp v2 c2,
        visited.length = V → (∀ x ∈ l, x < V) →
        dfs_collect_list rg fuel l visited comp = some (v2, c2) →
        (∀ x, visited.getD x false = true → v2.getD x false = true) ∧
        v2.length = V ∧
        ∃ δ, c2 = comp ++ δ ∧ δ.Nodup ∧
          (∀ x ∈ δ, visited.getD x false = false ∧
            ∃ nb ∈ l, visited.getD nb false = false ∧
              Relation.ReflTransGen (fun a b => b ∈ rg.getD a [] ∧
                visited.getD b false = false) nb x) ∧
          (∀ x, v2.getD x false = true ↔
            (visited.getD x false = true ∨ x ∈ δ))) := by
  intro fuel
  induction fuel with
  | zero =>
    constructor
    · intro node visited comp v2 c2 _ _ _ hres
      exact Option.noConfusion hres
    · intro l visited comp v2 c2 _ _ hres
      exact Option.noConfusion hres
  | succ fuel ih =>
    obtain ⟨ihScc, ihList⟩ := ih
    constructor
    · -- dfs_collect_scc
      intro node visited comp v2 c2 hvlen hnode hfresh hres
      simp only [dfs_collect_scc] at hres
      have hnodelen : node < visited.length := by omega
      obtain ⟨monoL, hv2len, δL, hc2, hnodupL, hδL, hiffL⟩ :=
        ihList (rg.getD node []) (visited.set node true)
          (comp ++ [node]) v2 c2
          (by rw [List.length_set]; exact hvlen) (hadj node) hres
      have hsetfresh : ∀ x, (visited.set node true).getD x false = false →
          visited.getD x false = false := by
        intro x hx
        by_contra h2
        rw [Bool.not_eq_false] at h2
        rw [getD_set_true_mono h2] at hx
        exact absurd hx (by simp)
      have hrel : ∀ a b, (b ∈ rg.getD a [] ∧
          (visited.set node true).getD b false = false) →
          (b ∈ rg.getD a [] ∧ visited.getD b false = false) :=
        fun a b h => ⟨h.1, hsetfresh b h.2⟩
      refine ⟨fun x hx => monoL x (getD_set_true_mono hx), hv2len,
        node :: δL, ?_, List.mem_cons_self node δL, ?_, ?_, ?_⟩
      · rw [hc2, List.append_assoc]
        rfl
      · rw [List.nodup_cons]
        refine ⟨?_, hnodupL⟩
        intro hmem
        have h1 := (hδL node hmem).1
        rw [getD_set_self visited true false hnodelen] at h1
        exact absurd h1 (by simp)
      · intro x hx
        rcases List.mem_cons.mp hx with rfl | hx2
        · exact ⟨hfresh, Relation.ReflTransGen.refl⟩
        · obtain ⟨hxf, nb, hnbrow, hnbf, hpath⟩ := hδL x hx2
          refine ⟨hsetfresh x hxf, ?_⟩
          exact Relation.ReflTransGen.head ⟨hnbrow, hsetfresh nb hnbf⟩
            (Relation.ReflTransGen.mono hrel hpath)
      · intro x
        rw [hiffL x, getD_set_true_iff hnodelen, List.mem_cons]
        tauto
    · -- dfs_collect_list
      intro l visited comp v2 c2 hvlen hl hres
      match l with
      | [] =>
        have hres2 := Option.some.inj hres
        injection hres2 with hA hB
        subst hA
        subst hB
        refine ⟨fun x hx => hx, hvlen, [], by simp, List.nodup_nil, ?_, ?_⟩
        · intro x hx
          exact absurd hx (List.not_mem_nil x)
        · intro x
          simp
      | nbr :: rest =>
        have hrest : ∀ x ∈ rest, x < V :=
          fun x hx => hl x (List.mem_cons_of_mem nbr hx)
        by_cases hvis : visited.getD nbr false = true
        · simp only [dfs_collect_list] at hres
          rw [if_pos hvis] at hres
          obtain ⟨mono2, hv2len, δ, hc2, hnodup, hδ, hiff⟩ :=
            ihList rest visited comp v2 c2 hvlen hrest hres
          refine ⟨mono2, hv2len, δ, hc2, hnodup, ?_, hiff⟩
          intro x hx
          obtain ⟨hxf, nb, hnb, hnbf, hpath⟩ := hδ x hx
          exact ⟨hxf, nb, List.mem_cons_of_mem nbr hnb, hnbf, hpath⟩
        · rw [Bool.not_eq_true] at hvis
          simp only [dfs_collect_list] at hres
          rw [if_neg (by rw [hvis]; simp)] at hres
          rcases hra : dfs_collect_scc rg fuel nbr visited comp with
            - | ⟨va, ca⟩
          · rw [hra] at hres
            exact Option.noConfusion hres
          rw [hra] at hres
          have hnbr : nbr < V := hl nbr (List.mem_cons_self nbr rest)
          obtain ⟨monoA, hvalen, δA, hca, hnbrA, hnodupA, hδA, hiffA⟩ :=
            ihScc nbr visited comp va ca hvlen hnbr hvis hra
          obtain ⟨monoB, hv2len, δB, hc2, hnodupB, hδB, hiffB⟩ :=
            ihList rest va ca v2 c2 hvalen hrest hres
          have hAfresh : ∀ x, va.getD x false = false →
              visited.getD x false = false := by
            intro x hx
            by_contra h2
            rw [Bool.not_eq_false] at h2
            rw [monoA x h2] at hx
            exact absurd hx (by simp)
          have hrelA : ∀ a b, (b ∈ rg.getD a [] ∧
              va.getD b false = false) →
              (b ∈ rg.getD a [] ∧ visited.getD b false = false) :=
            fun a b h => ⟨h.1, hAfresh b h.2⟩
          refine ⟨fun x hx => monoB x (monoA x hx), hv2len,
            δA ++ δB, ?_, ?_, ?_, ?_⟩
          · rw [hc2, hca, List.append_assoc]
          · rw [List.nodup_append]
            refine ⟨hnodupA, hnodupB, ?_⟩
            intro a ha hb
            have h1 : va.getD a false = true := (hiffA a).mpr (Or.inr ha)
            have h2 : va.getD a false = false := (hδB a hb).1
            rw [h1] at h2
            exact absurd h2 (by simp)
          · intro x hx
            rcases List.mem_append.mp hx with h | h
            · obtain ⟨hxf, hpath⟩ := hδA x h
              exact ⟨hxf, nbr, List.mem_cons_self nbr rest, hvis, hpath⟩
            · obtain ⟨hxf, nb, hnb, hnbf, hpath⟩ := hδB x h
              exact ⟨hAfresh x hxf, nb, List.mem_cons_of_mem nbr hnb,
                hAfresh nb hnbf, Relation.ReflTransGen.mono hrelA hpath⟩
          · intro x
            rw [hiffB x, hiffA x, List.mem_append]
            tauto

/-- A collection path in the transpose reverses to an original-graph path
whose intermediate vertices are unvisited and in range. -/
theorem collect_path_reverse (V : ℕ) (g rg : List (List ℕ))
    (hT : ∀ x u, u ∈ rg.getD x [] ↔ (u < V ∧ x ∈ g.getD u []))
    (visited : List Bool) (node : ℕ) :
    ∀ x, Relation.ReflTransGen (fun a b => b ∈ rg.getD a [] ∧
        visited.getD b false = false) node x →
      Relation.ReflTransGen (fun a b => b ∈ g.getD a [] ∧
        ((visited.getD b false = false ∧ b < V) ∨ b = node)) x node := by
  intro x hpath
  induction hpath with
  | refl => exact Relation.ReflTransGen.refl
  | @tail b c hpre hstep ih =>
    obtain ⟨hedge, hcf⟩ := hstep
    obtain ⟨hcV, hgedge⟩ := (hT b c).mp hedge
    have hbside : b = node ∨
        (visited.getD b false = false ∧ b < V) := by
      rcases Relation.ReflTransGen.cases_tail hpre with heq | ⟨d, -, hdb⟩
      · exact Or.inl heq
      · obtain ⟨hdbe, hbf⟩ := hdb
        exact Or.inr ⟨hbf, ((hT d b).mp hdbe).1⟩
    refine Relation.ReflTransGen.head ⟨hgedge, ?_⟩ ih
    rcases hbside with heq | hf
    · exact Or.inr heq
    · exact Or.inl hf

/-- Invariant of the stack-pop loop: the accumulated components tile the
visited set without duplicates and are internally mutually reachable. -/
theorem sccLoop_spec (V : ℕ) (g rg : List (List ℕ))
    (hT : ∀ x u, u ∈ rg.getD x [] ↔ (u < V ∧ x ∈ g.getD u []))
    (hrglen : rg.length = V)
    (hrgsum : (rg.map List.length).sum = (g.map List.length).sum)
    (S : List ℕ)
    (hmain : ∀ p r suffix, S = p ++ r :: suffix →
      ∀ x, (x ∈ p ∨ x = r) →
        Relation.ReflTransGen
          (fun a b => b ∈ g.getD a [] ∧ (b ∈ p ∨ b = r)) x r →
        Reach g r x)
    (hSV : ∀ x, x ∈ S ↔ x < V) :
    ∀ todo dn visited acc,
      S.reverse = dn ++ todo →
      visited.length = V →
      (∀ x, visited.getD x false = true ↔ x ∈ acc.flatten) →
      acc.flatten.Nodup →
      (∀ d ∈ dn, visited.getD d false = true) →
      (∀ c ∈ acc, ∀ u ∈ c, ∀ v ∈ c, Reach g u v) →
      ∃ sccs, sccLoop rg (kosFuel V g) todo visited acc = some sccs ∧
        sccs.flatten.Nodup ∧
        (∀ x, x ∈ sccs.flatten ↔ (x ∈ acc.flatten ∨ x ∈ todo)) ∧
        (∀ c ∈ sccs, ∀ u ∈ c, ∀ v ∈ c, Reach g u v) := by
  intro todo
  induction todo with
  | nil =>
    intro dn visited acc _ _ _ hnodup _ hmut
    refine ⟨acc, rfl, hnodup, ?_, hmut⟩
    intro x
    simp
  | cons node rest ih =>
    intro dn visited acc hsplit hvlen hmemiff hnodup hdone hmut
    have hsplit2 : S.reverse = (dn ++ [node]) ++ rest := by
      rw [hsplit, List.append_assoc]
      rfl
    by_cases hvis : visited.getD node false = true
    · have hnode_in : node ∈ acc.flatten := (hmemiff node).mp hvis
      have hdone2 : ∀ d ∈ dn ++ [node], visited.getD d false = true := by
        intro d hd
        rcases List.mem_append.mp hd with h | h
        · exact hdone d h
        · rw [List.mem_singleton.mp h]
          exact hvis
      obtain ⟨sccs, hrec, hnodup2, hjoin2, hmut2⟩ :=
        ih (dn ++ [node]) visited acc hsplit2 hvlen hmemiff hnodup
          hdone2 hmut
      refine ⟨sccs, ?_, hnodup2, ?_, hmut2⟩
      · simp only [sccLoop]
        rw [if_pos hvis]
        exact hrec
      · intro x
        rw [hjoin2 x, List.mem_cons]
        constructor
        · rintro (h | h)
          · exact Or.inl h
          · exact Or.inr (Or.inr h)
        · rintro (h | h | h)
          · exact Or.inl h
          · rw [h]
            exact Or.inl hnode_in
          · exact Or.inr h
    · rw [Bool.not_eq_true] at hvis
      have hnodeS : node ∈ S := by
        apply List.mem_reverse.mp
        rw [hsplit]
        exact List.mem_append.mpr (Or.inr (List.mem_cons_self node rest))
      have hnodeV : node < V := (hSV node).mp hnodeS
      have hadjR : ∀ u, ∀ v ∈ rg.getD u [], v < V :=
        fun u v hv => ((hT u v).mp hv).1
      have hΦ : kosPhi V rg visited + 1 ≤ kosFuel V g := by
        have h1 := kosPhi_le hrglen visited
        rw [hrgsum] at h1
        unfold kosFuel
        omega
      obtain ⟨va, ca, hresF, -, -, -⟩ :=
        (dfs_collect_fuel V rg hadjR (kosFuel V g)).1 node visited []
          hnodeV hvlen hvis hΦ
      obtain ⟨monoA, hvalen, δ, hca, hnodeδ, hnodupδ, hδ, hiffA⟩ :=
        (dfs_collect_spec V rg hadjR (kosFuel V g)).1 node visited []
          va ca hvlen hnodeV hvis hresF
      have hcaδ : ca = δ := by
        rw [hca]
        rfl
      have hδV : ∀ x ∈ δ, x < V := by
        intro x hx
        rcases Relation.ReflTransGen.cases_tail (hδ x hx).2 with
          heq | ⟨c, -, hstep⟩
        · rw [heq]
          exact hnodeV
        · exact hadjR c x hstep.1
      have hdec : S = rest.reverse ++ node :: dn.reverse := by
        have h1 : S = (S.reverse).reverse := (List.reverse_reverse S).symm
        rw [h1, hsplit]
        simp [List.reverse_append]
      have hloc : ∀ b, visited.getD b false = false → b < V →
          (b ∈ rest.reverse ∨ b = node) := by
        intro b hbf hbV
        have hbS : b ∈ S := (hSV b).mpr hbV
        rw [hdec] at hbS
        rcases List.mem_append.mp hbS with h | h
        · exact Or.inl h
        · rcases List.mem_cons.mp h with h2 | h2
          · exact Or.inr h2
          · have h3 := hdone b (List.mem_reverse.mp h2)
            rw [hbf] at h3
            exact absurd h3 (by simp)
      have hto_node : ∀ x ∈ δ, Reach g x node := by
        intro x hx
        have hrev := collect_path_reverse V g rg hT visited node x
          (hδ x hx).2
        exact Relation.ReflTransGen.mono (fun a b h => h.1) hrev
      have hfrom_node : ∀ x ∈ δ, Reach g node x := by
        intro x hx
        have hrev := collect_path_reverse V g rg hT visited node x
          (hδ x hx).2
        have hrev2 : Relation.ReflTransGen
            (fun a b => b ∈ g.getD a [] ∧
              (b ∈ rest.reverse ∨ b = node)) x node := by
          refine Relation.ReflTransGen.mono ?_ hrev
          intro a b h
          refine ⟨h.1, ?_⟩
          rcases h.2 with ⟨hf, hV⟩ | he
          · exact hloc b hf hV
          · exact Or.inr he
        exact hmain rest.reverse node dn.reverse hdec x
          (hloc x (hδ x hx).1 (hδV x hx)) hrev2
      have hmutδ : ∀ u ∈ δ, ∀ v ∈ δ, Reach g u v :=
        fun u hu v hv =>
          Relation.ReflTransGen.trans (hto_node u hu) (hfrom_node v hv)
      have hflat2 : (acc ++ [ca]).flatten = acc.flatten ++ δ := by
        rw [List.flatten_append, hcaδ]
        simp
      have hmemiff2 : ∀ x, va.getD x false = true ↔
          x ∈ (acc ++ [ca]).flatten := by
        intro x
        rw [hflat2, List.mem_append, hiffA x, hmemiff x]
      have hnodup2 : (acc ++ [ca]).flatten.Nodup := by
        rw [hflat2, List.nodup_append]
        refine ⟨hnodup, hnodupδ, ?_⟩
        intro a ha hb
        have h1 : visited.getD a false = true := (hmemiff a).mpr ha
        have h2 := (hδ a hb).1
        rw [h1] at h2
        exact absurd h2 (by simp)
      have hdone2 : ∀ d ∈ dn ++ [node], va.getD d false = true := by
        intro d hd
        rcases List.mem_append.mp hd with h | h
        · exact monoA d (hdone d h)
        · rw [List.mem_singleton.mp h]
          exact (hiffA node).mpr (Or.inr hnodeδ)
      have hmut2 : ∀ c ∈ acc ++ [ca], ∀ u ∈ c, ∀ v ∈ c, Reach g u v := by
        intro c hc
        rcases List.mem_append.mp hc with h | h
        · exact hmut c h
        · rw [List.mem_singleton.mp h, hcaδ]
          exact hmutδ
      obtain ⟨sccs, hrec, hnodup3, hjoin3, hmut3⟩ :=
        ih (dn ++ [node]) va (acc ++ [ca]) hsplit2 hvalen hmemiff2
          hnodup2 hdone2 hmut2
      have hδloc : ∀ x ∈ δ, x = node ∨ x ∈ rest := by
        intro x hx
        rcases hloc x (hδ x hx).1 (hδV x hx) with h | h
        · exact Or.inr (List.mem_reverse.mp h)
        · exact Or.inl h
      refine ⟨sccs, ?_, hnodup3, ?_, hmut3⟩
      · simp only [sccLoop]
        rw [if_neg (by rw [hvis]; simp), hresF]
        exact hrec
      · intro x
        rw [hjoin3 x, hflat2, List.mem_append, List.mem_cons]
        constructor
        · rintro ((h | h) | h)
          · exact Or.inl h
          · rcases hδloc x h with h2 | h2
            · exact Or.inr (Or.inl h2)
            · exact Or.inr (Or.inr h2)
          · exact Or.inr (Or.inr h)
        · rintro (h | h | h)
          · exact Or.inl (Or.inl h)
          · rw [h]
            exact Or.inl (Or.inr hnodeδ)
          · exact Or.inr h

/-- C7: for every directed graph on vertices `0..V-1`, `Kosaraju.find_sccs`
returns a partition of the vertex set — the component lists are pairwise
disjoint and duplicate-free, their union is exactly `{0,...,V-1}`, and
within each returned list every pair of vertices is mutually reachable in
the original graph — including on disconnected graphs. -/
theorem c7_kosaraju_partition (V : ℕ) (g : List (List ℕ))
    (hglen : g.length = V)
    (hadj : ∀ u, ∀ v ∈ g.getD u [], v < V) :
    ∃ sccs, find_sccs V g = some sccs ∧
      sccs.flatten.Nodup ∧
      (∀ x, x ∈ sccs.flatten ↔ x < V) ∧
      (∀ c ∈ sccs, ∀ u ∈ c, ∀ v ∈ c, Reach g u v ∧ Reach g v u) := by
  obtain ⟨vF, S, hfold, hKI, hSV⟩ := fill_phase V g hglen hadj
  obtain ⟨hrglen, hT⟩ := get_transpose_spec V g hadj
  have hrgsum := get_transpose_edges V g hglen hadj
  have hinit_mem : ∀ x : ℕ,
      (List.replicate V false).getD x false = true
        ↔ x ∈ ([] : List (List ℕ)).flatten := by
    intro x
    rw [getD_replicate]
    simp
  obtain ⟨sccs, hloop, hnodup, hjoin, hmut⟩ :=
    sccLoop_spec V g (get_transpose V g) (fun x u => hT x u) hrglen hrgsum
      S hKI.main hSV S.reverse [] (List.replicate V false) [] rfl
      (List.length_replicate V false) hinit_mem List.nodup_nil
      (fun d hd => absurd hd (List.not_mem_nil d))
      (fun c hc => absurd hc (List.not_mem_nil c))
  refine ⟨sccs, ?_, hnodup, ?_, ?_⟩
  · show (match (List.range V).foldl
        (fun st i =>
          match st with
          | none => none
          | some (visited, stack) =>
            if visited.getD i false then some (visited, stack)
            else dfs_fill_order g (kosFuel V g) i visited stack)
        (some (List.replicate V false, [])) with
      | none => none
      | some (_, stack) =>
        sccLoop (get_transpose V g) (kosFuel V g) stack.reverse
          (List.replicate V false) []) = some sccs
    rw [hfold]
    exact hloop
  · intro x
    rw [hjoin x]
    constructor
    · rintro (h | h)
      · exact absurd h (by simp)
      · exact (hSV x).mp (List.mem_reverse.mp h)
    · intro h
      exact Or.inr (List.mem_reverse.mpr ((hSV x).mpr h))
  · intro c hc u hu v hv
    exact ⟨hmut c hc u hu v hv, hmut c hc v hv u hu⟩

theorem c7_witness :
    ∃ sccs, find_sccs 3 [[1], [0, 2], []] = some sccs ∧
      sccs.flatten.Nodup ∧
      (∀ x, x ∈ sccs.flatten ↔ x < 3) ∧
      (∀ c ∈ sccs, ∀ u ∈ c, ∀ v ∈ c,
        Reach [[1], [0, 2], []] u v ∧ Reach [[1], [0, 2], []] v u) := by
  apply c7_kosaraju_partition 3 [[1], [0, 2], []] rfl
  intro u v hv
  match u with
  | 0 =>
    have h : v ∈ [1] := hv
    rw [List.mem_singleton.mp h]
    omega
  | 1 =>
    have h : v ∈ [0, 2] := hv
    rcases List.mem_cons.mp h with rfl | h2
    · omega
    · rw [List.mem_singleton.mp h2]
      omega
  | 2 =>
    have h : v ∈ ([] : List ℕ) := hv
    exact absurd h (List.not_mem_nil v)
  | u + 3 =>
    have h : ([[1], [0, 2], []] : List (List ℕ)).getD (u + 3) [] = [] :=
      List.getD_eq_default _ _ (by simp)
    rw [h] at hv
    exact absurd hv (List.not_mem_nil v)

end LearnPython
